import Mathlib

/-!
# templatex: template discovery and composition

A shallow embedding of `templatex.go` (package `templatex`) and of the parts of
the Go standard library it calls (`path/filepath`, `strings`, `io/fs`, `sort`),
followed by theorems about the discovery (`findTemplates`), the build
(`parseFS`, `ParseFS`, `ParseDir`) and the lookup (`ExecuteTemplate`).

Conventions of the embedding

* A Go `string` is a sequence of bytes; it is embedded as `List Char`, one
  `Char` standing for one byte, so `len(s)` is `List.length`.  Only the bytes
  `/` and `.` are ever inspected by the code.
* The host is Unix-like: `filepath.Separator` is `/`, there are no volume names.
* A file system handed to `fs.WalkDir` is a finite tree of named entries; a
  directory carries the error of `ReadDir`, if any.
* `sort.Slice` is taken by its documented contract (a permutation of the input
  that is ordered by `less`; no stability promise), as a parameter `Sorter`.
  Two instances are what Go runs on slices of at most twelve elements:
  `insertionSorter` (Go 1.19 and later) and `shellInsertionSorter` (Go 1.18 and
  earlier, a Shell pass with gap 6 before the insertion sort).
-/

namespace Templatex

/-- A Go string: a sequence of bytes, one `Char` per byte. -/
abbrev Path := List Char

/-- The constant `filepath.Separator` on a Unix-like host. -/
def Separator : Char := '/'

/-! ## `strings` -/

/-- Go `strings.HasPrefix(s, pre)`. -/
def HasPrefix (s pre : Path) : Bool := pre.isPrefixOf s

/-- Go `strings.HasSuffix(s, suf)`. -/
def HasSuffix (s suf : Path) : Bool := suf.isSuffixOf s

/-- Go `strings.TrimPrefix(s, pre)`: `s` without the leading `pre`, when it has it. -/
def TrimPrefix (s pre : Path) : Path :=
  if HasPrefix s pre then s.drop pre.length else s

/-- Go `strings.TrimSuffix(s, suf)`: `s` without the trailing `suf`, when it has it. -/
def TrimSuffix (s suf : Path) : Path :=
  if HasSuffix s suf then s.take (s.length - suf.length) else s

/-! ## `path/filepath` and `path` -/

/-- The elements of a path: the runs of bytes between separators
(`"a//b"` has the elements `a`, the empty one, and `b`). -/
def elements : Path → List Path
  | [] => [[]]
  | c :: cs =>
    if c = Separator then [] :: elements cs
    else match elements cs with
      | [] => [[c]]
      | e :: es => (c :: e) :: es

/-- Elements written back with one separator between neighbours. -/
def joinElements : List Path → Path
  | [] => []
  | [e] => e
  | e :: es => e ++ Separator :: joinElements es

/-- One step of the loop of `filepath.Clean` on the element `e`, `out` being the
elements written so far: empty elements and `.` are dropped; `..` removes the
last written element when there is one that is not itself `..`, is dropped at
the top of a rooted path, and is written otherwise; any other element is
written. -/
def cleanStep (rooted : Bool) (out : List Path) (e : Path) : List Path :=
  if e = [] then out
  else if e = ['.'] then out
  else if e = ['.', '.'] then
    match out.getLast? with
    | some l =>
      if l = ['.', '.'] then (if rooted then out else out ++ [e]) else out.dropLast
    | none => if rooted then out else out ++ [e]
  else out ++ [e]

/-- Go `filepath.Clean(path)` (and `path.Clean`) on a Unix-like host. -/
def Clean (path : Path) : Path :=
  if path = [] then ['.']
  else
    let rooted := path.head? = some Separator
    let out := (elements path).foldl (cleanStep rooted) []
    if rooted then Separator :: joinElements out
    else if out = [] then ['.'] else joinElements out

/-- The part of a path up to and including its last separator
(`path[:i+1]` for `i` the index of the last separator, empty when there is none). -/
def dirPart : Path → Path
  | [] => []
  | c :: cs => if Separator ∈ c :: cs then c :: dirPart cs else []

/-- The part of a path after its last separator (all of it when there is none). -/
def lastPart : Path → Path
  | [] => []
  | c :: cs => if Separator ∈ c :: cs then lastPart cs else c :: cs

/-- Go `filepath.Dir(path)`: all but the last element, cleaned. -/
def Dir (path : Path) : Path := Clean (dirPart path)

/-- The path without its trailing separators. -/
def stripTrailingSeparators (path : Path) : Path :=
  (path.reverse.dropWhile (fun c => c = Separator)).reverse

/-- Go `filepath.Base(path)`: the last element, trailing separators removed first;
`.` for the empty path and `/` for a path of separators only. -/
def Base (path : Path) : Path :=
  if path = [] then ['.']
  else
    let last := lastPart (stripTrailingSeparators path)
    if last = [] then [Separator] else last

/-- The suffix of an element that starts at its final dot; empty when it has no dot. -/
def finalDotSuffix : Path → Path
  | [] => []
  | c :: cs =>
    if '.' ∈ cs then finalDotSuffix cs
    else if c = '.' then c :: cs else []

/-- Go `filepath.Ext(path)`: the suffix beginning at the final dot in the final
element of `path`; empty if there is no dot. -/
def Ext (path : Path) : Path := finalDotSuffix (lastPart path)

/-- Go `path.Join(name, child)` for two elements, as `fs.WalkDir` calls it:
empty elements are ignored, the rest is joined by `/` and cleaned. -/
def Join (name child : Path) : Path :=
  if name = [] ∧ child = [] then []
  else if name = [] then Clean child
  else Clean (name ++ Separator :: child)

/-! ## `io/fs` -/

/-- A Go `error` value coming from the file system or from the template engine.
The sentinels `fs.SkipDir` and `fs.SkipAll` are control values of `fs.WalkDir`,
not failures, and are not members of this type. -/
inductive Error where
  | invalid
  | notExist
  | other (code : Nat)
deriving DecidableEq, Repr

/-- What `ReadDir` returns for a directory: its entries in the order returned.
A directory entry carries its own listing and the error of its `ReadDir`, if
any (the listing is then what was read before the error). -/
inductive Listing where
  | nil : Listing
  | file (name : Path) (rest : Listing) : Listing
  | dir (name : Path) (children : Listing) (readErr : Option Error) (rest : Listing) : Listing
deriving Repr

/-- A file or a directory of the tree. -/
inductive Node where
  | file : Node
  | dir (children : Listing) (readErr : Option Error) : Node
deriving Repr

/-- A Go `fs.FS`: the node that the path `.` names. -/
abbrev FS := Node

/-- Go `fs.DirEntry`, as far as the code looks at it. -/
structure DirEntry where
  IsDir : Bool
deriving DecidableEq, Repr

/-- An element that `fs.ValidPath` accepts: not empty, not `.`, not `..`. -/
def validElement (e : Path) : Bool :=
  !(e = [] || e = ['.'] || e = ['.', '.'])

/-- Go `fs.ValidPath(name)`: `.` or a sequence of valid elements separated by
single slashes (the bytes are taken to be valid UTF-8). -/
def ValidPath (name : Path) : Bool :=
  name = ['.'] || (elements name).all validElement

/-- The first entry of a listing with the given name. -/
def Listing.find : Listing → Path → Option Node
  | .nil, _ => none
  | .file n rest, name => if n = name then some .file else rest.find name
  | .dir n children readErr rest, name =>
    if n = name then some (.dir children readErr) else rest.find name

/-- The node reached from `node` along the elements `es`. -/
def lookup : Node → List Path → Except Error Node
  | node, [] => .ok node
  | .file, _ :: _ => .error .notExist
  | .dir children _, e :: es =>
    match children.find e with
    | none => .error .notExist
    | some node => lookup node es

/-- Go `fs.Stat(fsys, name)`: the entry that `name` names, or an error. -/
def Stat (fsys : FS) (name : Path) : Except Error Node :=
  if ValidPath name then
    if name = ['.'] then .ok fsys else lookup fsys (elements name)
  else .error .invalid

/-- Go `fs.WalkDirFunc`, the walk's state `σ` passed through: called with the
path, the entry (`nil` when `Stat` of the root failed) and the error, if any. -/
abbrev WalkDirFunc (σ : Type) := Path → Option DirEntry → Option Error → σ → Except Error σ

/-- The loop of `walkDir` over the entries `dirs` of the directory `name`: each
entry is visited at `path.Join(name, entry.Name())`; a directory is visited, its
`ReadDir` error (if any) reported by a second call, and then its entries are
walked. The first error returned by `fn` ends the walk. -/
def walkListing {σ : Type} (fn : WalkDirFunc σ) (name : Path) : Listing → σ → Except Error σ
  | .nil, s => .ok s
  | .file n rest, s =>
    match fn (Join name n) (some ⟨false⟩) none s with
    | .error e => .error e
    | .ok s1 => walkListing fn name rest s1
  | .dir n children readErr rest, s =>
    match fn (Join name n) (some ⟨true⟩) none s with
    | .error e => .error e
    | .ok s1 =>
      match (match readErr with
             | none => Except.ok s1
             | some e => fn (Join name n) (some ⟨true⟩) (some e) s1) with
      | .error e => .error e
      | .ok s2 =>
        match walkListing fn (Join name n) children s2 with
        | .error e => .error e
        | .ok s3 => walkListing fn name rest s3

/-- Go `walkDir(fsys, name, d, fn)` for the entry `node` at `name`. -/
def walkDir {σ : Type} (fn : WalkDirFunc σ) (name : Path) : Node → σ → Except Error σ
  | .file, s => fn name (some ⟨false⟩) none s
  | .dir children readErr, s =>
    match fn name (some ⟨true⟩) none s with
    | .error e => .error e
    | .ok s1 =>
      match (match readErr with
             | none => Except.ok s1
             | some e => fn name (some ⟨true⟩) (some e) s1) with
      | .error e => .error e
      | .ok s2 => walkListing fn name children s2

/-- Go `fs.WalkDir(fsys, root, fn)`: `Stat` the root; on failure call `fn` with the
error, otherwise walk the tree below the root, the root first. -/
def WalkDir {σ : Type} (fsys : FS) (root : Path) (fn : WalkDirFunc σ) (s : σ) : Except Error σ :=
  match Stat fsys root with
  | .error e => fn root none (some e) s
  | .ok node => walkDir fn root node s

/-! ## `sort` -/

/-- Go `sort.Slice(x, less)` by its contract: the result is a permutation of the
slice and, for a `less` that compares a key, it is ordered by that key. Nothing
is promised about the order of elements with equal keys. -/
structure Sorter where
  sort : (Path → Path → Bool) → List Path → List Path
  perm : ∀ less l, (sort less l).Perm l
  sorted : ∀ (key : Path → Nat) l,
    (sort (fun a b => decide (key a < key b)) l).Pairwise (fun a b => key a ≤ key b)

/-- The inner loop of Go's `insertionSortLessFunc`: the new element is swapped
leftwards past every neighbour it is less than. The part already sorted is
given nearest neighbour first. -/
def sinkLeft (less : Path → Path → Bool) (x : Path) : List Path → List Path
  | [] => [x]
  | y :: ys => if less x y then y :: sinkLeft less x ys else x :: y :: ys

/-- Go's `insertionSortLessFunc`, which `sort.Slice` of Go 1.19 and later runs on a
slice of at most twelve elements. -/
def insertionSort (less : Path → Path → Bool) (l : List Path) : List Path :=
  (l.foldl (fun sortedRev x => sinkLeft less x sortedRev) []).reverse

/-! ## `templatex.go` -/

/-- Go `ParseError`. -/
structure ParseError where
  Path : Path
  Err : Error
deriving DecidableEq, Repr

/-- Go `templateInfo`: identifier, include directories, files to parse. -/
structure templateInfo where
  id : Path
  includes : List Path
  files : List Path
deriving DecidableEq, Repr

/-- The three slices that `walkfn` appends to. -/
structure Found where
  includeDirs : List Path
  layouts : List Path
  templates : List Path
deriving DecidableEq, Repr

/-- The closure `walkfn` of `findTemplates`. An error is handed back; a directory
is recorded when its base name is `includeDir`; a file directly inside an include
directory is skipped; any other file is a layout when its path ends with
`/` followed by `layout`, and a template otherwise. With no error and no entry the
Go code would dereference `nil`; `fs.WalkDir` never makes that call. -/
def walkfn (includeDir layout : Path) : WalkDirFunc Found := fun path info err st =>
  match err with
  | some e => .error e
  | none =>
    match info with
    | none => .ok st
    | some d =>
      if d.IsDir then
        if Base path = includeDir then
          .ok { st with includeDirs := st.includeDirs ++ [path] }
        else .ok st
      else if Base (Dir path) = includeDir then .ok st
      else if HasSuffix path (Separator :: layout) then
        .ok { st with layouts := st.layouts ++ [path] }
      else .ok { st with templates := st.templates ++ [path] }

/-- The `less` of both `sort.Slice` calls: by length of the path. -/
def lessByLen (a b : Path) : Bool := decide (a.length < b.length)

/-- The body of the loop over `templates` in `findTemplates`: the plan of the
template `t`, given the cleaned root and the sorted include directories and
layouts. -/
def planFor (dir : Path) (includeDirs layouts : List Path) (t : Path) : templateInfo :=
  let includes := includeDirs.filter (fun i => HasPrefix t (Dir i))
  let files := layouts.filter (fun l => HasPrefix t (Dir l)) ++ [t]
  let id := TrimPrefix t (dir ++ [Separator])
  let id := TrimSuffix id (Ext id)
  { id := id, includes := includes, files := files }

/-- The walk of `findTemplates`: what `fs.WalkDir` with `walkfn` records, the
directory names cleaned first. -/
def scan (files : FS) (dir includeDir layout : Path) : Except Error Found :=
  WalkDir files (Clean dir) (walkfn (Clean includeDir) layout) ⟨[], [], []⟩

/-- Go `findTemplates(files, dir, includeDir, layout)`: the returned slice (`nil`
is the empty list) and the returned error. -/
def findTemplates (S : Sorter) (files : FS) (dir includeDir layout : Path) :
    List templateInfo × Option ParseError :=
  match scan files dir includeDir layout with
  | .error err => ([], some { Path := Clean dir, Err := err })
  | .ok found =>
    let layouts := S.sort lessByLen found.layouts
    let includeDirs := S.sort lessByLen found.includeDirs
    (found.templates.map (planFor (Clean dir) includeDirs layouts), none)

/-- Go `NotFoundError`. -/
structure NotFoundError where
  Template : Path
deriving DecidableEq, Repr

/-- Go `ExecuteError`. -/
structure ExecuteError where
  Template : Path
  Err : Error
deriving DecidableEq, Repr

/-- A non-nil Go `error` returned by this package: one of its three error types. -/
inductive TemplateError where
  | parse (e : ParseError)
  | notFound (e : NotFoundError)
  | execute (e : ExecuteError)
deriving DecidableEq, Repr

/-- The collaborators that `templatex.go` only calls: `html/template` and
`fs.Glob`. `U` is a compiled template (`*template.Template`), `F` a template
function, `D` the data given to `Execute`. A writer is the bytes written to it
so far. -/
structure Engine (U F D : Type) where
  /-- Go `template.New(name).Funcs(funcMap)`. -/
  New : Path → List (Path × F) → U
  /-- Go `fs.Glob(files, pattern)`. -/
  Glob : FS → Path → Except Error (List Path)
  /-- Go `t.ParseFS(files, patterns...)`. -/
  ParseFS : U → FS → List Path → Except Error U
  /-- Go `t.Execute(w, data)`: the writer afterwards and the error, if any. -/
  Execute : U → Path → D → Path × Option Error

/-- A Go `map[string]*template.Template` that is not `nil`: keys are distinct. -/
abbrev Registry (U : Type) := List (Path × U)

/-- Go `m[k]` with the comma-ok form: the value stored under `k`, if any. -/
def Registry.get {U : Type} : Registry U → Path → Option U
  | [], _ => none
  | (k1, v1) :: rest, k => if k1 = k then some v1 else Registry.get rest k

/-- Go `m[k] = v`: the entry of `k` is replaced, or added when there is none. -/
def Registry.set {U : Type} : Registry U → Path → U → Registry U
  | [], k, v => [(k, v)]
  | (k1, v1) :: rest, k, v =>
    if k1 = k then (k, v) :: rest else (k1, v1) :: Registry.set rest k v

/-- The loop over `info.includes` in `parseFS`: each include directory is
expanded by `fs.Glob` on `dir/*` and the matches are parsed into `t`. -/
def parseIncludes {U F D : Type} (E : Engine U F D) (files : FS) :
    U → List Path → Except ParseError U
  | t, [] => .ok t
  | t, f :: rest =>
    match E.Glob files (f ++ [Separator] ++ ['*']) with
    | .error err => .error { Path := f ++ [Separator] ++ ['*'], Err := err }
    | .ok gf =>
      match E.ParseFS t files gf with
      | .error err => .error { Path := f ++ [Separator] ++ ['*'], Err := err }
      | .ok t1 => parseIncludes E files t1 rest

/-- Go `fmt.Sprintf("%v", files)` for a slice of strings: `[a b c]`. -/
def formatFiles (files : List Path) : Path :=
  '[' :: (List.intercalate [' '] files ++ [']'])

/-- The loop over `templateInfos` in `parseFS`: the registry built so far, then
per plan a fresh template, the include directories, the files, and the store
under the identifier. The first failure returns `nil` and the error. -/
def parsePlans {U F D : Type} (E : Engine U F D) (files : FS) (layout : Path)
    (funcMap : List (Path × F)) :
    Registry U → List templateInfo → Option (Registry U) × Option ParseError
  | templates, [] => (some templates, none)
  | templates, info :: rest =>
    match parseIncludes E files (E.New layout funcMap) info.includes with
    | .error err => (none, some err)
    | .ok t =>
      match E.ParseFS t files info.files with
      | .error err => (none, some { Path := formatFiles info.files, Err := err })
      | .ok t1 => parsePlans E files layout funcMap (Registry.set templates info.id t1) rest

/-- Go `parseFS(files, dir, includeDir, layout, funcMap)`: the returned map (`none`
is `nil`) and the returned error. -/
def parseFS {U F D : Type} (S : Sorter) (E : Engine U F D) (files : FS)
    (dir includeDir layout : Path) (funcMap : List (Path × F)) :
    Option (Registry U) × Option ParseError :=
  match findTemplates S files dir includeDir layout with
  | (_, some err) => (none, some err)
  | (templateInfos, none) => parsePlans E files layout funcMap [] templateInfos

/-- Go `Template`. The field `templates` is `none` for a `nil` map. -/
structure Template (U F : Type) where
  Layout : Path
  IncludeDir : Path
  FuncMap : List (Path × F)
  templates : Option (Registry U)

/-- Go `New()`. -/
def New {U F : Type} : Template U F :=
  { Layout := "layout.html".toList, IncludeDir := "includes".toList, FuncMap := [],
    templates := none }

/-- Go `(*Template).ParseFS(files, dir)`: the template afterwards and the error. -/
def Template.ParseFS {U F D : Type} (S : Sorter) (E : Engine U F D) (t : Template U F)
    (files : FS) (dir : Path) : Template U F × Option ParseError :=
  let r := parseFS S E files dir t.IncludeDir t.Layout t.FuncMap
  ({ t with templates := r.1 }, r.2)

/-- Go `(*Template).ParseDir(dir)`; `cwd` is what `os.DirFS(".")` shows. -/
def Template.ParseDir {U F D : Type} (S : Sorter) (E : Engine U F D) (cwd : FS)
    (t : Template U F) (dir : Path) : Template U F × Option ParseError :=
  let r := parseFS S E cwd dir t.IncludeDir t.Layout t.FuncMap
  ({ t with templates := r.1 }, r.2)

/-- What a call of `ExecuteTemplate` leaves behind: the receiver, the writer and
the returned error. -/
structure Executed (U F : Type) where
  receiver : Template U F
  writer : Path
  err : Option TemplateError

/-- Go `(*Template).ExecuteTemplate(w, name, data)`. A lookup in a `nil` map
finds nothing. -/
def Template.ExecuteTemplate {U F D : Type} (E : Engine U F D) (t : Template U F)
    (w : Path) (name : Path) (data : D) : Executed U F :=
  match t.templates.bind (fun m => Registry.get m name) with
  | none => { receiver := t, writer := w, err := some (.notFound { Template := name }) }
  | some tmpl =>
    match E.Execute tmpl w data with
    | (w1, some err) =>
      { receiver := t, writer := w1, err := some (.execute { Template := name, Err := err }) }
    | (w1, none) => { receiver := t, writer := w1, err := none }

/-! ## Specification-side notions and fixtures -/

/-- A name that `ReadDir` can return for an entry: a valid element without a
separator. -/
def validName (n : Path) : Bool := validElement n && !(n.contains Separator)

/-- The path with the given elements: `.` for none, else the elements joined. -/
def pathOfElements (L : List Path) : Path := if L = [] then ['.'] else joinElements L

/-- All names in a listing are names `ReadDir` can return. -/
def Listing.valid : Listing → Bool
  | .nil => true
  | .file n rest => validName n && rest.valid
  | .dir n children _ rest => validName n && children.valid && rest.valid

/-- All names at or below the node are names `ReadDir` can return. -/
def Node.valid : Node → Bool
  | .file => true
  | .dir children _ => children.valid

/-- The tag that `walkfn` gives a visited entry. -/
inductive EntryClass where
  | IncludeDir
  | Layout
  | PlainTemplate
  | Ignored
deriving DecidableEq, Repr

/-- The tag of the entry visited at `path`, read off the branches of `walkfn`. -/
def classify (includeDir layout path : Path) (isDir : Bool) : EntryClass :=
  if isDir then
    if Base path = includeDir then .IncludeDir else .Ignored
  else if Base (Dir path) = includeDir then .Ignored
  else if HasSuffix path (Separator :: layout) then .Layout
  else .PlainTemplate

/-- The effect of one error-free call of `walkfn` on the three slices. -/
def record (includeDir layout : Path) (st : Found) (v : Path × Bool) : Found :=
  match classify includeDir layout v.1 v.2 with
  | .IncludeDir => { st with includeDirs := st.includeDirs ++ [v.1] }
  | .Layout => { st with layouts := st.layouts ++ [v.1] }
  | .PlainTemplate => { st with templates := st.templates ++ [v.1] }
  | .Ignored => st

/-- The entries that the walk of a listing visits when no error occurs, in order:
path and whether it is a directory. -/
def Listing.visits (name : Path) : Listing → List (Path × Bool)
  | .nil => []
  | .file n rest => (Join name n, false) :: rest.visits name
  | .dir n children _ rest =>
    (Join name n, true) :: (children.visits (Join name n) ++ rest.visits name)

/-- The entries that the walk from a node visits when no error occurs, the node
first. -/
def Node.visits (name : Path) : Node → List (Path × Bool)
  | .file => [(name, false)]
  | .dir children _ => (name, true) :: children.visits name

/-- The first `ReadDir` error in walk order among the directories of a listing. -/
def Listing.firstError : Listing → Option Error
  | .nil => none
  | .file _ rest => rest.firstError
  | .dir _ children readErr rest =>
    match readErr with
    | some e => some e
    | none =>
      match children.firstError with
      | some e => some e
      | none => rest.firstError

/-- The first `ReadDir` error in walk order at or below a node. -/
def Node.firstError : Node → Option Error
  | .file => none
  | .dir children readErr =>
    match readErr with
    | some e => some e
    | none => children.firstError

/-- Whether the node is a directory. -/
def Node.isDir : Node → Bool
  | .file => false
  | .dir _ _ => true

/-- What a successful scan records, entry by entry. -/
structure ScanFacts (root : List Path) (includeDir layout : Path) (found : Found) : Prop where
  templates : ∀ t ∈ found.templates, ∃ M, (∀ e ∈ root ++ M, validName e = true) ∧
    t = pathOfElements (root ++ M) ∧ classify includeDir layout t false = .PlainTemplate
  layouts : ∀ l ∈ found.layouts, ∃ M, (∀ e ∈ root ++ M, validName e = true) ∧
    l = pathOfElements (root ++ M) ∧ classify includeDir layout l false = .Layout
  includeDirs : ∀ i ∈ found.includeDirs, ∃ M, (∀ e ∈ root ++ M, validName e = true) ∧
    i = pathOfElements (root ++ M) ∧ classify includeDir layout i true = .IncludeDir
  rootOnce : ∀ t ∈ found.templates ++ found.layouts, ∀ i ∈ found.includeDirs,
    t = pathOfElements root → i = pathOfElements root → False

/-- Directory `a` is directory `b` or an ancestor of it, by whole path elements. -/
def isAncestorOrSelf (a b : Path) : Prop := elements a <+: elements b

/-- The number of path elements. -/
def depth (p : Path) : Nat := (elements p).length

/-- A template tree as the package tests use it: a root layout and include
directory, a `profile` directory with its own layout, and `profile/payments` with a
layout and an include directory of its own. -/
def templatesListing : Listing :=
  .dir "includes".toList
    (.file "footer.html".toList (.file "header.html".toList .nil)) none
  (.file "layout.html".toList
  (.dir "profile".toList
    (.file "edit.html".toList
    (.file "layout.html".toList
    (.dir "payments".toList
      (.dir "includes".toList (.file "method.html".toList .nil) none
      (.file "layout.html".toList
      (.file "methods.html".toList .nil))) none
    (.file "view.html".toList .nil)))) none
  .nil))

/-- The working directory of the tests: the tree at `test/templates`. -/
def testDirFS : FS :=
  .dir (.dir "test".toList (.dir "templates".toList templatesListing none .nil) none .nil) none

/-- The embedded file system of the tests: the tree at `.`. -/
def templatesFS : FS := .dir templatesListing none

/-- What the scan of `test/templates` records. -/
def testDirFound : Found :=
  { includeDirs := ["test/templates/includes".toList,
      "test/templates/profile/payments/includes".toList],
    layouts := ["test/templates/layout.html".toList, "test/templates/profile/layout.html".toList,
      "test/templates/profile/payments/layout.html".toList],
    templates := ["test/templates/profile/edit.html".toList,
      "test/templates/profile/payments/methods.html".toList,
      "test/templates/profile/view.html".toList] }

/-- The part of a path element before its final dot; all of it when it has no dot. -/
def beforeFinalDot : Path → Path
  | [] => []
  | c :: cs =>
    if '.' ∈ cs then c :: beforeFinalDot cs
    else if c = '.' then [] else c :: cs

/-- The identifier the specification gives a leaf at `rel` below the scan root: `rel`
with the extension of its last path element removed, that is, the last element cut
before its final dot; the directory elements are left as they are. -/
def withoutExtension (rel : Path) : Path :=
  joinElements ((elements rel).dropLast ++ [beforeFinalDot ((elements rel).getLastD [])])

/-- A tree with one leaf: `root/profile/view.html`. -/
def rootProfileFS : FS :=
  .dir (.dir "root".toList
    (.dir "profile".toList (.file "view.html".toList .nil) none .nil) none .nil) none

instance decidableIsAncestorOrSelf (a b : Path) : Decidable (isAncestorOrSelf a b) := by
  unfold isAncestorOrSelf; infer_instance

/-- A tree with two sibling directories, the name of one a string prefix of the
other: `root/a/includes/p.html`, `root/a/layout.html` and `root/ab/x.html`. -/
def siblingFS : FS :=
  .dir (.dir "root".toList
    (.dir "a".toList
      (.dir "includes".toList (.file "p.html".toList .nil) none
      (.file "layout.html".toList .nil)) none
    (.dir "ab".toList (.file "x.html".toList .nil) none .nil)) none .nil) none

/-- The files below a listing, each given by the names that lead to it. -/
def Listing.filePaths : Listing → List (List Path)
  | .nil => []
  | .file n rest => [n] :: rest.filePaths
  | .dir n children _ rest => (children.filePaths.map (fun names => n :: names)) ++ rest.filePaths

/-- The files at or below a node, each given by the names that lead to it from the
node (no name for the node itself). -/
def Node.filePaths : Node → List (List Path)
  | .file => [[]]
  | .dir children _ => children.filePaths

/-- The path at which the walk from `root` visits the entry that the names lead to:
`fs.WalkDir` joins them to the root one by one. -/
def walkPath (root : Path) (names : List Path) : Path := names.foldl Join root

/-- The path of the directory that holds the entry: the entry one name up, and for
the root itself its `Dir`. -/
def parentPath (root : Path) (names : List Path) : Path :=
  match names with
  | [] => Dir root
  | _ :: _ => walkPath root names.dropLast

/-- A tree with a directory below an include directory:
`root/includes/sub/x.html`. -/
def nestedIncludeFS : FS :=
  .dir (.dir "root".toList
    (.dir "includes".toList
      (.dir "sub".toList (.file "x.html".toList .nil) none .nil) none .nil) none .nil) none

/-- The names of the directories between the scan root and a leaf below it: the
elements of the leaf's path after the root, without the file name. -/
def directoriesBetween (root t : Path) : List Path :=
  (elements (TrimPrefix t (root ++ [Separator]))).dropLast

/-- The name is a key of the template's registry: the map is not `nil` and holds an
entry under the name. -/
def Template.isKey {U F : Type} (t : Template U F) (name : Path) : Prop :=
  ∃ m u, t.templates = some m ∧ (name, u) ∈ m

/-- An engine for examples: a compiled template is the list of the files parsed
into it; `Glob` returns its pattern; a file whose path ends in `broken.html` is
rejected; `Execute` writes the parsed file names and fails when there are none. -/
def listEngine : Engine (List Path) Unit Unit where
  New := fun _ _ => []
  Glob := fun _ pattern => .ok [pattern]
  ParseFS := fun t _ patterns =>
    if patterns.any (fun p => HasSuffix p "broken.html".toList) then .error (.other 1)
    else .ok (t ++ patterns)
  Execute := fun t w _ =>
    if t = [] then (w, some (.other 2)) else (w ++ List.intercalate [' '] t, none)

/-- A tree with a leaf that `listEngine` compiles and one that it rejects:
`root/a.html` and `root/broken.html`. -/
def brokenLeafFS : FS :=
  .dir (.dir "root".toList
    (.file "a.html".toList (.file "broken.html".toList .nil)) none .nil) none

/-- A template with one registered name, `old`, from an earlier parse. -/
def parsedBefore : Template (List Path) Unit :=
  { Layout := "layout.html".toList, IncludeDir := "includes".toList, FuncMap := [],
    templates := some [("old".toList, ["old.html".toList]), ("empty".toList, [])] }

/-- The entry at which the walk of a listing fails, with the error: the first
directory in walk order whose `ReadDir` failed. -/
def Listing.firstFailure (name : Path) : Listing → Option (Path × Error)
  | .nil => none
  | .file _ rest => rest.firstFailure name
  | .dir n children readErr rest =>
    match readErr with
    | some e => some (Join name n, e)
    | none =>
      match children.firstFailure (Join name n) with
      | some failure => some failure
      | none => rest.firstFailure name

/-- The entry at or below a node at which the walk fails, with the error. -/
def Node.firstFailure (name : Path) : Node → Option (Path × Error)
  | .file => none
  | .dir children readErr =>
    match readErr with
    | some e => some (name, e)
    | none => children.firstFailure name

/-- The entry at which the traversal from `root` fails, with the error: the root
when its `Stat` fails, else the first directory whose `ReadDir` fails. -/
def traversalFailure (files : FS) (root : Path) : Option (Path × Error) :=
  match Stat files root with
  | .error e => some (root, e)
  | .ok node => node.firstFailure root

/-- A tree with a directory that cannot be read: `root/sub`, whose `ReadDir` fails,
next to `root/a.html`. -/
def unreadableSubFS : FS :=
  .dir (.dir "root".toList
    (.file "a.html".toList (.dir "sub".toList .nil (some (.other 13)) .nil)) none .nil) none

/-- The Go zero value `Template{}`: `Layout` and `IncludeDir` left unset. -/
def unsetTemplate {U F : Type} : Template U F :=
  { Layout := [], IncludeDir := [], FuncMap := [], templates := none }

/-- A tree as in the example program: `templates/profile/view.html` next to
`templates/layout.html`. -/
def templatesDirFS : FS :=
  .dir (.dir "templates".toList
    (.file "layout.html".toList
    (.dir "profile".toList (.file "view.html".toList .nil) none .nil)) none .nil) none

/-- The specification's rule for a layout file: the path ends with `/` followed by
the layout file name. -/
def isLayoutPath (layout path : Path) : Bool := HasSuffix path (Separator :: layout)

/-- The specification's rule for a file directly inside an include directory: the
base name of its parent directory is the include directory name (cleaned, as
`findTemplates` takes it). -/
def directlyInIncludeDir (includeDir path : Path) : Bool :=
  decide (Base (Dir path) = Clean includeDir)

/-- The leaves among visited entries: the files that are neither directly inside an
include directory nor layout files, in the order visited. -/
def visitedLeaves (includeDir layout : Path) (vs : List (Path × Bool)) : List Path :=
  (vs.filter (fun v =>
    !v.2 && !directlyInIncludeDir includeDir v.1 && !isLayoutPath layout v.1)).map Prod.fst

/-- What the walk records from the entries `vs`, visited in this order without error. -/
def foundOf (includeDir layout : Path) (vs : List (Path × Bool)) : Found :=
  vs.foldl (record (Clean includeDir) layout) ⟨[], [], []⟩

/-- The plans that `findTemplates` builds when the walk visits the entries `vs` in
this order without error: the recorded layouts and include directories are sorted and
every recorded template gets its plan. -/
def plansOfVisits (S : Sorter) (dir includeDir layout : Path) (vs : List (Path × Bool)) :
    List templateInfo :=
  (foundOf includeDir layout vs).templates.map
    (planFor (Clean dir) (S.sort lessByLen (foundOf includeDir layout vs).includeDirs)
      (S.sort lessByLen (foundOf includeDir layout vs).layouts))

/-- The paths of the entries that the walk from the scan root visits (none when the
root cannot be found). -/
def entryPaths (files : FS) (dir : Path) : List Path :=
  match Stat files (Clean dir) with
  | .ok node => (node.visits (Clean dir)).map Prod.fst
  | .error _ => []

/-- The Shell pass with gap 6 that `sort.Slice` of Go 1.18 and earlier runs on a slice
of at most twelve elements before its insertion sort: element `i` is swapped with
element `i-6` when it is less. `front` is the first six elements, `back` the rest. -/
def shellPass (less : Path → Path → Bool) : List Path → List Path → List Path × List Path
  | x :: xs, y :: ys =>
    if less y x then (y :: (shellPass less xs ys).1, x :: (shellPass less xs ys).2)
    else (x :: (shellPass less xs ys).1, y :: (shellPass less xs ys).2)
  | [], back => ([], back)
  | front, [] => (front, [])

/-- What `sort.Slice` of Go 1.18 and earlier does to a slice of at most twelve
elements: a Shell pass with gap 6, then insertion sort. A longer slice is sorted by
insertion sort here, which stands for any sort that meets the contract. -/
def shellInsertionSort (less : Path → Path → Bool) (l : List Path) : List Path :=
  if l.length ≤ 12 then
    insertionSort less ((shellPass less (l.take 6) (l.drop 6)).1 ++
      (shellPass less (l.take 6) (l.drop 6)).2)
  else insertionSort less l

/-- The sorted list keeps the discovery order of paths of equal length: for every
length, the paths of that length come in the order they have in `l`. -/
def keepsDiscoveryOrder (sorted l : List Path) : Prop :=
  ∀ k : Nat, sorted.filter (fun p => p.length == k) = l.filter (fun p => p.length == k)

/-- A tree with seven layouts: one in each of `root/aa` ... `root/af`, discovered
first, and `root/layout.html`, discovered last; `root/aa/x.html` is the only leaf. -/
def sevenLayoutsFS : FS :=
  .dir (.dir "root".toList
    (.dir "aa".toList (.file "layout.html".toList (.file "x.html".toList .nil)) none
    (.dir "ab".toList (.file "layout.html".toList .nil) none
    (.dir "ac".toList (.file "layout.html".toList .nil) none
    (.dir "ad".toList (.file "layout.html".toList .nil) none
    (.dir "ae".toList (.file "layout.html".toList .nil) none
    (.dir "af".toList (.file "layout.html".toList .nil) none
    (.file "layout.html".toList .nil))))))) none .nil) none

/-- The layouts of `sevenLayoutsFS` in discovery order. -/
def sevenLayouts : List Path :=
  ["root/aa/layout.html".toList, "root/ab/layout.html".toList, "root/ac/layout.html".toList,
   "root/ad/layout.html".toList, "root/ae/layout.html".toList, "root/af/layout.html".toList,
   "root/layout.html".toList]

/-- One include step of the specification: expand the include directory `f` to its
direct children by the glob `f/*` and feed them to the engine's compile step; a
failure is reported with the glob pattern. An earlier failure is kept. -/
def includeStep {U F D : Type} (E : Engine U F D) (files : FS)
    (acc : Except ParseError U) (f : Path) : Except ParseError U :=
  match acc with
  | .error e => .error e
  | .ok t =>
    match E.Glob files (f ++ [Separator] ++ ['*']) with
    | .error err => .error { Path := f ++ [Separator] ++ ['*'], Err := err }
    | .ok children =>
      match E.ParseFS t files children with
      | .error err => .error { Path := f ++ [Separator] ++ ['*'], Err := err }
      | .ok t1 => .ok t1

/-- The compile steps of the specification for one plan, in order: a fresh unit named
after the layout with the function table; one include step per include directory, in
the order of `includes`; one final step fed with `files` (the layouts, then the
leaf). -/
def compilePlan {U F D : Type} (E : Engine U F D) (files : FS) (layout : Path)
    (funcMap : List (Path × F)) (plan : templateInfo) : Except ParseError U :=
  match plan.includes.foldl (includeStep E files) (.ok (E.New layout funcMap)) with
  | .error e => .error e
  | .ok t =>
    match E.ParseFS t files plan.files with
    | .error err => .error { Path := formatFiles plan.files, Err := err }
    | .ok unit => .ok unit

/-- The registry of the specification: each plan in turn is compiled and stored under
its identifier; the first failure aborts. -/
def registerAll {U : Type} (compile : templateInfo → Except ParseError U) :
    Registry U → List templateInfo → Except ParseError (Registry U)
  | registry, [] => .ok registry
  | registry, plan :: rest =>
    match compile plan with
    | .error e => .error e
    | .ok unit => registerAll compile (Registry.set registry plan.id unit) rest

/-- The names of the direct children of a listing. -/
def Listing.names : Listing → List Path
  | .nil => []
  | .file n rest => n :: rest.names
  | .dir n _ _ rest => n :: rest.names

/-- An engine for examples that logs its compile steps: a compiled unit is the list
of the source lists fed to it, one per step; `Glob` on `dir/*` lists the direct
children of `dir`. -/
def stepLogEngine : Engine (List (List Path)) Unit Unit where
  New := fun _ _ => []
  Glob := fun files pattern =>
    match Stat files (pattern.take (pattern.length - 2)) with
    | .ok (.dir children _) =>
      .ok (children.names.map (fun n => pattern.take (pattern.length - 1) ++ n))
    | _ => .ok []
  ParseFS := fun t _ sources => .ok (t ++ [sources])
  Execute := fun _ w _ => (w, none)

/-- A tree with two leaves that derive the same identifier:
`root/profile/view.html` and `root/profile/view.txt`. -/
def collidingFS : FS :=
  .dir (.dir "root".toList
    (.dir "profile".toList
      (.file "view.html".toList (.file "view.txt".toList .nil)) none .nil) none .nil) none

/-- The kind of an error of this package: its Go type. -/
inductive ErrorKind where
  | ParseError
  | NotFoundError
  | ExecuteError
deriving DecidableEq, Repr

/-- The kind of an error value. -/
def TemplateError.kind : TemplateError → ErrorKind
  | .parse _ => .ParseError
  | .notFound _ => .NotFoundError
  | .execute _ => .ExecuteError

/-- The Go `error` that a build returns: `nil`, or the `ParseError` as an error value. -/
def buildError {U : Type} (result : Option (Registry U) × Option ParseError) :
    Option TemplateError :=
  result.2.map TemplateError.parse

/-- An engine for examples whose glob expansion fails: a discovery failure. -/
def failingGlobEngine : Engine (List (List Path)) Unit Unit where
  New := fun _ _ => []
  Glob := fun _ _ => .error (.other 7)
  ParseFS := fun t _ sources => .ok (t ++ [sources])
  Execute := fun _ w _ => (w, none)

/-- An engine for examples that rejects every source: a compile failure. -/
def rejectingEngine : Engine (List (List Path)) Unit Unit where
  New := fun _ _ => []
  Glob := fun _ pattern => .ok [pattern]
  ParseFS := fun _ _ _ => .error (.other 7)
  Execute := fun _ w _ => (w, none)

/-! ## Lemmas -/

theorem validName_iff (n : Path) :
    validName n = true ↔ n ≠ [] ∧ n ≠ ['.'] ∧ n ≠ ['.', '.'] ∧ Separator ∉ n := by
  simp [validName, validElement, List.contains_iff_exists_mem_beq, and_assoc]

theorem elements_ne_nil (p : Path) : elements p ≠ [] := by
  cases p with
  | nil => simp [elements]
  | cons c cs =>
    simp only [elements]
    split
    · simp
    · split <;> simp

theorem elements_of_no_sep (e : Path) (h : Separator ∉ e) : elements e = [e] := by
  induction e with
  | nil => rfl
  | cons c cs ih =>
    have hc : c ≠ Separator := fun hc => h (hc ▸ List.mem_cons_self _ _)
    have hcs : Separator ∉ cs := fun hm => h (List.mem_cons_of_mem _ hm)
    simp [elements, hc, ih hcs]

theorem elements_append_sep (p q : Path) :
    elements (p ++ Separator :: q) = elements p ++ elements q := by
  induction p with
  | nil => simp [elements]
  | cons c cs ih =>
    by_cases hc : c = Separator
    · simp [elements, hc, ih]
    · rw [List.cons_append]
      simp only [elements, hc, if_false]
      rw [ih]
      cases h : elements cs with
      | nil => exact absurd h (elements_ne_nil cs)
      | cons e es => simp

theorem joinElements_cons_cons (e e1 : Path) (es : List Path) :
    joinElements (e :: e1 :: es) = e ++ Separator :: joinElements (e1 :: es) := rfl

theorem joinElements_append_singleton (L : List Path) (hL : L ≠ []) (f : Path) :
    joinElements (L ++ [f]) = joinElements L ++ Separator :: f := by
  induction L with
  | nil => exact absurd rfl hL
  | cons e es ih =>
    cases es with
    | nil => simp [joinElements]
    | cons e1 es1 =>
      have := ih (by simp)
      simp only [List.cons_append, joinElements_cons_cons] at this ⊢
      rw [this]; simp

theorem elements_joinElements (L : List Path) (hL : L ≠ []) (h : ∀ e ∈ L, Separator ∉ e) :
    elements (joinElements L) = L := by
  induction L with
  | nil => exact absurd rfl hL
  | cons e es ih =>
    cases es with
    | nil => simpa [joinElements] using elements_of_no_sep e (h e (by simp))
    | cons e1 es1 =>
      rw [joinElements_cons_cons, elements_append_sep,
        elements_of_no_sep e (h e (by simp)), ih (by simp) (fun x hx => h x (by simp [hx]))]
      simp

theorem joinElements_elements (p : Path) : joinElements (elements p) = p := by
  induction p with
  | nil => rfl
  | cons c cs ih =>
    by_cases hc : c = Separator
    · simp only [elements, hc, if_true]
      cases h : elements cs with
      | nil => exact absurd h (elements_ne_nil cs)
      | cons e es => rw [joinElements_cons_cons, ← h, ih]; simp
    · simp only [elements, hc, if_false]
      cases h : elements cs with
      | nil => exact absurd h (elements_ne_nil cs)
      | cons e es =>
        rw [h] at ih
        cases es with
        | nil => simp [joinElements] at ih ⊢; exact ih
        | cons e1 es1 =>
          rw [joinElements_cons_cons] at ih ⊢
          simp [← ih]

theorem sep_not_mem_of_mem_elements (p e : Path) (h : e ∈ elements p) : Separator ∉ e := by
  induction p generalizing e with
  | nil => simp [elements] at h; simp [h]
  | cons c cs ih =>
    by_cases hc : c = Separator
    · simp only [elements, hc, if_true, List.mem_cons] at h
      rcases h with rfl | h
      · simp
      · exact ih e h
    · simp only [elements, hc, if_false] at h
      cases h2 : elements cs with
      | nil => exact absurd h2 (elements_ne_nil cs)
      | cons e0 es =>
        rw [h2] at h ih
        simp only [List.mem_cons] at h
        rcases h with rfl | h
        · intro hm
          rcases List.mem_cons.mp hm with h3 | h3
          · exact hc h3.symm
          · exact ih e0 (by simp) h3
        · exact ih e (by simp [h])

theorem validName_validElement {n : Path} (h : validName n = true) : validElement n = true := by
  simp only [validName, Bool.and_eq_true] at h; exact h.1

theorem validName_no_sep {n : Path} (h : validName n = true) : Separator ∉ n :=
  ((validName_iff n).mp h).2.2.2

theorem validName_ne_nil {n : Path} (h : validName n = true) : n ≠ [] :=
  ((validName_iff n).mp h).1

theorem cleanStep_valid (rooted : Bool) (out : List Path) (e : Path)
    (h : validElement e = true) : cleanStep rooted out e = out ++ [e] := by
  simp only [validElement, Bool.not_eq_true', Bool.or_eq_false_iff, decide_eq_false_iff_not] at h
  simp [cleanStep, h.1.1, h.1.2, h.2]

theorem foldl_cleanStep_valid (rooted : Bool) (L out : List Path)
    (h : ∀ e ∈ L, validElement e = true) :
    L.foldl (cleanStep rooted) out = out ++ L := by
  induction L generalizing out with
  | nil => simp
  | cons e es ih =>
    rw [List.foldl_cons, cleanStep_valid rooted out e (h e (by simp)),
      ih _ (fun x hx => h x (by simp [hx]))]
    simp

theorem joinElements_ne_nil (L : List Path) (hL : L ≠ []) (h : ∀ e ∈ L, validName e = true) :
    joinElements L ≠ [] := by
  cases L with
  | nil => exact absurd rfl hL
  | cons e es =>
    have he := validName_ne_nil (h e (by simp))
    cases es with
    | nil => simpa [joinElements] using he
    | cons e1 es1 => simp [joinElements_cons_cons, he]

theorem joinElements_head (L : List Path) (hL : L ≠ []) (h : ∀ e ∈ L, validName e = true) :
    (joinElements L).head? ≠ some Separator := by
  cases L with
  | nil => exact absurd rfl hL
  | cons e es =>
    have he := validName_ne_nil (h e (by simp))
    have hs := validName_no_sep (h e (by simp))
    cases e with
    | nil => exact absurd rfl he
    | cons c cs =>
      have hc : c ≠ Separator := fun hc => hs (hc ▸ List.mem_cons_self _ _)
      cases es with
      | nil => simpa [joinElements] using hc
      | cons e1 es1 => simpa [joinElements_cons_cons] using hc

theorem Clean_joinElements (L : List Path) (hL : L ≠ []) (h : ∀ e ∈ L, validName e = true) :
    Clean (joinElements L) = joinElements L := by
  unfold Clean
  rw [if_neg (joinElements_ne_nil L hL h)]
  have hr : ((joinElements L).head? = some Separator) = False :=
    eq_false (joinElements_head L hL h)
  simp only [hr, if_false]
  rw [elements_joinElements L hL (fun e he => validName_no_sep (h e he)),
    foldl_cleanStep_valid _ L [] (fun e he => validName_validElement (h e he))]
  simp [hL]

theorem Clean_joinElements_sep (L : List Path) (hL : L ≠ []) (h : ∀ e ∈ L, validName e = true) :
    Clean (joinElements L ++ [Separator]) = joinElements L := by
  unfold Clean
  rw [if_neg (by simp)]
  have hh : (joinElements L ++ [Separator]).head? = (joinElements L).head? := by
    cases hj : joinElements L with
    | nil => exact absurd hj (joinElements_ne_nil L hL h)
    | cons c cs => rfl
  have hr : ((joinElements L ++ [Separator]).head? = some Separator) = False := by
    rw [hh]; exact eq_false (joinElements_head L hL h)
  simp only [hr, if_false]
  rw [elements_append_sep, elements_joinElements L hL (fun e he => validName_no_sep (h e he)),
    List.foldl_append, foldl_cleanStep_valid _ L [] (fun e he => validName_validElement (h e he))]
  simp [elements, cleanStep, hL]

theorem Clean_dot : Clean ['.'] = ['.'] := by decide

theorem Clean_pathOfElements (L : List Path) (h : ∀ e ∈ L, validName e = true) :
    Clean (pathOfElements L) = pathOfElements L := by
  unfold pathOfElements
  split
  · exact Clean_dot
  · rename_i hL; exact Clean_joinElements L hL h

theorem lastPart_of_no_sep (f : Path) (h : Separator ∉ f) : lastPart f = f := by
  cases f with
  | nil => rfl
  | cons c cs => simp [lastPart, h]

theorem dirPart_of_no_sep (f : Path) (h : Separator ∉ f) : dirPart f = [] := by
  cases f with
  | nil => rfl
  | cons c cs => simp [dirPart, h]

theorem lastPart_append_sep (p q : Path) : lastPart (p ++ Separator :: q) = lastPart q := by
  induction p with
  | nil => simp [lastPart]
  | cons c cs ih => rw [List.cons_append]; simp [lastPart, ih]

theorem dirPart_append_sep (p q : Path) :
    dirPart (p ++ Separator :: q) = p ++ Separator :: dirPart q := by
  induction p with
  | nil => simp [dirPart]
  | cons c cs ih => rw [List.cons_append]; simp [dirPart, ih]

theorem dirPart_append_lastPart (p : Path) : dirPart p ++ lastPart p = p := by
  induction p with
  | nil => rfl
  | cons c cs ih =>
    by_cases h : Separator ∈ c :: cs
    · simp only [dirPart, lastPart, h, if_true, List.cons_append, ih]
    · simp only [dirPart, lastPart, h, if_false, List.nil_append]

theorem Dir_joinElements (L : List Path) (f : Path) (h : ∀ e ∈ L, validName e = true)
    (hf : Separator ∉ f) : Dir (joinElements (L ++ [f])) = pathOfElements L := by
  unfold Dir pathOfElements
  by_cases hL : L = []
  · subst hL
    simp only [List.nil_append, joinElements, if_true]
    rw [dirPart_of_no_sep f hf]; decide
  · rw [if_neg hL, joinElements_append_singleton L hL, dirPart_append_sep, dirPart_of_no_sep f hf]
    exact Clean_joinElements_sep L hL h

theorem stripTrailingSeparators_of_last (p : Path) (c : Char) (hc : c ≠ Separator) :
    stripTrailingSeparators (p ++ [c]) = p ++ [c] := by
  simp [stripTrailingSeparators, List.dropWhile, hc]

theorem Base_joinElements (L : List Path) (f : Path) (hf : validName f = true) :
    Base (joinElements (L ++ [f])) = f := by
  have hne := validName_ne_nil hf
  have hs := validName_no_sep hf
  obtain ⟨g, c, rfl⟩ : ∃ g c, f = g ++ [c] := by
    rcases List.eq_nil_or_concat f with h | ⟨g, c, h⟩
    · exact absurd h hne
    · exact ⟨g, c, by simpa using h⟩
  have hc : c ≠ Separator := fun hc => hs (by simp [hc])
  have hform : ∃ q, joinElements (L ++ [g ++ [c]]) = q ++ [c] ∧ lastPart (q ++ [c]) = g ++ [c] := by
    by_cases hL : L = []
    · subst hL
      exact ⟨g, by simp [joinElements], lastPart_of_no_sep _ hs⟩
    · refine ⟨joinElements L ++ Separator :: g, ?_, ?_⟩
      · rw [joinElements_append_singleton L hL]; simp
      · have : joinElements L ++ Separator :: g ++ [c] = joinElements L ++ Separator :: (g ++ [c]) := by
          simp
        rw [this, lastPart_append_sep, lastPart_of_no_sep _ hs]
  obtain ⟨q, hq, hl⟩ := hform
  unfold Base
  rw [hq, if_neg (by simp)]
  simp only [stripTrailingSeparators_of_last q c hc, hl]
  rw [if_neg (by simp)]

theorem Join_pathOfElements (L : List Path) (n : Path) (h : ∀ e ∈ L, validName e = true)
    (hn : validName n = true) : Join (pathOfElements L) n = joinElements (L ++ [n]) := by
  have hnn := validName_ne_nil hn
  unfold Join pathOfElements
  by_cases hL : L = []
  · subst hL
    simp only [if_true, List.nil_append, joinElements]
    rw [if_neg (by simp), if_neg (by simp)]
    unfold Clean
    rw [if_neg (by simp)]
    have e1 : elements (['.'] ++ Separator :: n) = [['.'], n] := by
      rw [elements_append_sep, elements_of_no_sep n (validName_no_sep hn)]; rfl
    have hv := validName_validElement hn
    have hr : ((['.'] ++ Separator :: n).head? = some Separator) = False := by
      apply eq_false; simp [Separator]
    simp only [hr, if_false, e1, List.foldl_cons, List.foldl_nil, decide_False]
    have c1 : cleanStep false [] ['.'] = [] := by decide
    rw [c1, cleanStep_valid false [] n hv]
    simp [joinElements]
  · rw [if_neg hL]
    have hj := joinElements_ne_nil L hL h
    rw [if_neg (by simp [hj]), if_neg hj, ← joinElements_append_singleton L hL]
    exact Clean_joinElements (L ++ [n]) (by simp) (by
      intro e he
      rcases List.mem_append.mp he with he | he
      · exact h e he
      · simp at he; exact he ▸ hn)

theorem ValidPath_form (r : Path) (h : ValidPath r = true) :
    ∃ L, (∀ e ∈ L, validName e = true) ∧ r = pathOfElements L := by
  by_cases hd : r = ['.']
  · exact ⟨[], by simp, by simp [hd, pathOfElements]⟩
  · refine ⟨elements r, ?_, ?_⟩
    · intro e he
      simp only [ValidPath, hd, decide_False, Bool.false_or, List.all_eq_true] at h
      simp only [validName, Bool.and_eq_true, Bool.not_eq_true']
      refine ⟨h e he, ?_⟩
      have := sep_not_mem_of_mem_elements r e he
      simpa [List.contains_iff_exists_mem_beq] using this
    · simp [pathOfElements, elements_ne_nil, joinElements_elements]

theorem walkfn_ok (includeDir layout path : Path) (isDir : Bool) (st : Found) :
    walkfn includeDir layout path (some ⟨isDir⟩) none st
      = .ok (record includeDir layout st (path, isDir)) := by
  unfold walkfn record classify
  cases isDir <;> simp <;> split <;> try rfl
  split <;> rfl

theorem walkfn_err (includeDir layout path : Path) (info : Option DirEntry) (e : Error)
    (st : Found) : walkfn includeDir layout path info (some e) st = .error e := rfl

theorem walkListing_walkfn (includeDir layout : Path) (l : Listing) :
    ∀ (name : Path) (s : Found),
    walkListing (walkfn includeDir layout) name l s =
      match l.firstError with
      | some e => .error e
      | none => .ok ((l.visits name).foldl (record includeDir layout) s) := by
  induction l with
  | nil => intro name s; rfl
  | file n rest ih =>
    intro name s
    simp only [walkListing, walkfn_ok, Listing.firstError, Listing.visits, List.foldl_cons]
    exact ih name _
  | dir n children readErr rest ihc ihr =>
    intro name s
    simp only [walkListing, walkfn_ok, Listing.firstError, Listing.visits, List.foldl_cons,
      List.foldl_append]
    cases readErr with
    | some e => simp only [walkfn_err]
    | none =>
      simp only [ihc]
      cases children.firstError with
      | some e => rfl
      | none => exact ihr name _

theorem walkDir_walkfn (includeDir layout : Path) (node : Node) (name : Path) (s : Found) :
    walkDir (walkfn includeDir layout) name node s =
      match node.firstError with
      | some e => .error e
      | none => .ok ((node.visits name).foldl (record includeDir layout) s) := by
  cases node with
  | file => simp only [walkDir, walkfn_ok, Node.firstError, Node.visits, List.foldl_cons,
      List.foldl_nil]
  | dir children readErr =>
    simp only [walkDir, walkfn_ok, Node.firstError, Node.visits, List.foldl_cons]
    cases readErr with
    | some e => simp only [walkfn_err]
    | none => exact walkListing_walkfn includeDir layout children name _

theorem scan_eq (files : FS) (dir includeDir layout : Path) :
    scan files dir includeDir layout =
      match Stat files (Clean dir) with
      | .error e => .error e
      | .ok node =>
        match node.firstError with
        | some e => .error e
        | none => .ok ((node.visits (Clean dir)).foldl
            (record (Clean includeDir) layout) ⟨[], [], []⟩) := by
  unfold scan WalkDir
  cases Stat files (Clean dir) with
  | error e => rfl
  | ok node => exact walkDir_walkfn _ _ node _ _

theorem foldl_record_templates (includeDir layout : Path) (vs : List (Path × Bool)) (s : Found) :
    (vs.foldl (record includeDir layout) s).templates = s.templates ++
      (vs.filter (fun v => classify includeDir layout v.1 v.2 = .PlainTemplate)).map Prod.fst := by
  induction vs generalizing s with
  | nil => simp
  | cons v vs ih =>
    rw [List.foldl_cons, ih]
    unfold record
    cases h : classify includeDir layout v.1 v.2 <;> simp [List.filter_cons, h]

theorem foldl_record_layouts (includeDir layout : Path) (vs : List (Path × Bool)) (s : Found) :
    (vs.foldl (record includeDir layout) s).layouts = s.layouts ++
      (vs.filter (fun v => classify includeDir layout v.1 v.2 = .Layout)).map Prod.fst := by
  induction vs generalizing s with
  | nil => simp
  | cons v vs ih =>
    rw [List.foldl_cons, ih]
    unfold record
    cases h : classify includeDir layout v.1 v.2 <;> simp [List.filter_cons, h]

theorem foldl_record_includeDirs (includeDir layout : Path) (vs : List (Path × Bool)) (s : Found) :
    (vs.foldl (record includeDir layout) s).includeDirs = s.includeDirs ++
      (vs.filter (fun v => classify includeDir layout v.1 v.2 = .IncludeDir)).map Prod.fst := by
  induction vs generalizing s with
  | nil => simp
  | cons v vs ih =>
    rw [List.foldl_cons, ih]
    unfold record
    cases h : classify includeDir layout v.1 v.2 <;> simp [List.filter_cons, h]

theorem Listing.visits_joinElements (l : Listing) :
    ∀ (L : List Path), l.valid = true → (∀ e ∈ L, validName e = true) →
    ∀ v ∈ l.visits (pathOfElements L),
      ∃ M, M ≠ [] ∧ (∀ e ∈ L ++ M, validName e = true) ∧ v.1 = joinElements (L ++ M) := by
  induction l with
  | nil => intro L _ _ v hv; simp [Listing.visits] at hv
  | file n rest ih =>
    intro L hval hL v hv
    simp only [Listing.valid, Bool.and_eq_true] at hval
    simp only [Listing.visits, List.mem_cons] at hv
    rcases hv with rfl | hv
    · refine ⟨[n], by simp, ?_, Join_pathOfElements L n hL hval.1⟩
      intro e he
      rcases List.mem_append.mp he with he | he
      · exact hL e he
      · simp at he; exact he ▸ hval.1
    · exact ih L hval.2 hL v hv
  | dir n children readErr rest ihc ihr =>
    intro L hval hL v hv
    simp only [Listing.valid, Bool.and_eq_true] at hval
    have hLn : ∀ e ∈ L ++ [n], validName e = true := by
      intro e he
      rcases List.mem_append.mp he with he | he
      · exact hL e he
      · simp at he; exact he ▸ hval.1.1
    simp only [Listing.visits, List.mem_cons, List.mem_append] at hv
    rcases hv with rfl | hv | hv
    · exact ⟨[n], by simp, hLn, Join_pathOfElements L n hL hval.1.1⟩
    · rw [Join_pathOfElements L n hL hval.1.1] at hv
      have hp : joinElements (L ++ [n]) = pathOfElements (L ++ [n]) := by
        simp [pathOfElements]
      rw [hp] at hv
      obtain ⟨M, hM, hall, heq⟩ := ihc (L ++ [n]) hval.1.2 hLn v hv
      refine ⟨n :: M, by simp, ?_, ?_⟩
      · simpa using hall
      · simpa using heq
    · exact ihr L hval.2 hL v hv

theorem Listing.find_valid (l : Listing) (name : Path) (node : Node)
    (hv : l.valid = true) (h : l.find name = some node) : node.valid = true := by
  induction l with
  | nil => simp [Listing.find] at h
  | file n rest ih =>
    simp only [Listing.valid, Bool.and_eq_true] at hv
    simp only [Listing.find] at h
    split at h
    · cases h; rfl
    · exact ih hv.2 h
  | dir n children readErr rest _ ihr =>
    simp only [Listing.valid, Bool.and_eq_true] at hv
    simp only [Listing.find] at h
    split at h
    · cases h; exact hv.1.2
    · exact ihr hv.2 h

theorem lookup_valid (es : List Path) :
    ∀ (node found : Node), node.valid = true → lookup node es = .ok found →
      found.valid = true := by
  induction es with
  | nil => intro node found hv h; simp only [lookup] at h; cases h; exact hv
  | cons e es ih =>
    intro node found hv h
    cases node with
    | file => simp [lookup] at h
    | dir children readErr =>
      simp only [lookup] at h
      cases hf : children.find e with
      | none => simp [hf] at h
      | some nd =>
        simp only [hf] at h
        exact ih nd found (Listing.find_valid children e nd hv hf) h

theorem Stat_ok (fsys : FS) (name : Path) (node : Node) (hv : Node.valid fsys = true)
    (h : Stat fsys name = .ok node) : ValidPath name = true ∧ node.valid = true := by
  unfold Stat at h
  by_cases hp : ValidPath name = true
  · refine ⟨hp, ?_⟩
    rw [if_pos hp] at h
    split at h
    · cases h; exact hv
    · exact lookup_valid _ fsys node hv h
  · rw [if_neg hp] at h; cases h

theorem Node.visits_pathOfElements (node : Node) (L : List Path) (hv : node.valid = true)
    (hL : ∀ e ∈ L, validName e = true) :
    ∀ v ∈ node.visits (pathOfElements L),
      ∃ M, (∀ e ∈ L ++ M, validName e = true) ∧ v.1 = pathOfElements (L ++ M) ∧
        (M = [] → v.2 = node.isDir) := by
  intro v hmem
  cases node with
  | file =>
    simp only [Node.visits, List.mem_singleton] at hmem
    subst hmem
    exact ⟨[], by simpa using hL, by simp, fun _ => rfl⟩
  | dir children readErr =>
    simp only [Node.visits, List.mem_cons] at hmem
    rcases hmem with rfl | hmem
    · exact ⟨[], by simpa using hL, by simp, fun _ => rfl⟩
    · obtain ⟨M, hM, hall, heq⟩ := Listing.visits_joinElements children L hv hL v hmem
      refine ⟨M, hall, ?_, fun h => absurd h hM⟩
      rw [heq]; simp [pathOfElements, hM]

theorem classify_isDir_of_includeDir {includeDir layout p : Path} {d : Bool}
    (h : classify includeDir layout p d = .IncludeDir) : d = true := by
  cases d with
  | true => rfl
  | false =>
    unfold classify at h
    simp only [Bool.false_eq_true, if_false] at h
    split at h
    · cases h
    · split at h <;> cases h

theorem classify_isFile_of_layout {includeDir layout p : Path} {d : Bool}
    (h : classify includeDir layout p d = .Layout) : d = false := by
  cases d with
  | false => rfl
  | true =>
    unfold classify at h
    simp only [if_true] at h
    split at h <;> cases h

theorem classify_isFile_of_template {includeDir layout p : Path} {d : Bool}
    (h : classify includeDir layout p d = .PlainTemplate) : d = false := by
  cases d with
  | false => rfl
  | true =>
    unfold classify at h
    simp only [if_true] at h
    split at h <;> cases h

theorem pathOfElements_injective (A B : List Path) (hA : ∀ e ∈ A, validName e = true)
    (hB : ∀ e ∈ B, validName e = true) (h : pathOfElements A = pathOfElements B) : A = B := by
  have key : ∀ (A : List Path), (∀ e ∈ A, validName e = true) → A ≠ [] →
      elements (pathOfElements A) = A ∧ pathOfElements A ≠ ['.'] := by
    intro A hA hne
    have h1 : pathOfElements A = joinElements A := by simp [pathOfElements, hne]
    have h2 := elements_joinElements A hne (fun e he => validName_no_sep (hA e he))
    refine ⟨by rw [h1, h2], ?_⟩
    intro hdot
    rw [h1] at hdot
    rw [hdot] at h2
    have : A = [['.']] := by rw [← h2]; decide
    have hbad := hA ['.'] (by rw [this]; simp)
    exact absurd hbad (by decide)
  by_cases hA0 : A = []
  · by_cases hB0 : B = []
    · rw [hA0, hB0]
    · exfalso
      apply (key B hB hB0).2
      rw [← h, hA0]; rfl
  · by_cases hB0 : B = []
    · exfalso
      apply (key A hA hA0).2
      rw [h, hB0]; rfl
    · rw [← (key A hA hA0).1, ← (key B hB hB0).1, h]

theorem scan_facts (files : FS) (dir includeDir layout : Path) (found : Found)
    (hv : Node.valid files = true) (h : scan files dir includeDir layout = .ok found) :
    ∃ root, (∀ e ∈ root, validName e = true) ∧ Clean dir = pathOfElements root ∧
      ScanFacts root (Clean includeDir) layout found := by
  rw [scan_eq] at h
  cases hs : Stat files (Clean dir) with
  | error e => simp [hs] at h
  | ok node =>
    simp only [hs] at h
    obtain ⟨hvp, hvn⟩ := Stat_ok files (Clean dir) node hv hs
    obtain ⟨root, hroot, hcd⟩ := ValidPath_form (Clean dir) hvp
    refine ⟨root, hroot, hcd, ?_⟩
    cases hfe : node.firstError with
    | some e => simp [hfe] at h
    | none =>
      simp only [hfe] at h
      have hfound : found = (node.visits (Clean dir)).foldl
          (record (Clean includeDir) layout) ⟨[], [], []⟩ := by
        cases h; rfl
      have hform := Node.visits_pathOfElements node root hvn hroot
      rw [← hcd] at hform
      have ht : ∀ t ∈ found.templates, ∃ v ∈ node.visits (Clean dir),
          v.1 = t ∧ classify (Clean includeDir) layout v.1 v.2 = .PlainTemplate := by
        intro t ht
        rw [hfound, foldl_record_templates] at ht
        simp only [List.nil_append, List.mem_map, List.mem_filter, decide_eq_true_eq] at ht
        obtain ⟨v, ⟨hv1, hv2⟩, rfl⟩ := ht
        exact ⟨v, hv1, rfl, hv2⟩
      have hl : ∀ t ∈ found.layouts, ∃ v ∈ node.visits (Clean dir),
          v.1 = t ∧ classify (Clean includeDir) layout v.1 v.2 = .Layout := by
        intro t ht
        rw [hfound, foldl_record_layouts] at ht
        simp only [List.nil_append, List.mem_map, List.mem_filter, decide_eq_true_eq] at ht
        obtain ⟨v, ⟨hv1, hv2⟩, rfl⟩ := ht
        exact ⟨v, hv1, rfl, hv2⟩
      have hi : ∀ t ∈ found.includeDirs, ∃ v ∈ node.visits (Clean dir),
          v.1 = t ∧ classify (Clean includeDir) layout v.1 v.2 = .IncludeDir := by
        intro t ht
        rw [hfound, foldl_record_includeDirs] at ht
        simp only [List.nil_append, List.mem_map, List.mem_filter, decide_eq_true_eq] at ht
        obtain ⟨v, ⟨hv1, hv2⟩, rfl⟩ := ht
        exact ⟨v, hv1, rfl, hv2⟩
      -- a file visit at the root means the root is a file
      have hfile : ∀ v ∈ node.visits (Clean dir), v.1 = pathOfElements root →
          v.2 = node.isDir := by
        intro v hvm hv1
        obtain ⟨M, hall, heq, hM⟩ := hform v hvm
        apply hM
        have := pathOfElements_injective root (root ++ M) hroot hall (hv1.symm.trans heq)
        simpa using this.symm
      constructor
      · intro t htm
        obtain ⟨v, hvm, rfl, hc⟩ := ht t htm
        obtain ⟨M, hall, heq, _⟩ := hform v hvm
        exact ⟨M, hall, heq, classify_isFile_of_template hc ▸ hc⟩
      · intro t htm
        obtain ⟨v, hvm, rfl, hc⟩ := hl t htm
        obtain ⟨M, hall, heq, _⟩ := hform v hvm
        exact ⟨M, hall, heq, classify_isFile_of_layout hc ▸ hc⟩
      · intro t htm
        obtain ⟨v, hvm, rfl, hc⟩ := hi t htm
        obtain ⟨M, hall, heq, _⟩ := hform v hvm
        exact ⟨M, hall, heq, classify_isDir_of_includeDir hc ▸ hc⟩
      · intro t htm i him ht0 hi0
        obtain ⟨vi, hvim, rfl, hci⟩ := hi i him
        have hdi := classify_isDir_of_includeDir hci
        have hri := hfile vi hvim hi0
        rcases List.mem_append.mp htm with htm | htm
        · obtain ⟨vt, hvtm, rfl, hct⟩ := ht t htm
          have hdt := classify_isFile_of_template hct
          have hrt := hfile vt hvtm ht0
          rw [hdi] at hri; rw [hdt] at hrt; rw [← hri] at hrt; cases hrt
        · obtain ⟨vt, hvtm, rfl, hct⟩ := hl t htm
          have hdt := classify_isFile_of_layout hct
          have hrt := hfile vt hvtm ht0
          rw [hdi] at hri; rw [hdt] at hrt; rw [← hri] at hrt; cases hrt

theorem findTemplates_ok (S : Sorter) (files : FS) (dir includeDir layout : Path)
    (found : Found) (h : scan files dir includeDir layout = .ok found) :
    findTemplates S files dir includeDir layout =
      (found.templates.map (planFor (Clean dir) (S.sort lessByLen found.includeDirs)
        (S.sort lessByLen found.layouts)), none) := by
  simp only [findTemplates, h]

theorem findTemplates_error (S : Sorter) (files : FS) (dir includeDir layout : Path)
    (e : Error) (h : scan files dir includeDir layout = .error e) :
    findTemplates S files dir includeDir layout = ([], some { Path := Clean dir, Err := e }) := by
  simp only [findTemplates, h]

theorem elements_length (p : Path) : (elements p).length = p.count Separator + 1 := by
  induction p with
  | nil => rfl
  | cons c cs ih =>
    by_cases hc : c = Separator
    · simp [elements, hc, ih]
    · simp only [elements, hc, if_false]
      cases h : elements cs with
      | nil => exact absurd h (elements_ne_nil cs)
      | cons e es =>
        rw [h] at ih
        have hc2 : ¬ (c == Separator) = true := by simpa using hc
        rw [List.count_cons, if_neg hc2]
        simpa using ih

theorem joinElements_append (A B : List Path) (hA : A ≠ []) (hB : B ≠ []) :
    joinElements (A ++ B) = joinElements A ++ Separator :: joinElements B := by
  induction A with
  | nil => exact absurd rfl hA
  | cons e es ih =>
    cases es with
    | nil =>
      cases B with
      | nil => exact absurd rfl hB
      | cons b bs => simp [joinElements]
    | cons e1 es1 =>
      have := ih (by simp)
      simp only [List.cons_append, joinElements_cons_cons] at this ⊢
      rw [this]; simp

theorem HasPrefix_iff (s pre : Path) : HasPrefix s pre = true ↔ pre <+: s := by
  simp [HasPrefix]

theorem HasSuffix_iff (s suf : Path) : HasSuffix s suf = true ↔ suf <:+ s := by
  simp [HasSuffix]

theorem valid_append_left {A B : List Path} (h : ∀ e ∈ A ++ B, validName e = true) :
    ∀ e ∈ A, validName e = true := fun e he => h e (List.mem_append_left _ he)

theorem valid_append_right {A B : List Path} (h : ∀ e ∈ A ++ B, validName e = true) :
    ∀ e ∈ B, validName e = true := fun e he => h e (List.mem_append_right _ he)

theorem depth_joinElements (X : List Path) (hX : X ≠ []) (h : ∀ e ∈ X, validName e = true) :
    depth (joinElements X) = X.length := by
  unfold depth
  rw [elements_joinElements X hX (fun e he => validName_no_sep (h e he))]

theorem sep_not_mem_dot : Separator ∉ (['.'] : Path) := by decide

/-- A recorded path that contains a separator has at least two elements. -/
theorem split_last_of_sep (X : List Path) (h : ∀ e ∈ X, validName e = true)
    (hs : Separator ∈ pathOfElements X) : ∃ A f, A ≠ [] ∧ X = A ++ [f] := by
  rcases List.eq_nil_or_concat X with h0 | ⟨A, f, h0⟩
  · subst h0; exact absurd hs sep_not_mem_dot
  · have h0 : X = A ++ [f] := by simpa using h0
    subst h0
    by_cases hA : A = []
    · subst hA
      exfalso
      simp only [pathOfElements, List.nil_append, joinElements] at hs
      rw [if_neg (by simp)] at hs
      exact validName_no_sep (h f (by simp)) hs
    · exact ⟨A, f, hA, rfl⟩

theorem lastPart_joinElements (A : List Path) (f : Path) (hf : Separator ∉ f) :
    lastPart (joinElements (A ++ [f])) = f := by
  by_cases hA : A = []
  · subst hA; simpa [joinElements] using lastPart_of_no_sep f hf
  · rw [joinElements_append_singleton A hA, lastPart_append_sep, lastPart_of_no_sep f hf]

/-- Among paths with the same last element whose directories are prefixes of one
path, a shorter path has no more elements. -/
theorem length_le_of_length_le (A B : List Path) (f t : Path)
    (hA : ∀ e ∈ A, validName e = true) (hB : ∀ e ∈ B, validName e = true)
    (hlen : (joinElements (A ++ [f])).length ≤ (joinElements (B ++ [f])).length)
    (ha : HasPrefix t (pathOfElements A) = true) (hb : HasPrefix t (pathOfElements B) = true) :
    A.length ≤ B.length := by
  by_cases hA0 : A = []
  · subst hA0; simp
  · by_cases hB0 : B = []
    · subst hB0
      exfalso
      rw [joinElements_append_singleton A hA0] at hlen
      simp [joinElements] at hlen
      omega
    · rw [joinElements_append_singleton A hA0, joinElements_append_singleton B hB0] at hlen
      simp only [List.length_append, List.length_cons] at hlen
      have hlen2 : (joinElements A).length ≤ (joinElements B).length := by omega
      simp only [pathOfElements, hA0, hB0, if_false] at ha hb
      rw [HasPrefix_iff] at ha hb
      have hpre : joinElements A <+: joinElements B :=
        List.prefix_of_prefix_length_le ha hb hlen2
      have hcount := hpre.sublist.count_le Separator
      have eA := elements_length (joinElements A)
      have eB := elements_length (joinElements B)
      rw [elements_joinElements A hA0 (fun e he => validName_no_sep (hA e he))] at eA
      rw [elements_joinElements B hB0 (fun e he => validName_no_sep (hB e he))] at eB
      omega

theorem Dir_pathOfElements_snoc (A : List Path) (f : Path) (hA : ∀ e ∈ A, validName e = true)
    (hf : validName f = true) : Dir (pathOfElements (A ++ [f])) = pathOfElements A := by
  have : pathOfElements (A ++ [f]) = joinElements (A ++ [f]) := by simp [pathOfElements]
  rw [this]
  exact Dir_joinElements A f hA (validName_no_sep hf)

theorem Dir_dot : Dir ['.'] = ['.'] := by decide

theorem elements_pathOfElements_nil : elements (pathOfElements []) = [['.']] := by decide

theorem not_validName_dot : validName ['.'] = false := by decide

theorem ancestor_form (A T : List Path)
    (hA : ∀ e ∈ A, validName e = true) (hT : ∀ e ∈ T, validName e = true) (hA0 : A ≠ [])
    (h : isAncestorOrSelf (pathOfElements A) (pathOfElements T)) : ∃ X, T = A ++ X := by
  unfold isAncestorOrSelf at h
  have eA : elements (pathOfElements A) = A := by
    simp only [pathOfElements, hA0, if_false]
    exact elements_joinElements A hA0 (fun e he => validName_no_sep (hA e he))
  rw [eA] at h
  by_cases hT0 : T = []
  · exfalso
    subst hT0
    rw [elements_pathOfElements_nil] at h
    obtain ⟨r, hr⟩ := h
    cases A with
    | nil => exact hA0 rfl
    | cons a as =>
      simp only [List.cons_append, List.cons.injEq] at hr
      have := hA a (by simp)
      rw [hr.1, not_validName_dot] at this
      cases this
  · have eT : elements (pathOfElements T) = T := by
      simp only [pathOfElements, hT0, if_false]
      exact elements_joinElements T hT0 (fun e he => validName_no_sep (hT e he))
    rw [eT] at h
    obtain ⟨X, hX⟩ := h
    exact ⟨X, hX.symm⟩

/-- The directory of a recorded path. -/
theorem Dir_recorded (X : List Path) (hX : ∀ e ∈ X, validName e = true) :
    Dir (pathOfElements X) = pathOfElements X.dropLast := by
  rcases List.eq_nil_or_concat X with h0 | ⟨A, f, h0⟩
  · subst h0; decide
  · have h0 : X = A ++ [f] := by simpa using h0
    subst h0
    rw [Dir_pathOfElements_snoc A f (valid_append_left hX) (valid_append_right hX f (by simp))]
    simp

theorem valid_dropLast {X : List Path} (hX : ∀ e ∈ X, validName e = true) :
    ∀ e ∈ X.dropLast, validName e = true :=
  fun e he => hX e (List.mem_of_mem_dropLast he)

/-- A leaf whose directory has the directory `A` as an ancestor (or self) by elements
has the path of `A` as a string prefix. -/
theorem HasPrefix_of_isAncestorOrSelf (A X : List Path)
    (hA : ∀ e ∈ A, validName e = true) (hX : ∀ e ∈ X, validName e = true) (hA0 : A ≠ [])
    (h : isAncestorOrSelf (pathOfElements A) (Dir (pathOfElements X))) :
    HasPrefix (pathOfElements X) (pathOfElements A) = true := by
  rw [Dir_recorded X hX] at h
  obtain ⟨Y, hY⟩ := ancestor_form A X.dropLast hA (valid_dropLast hX) hA0 h
  rcases List.eq_nil_or_concat X with h0 | ⟨T, g, h0⟩
  · subst h0
    simp only [List.dropLast_nil] at hY
    have : A = [] := by
      cases A with
      | nil => rfl
      | cons a as => simp at hY
    exact absurd this hA0
  · have h0 : X = T ++ [g] := by simpa using h0
    subst h0
    simp only [List.dropLast_concat] at hY
    rw [HasPrefix_iff]
    have hp1 : pathOfElements (T ++ [g]) = joinElements (A ++ (Y ++ [g])) := by
      simp [pathOfElements, hY]
    have hp2 : pathOfElements A = joinElements A := by simp [pathOfElements, hA0]
    rw [hp1, hp2, joinElements_append A (Y ++ [g]) hA0 (by simp)]
    exact List.prefix_append _ _

theorem sort_lessByLen_sorted (S : Sorter) (xs : List Path) :
    (S.sort lessByLen xs).Pairwise (fun a b => a.length ≤ b.length) :=
  S.sorted List.length xs

/-- Paths with a common last element, kept when their directory is a prefix of `t`,
come out of the length sort with non-decreasing depth. -/
theorem sorted_filter_depth (S : Sorter) (t f : Path) (xs : List Path)
    (hform : ∀ x ∈ xs, ∃ A, (∀ e ∈ A ++ [f], validName e = true) ∧
      x = joinElements (A ++ [f])) :
    ((S.sort lessByLen xs).filter (fun x => HasPrefix t (Dir x))).Pairwise
      (fun a b => depth a ≤ depth b) := by
  have hs := (sort_lessByLen_sorted S xs).sublist
    (List.filter_sublist (S.sort lessByLen xs) (p := fun x => HasPrefix t (Dir x)))
  refine List.Pairwise.imp_of_mem ?_ hs
  intro a b ha hb hlen
  rw [List.mem_filter] at ha hb
  obtain ⟨A, hA, rfl⟩ := hform a ((S.perm lessByLen xs).mem_iff.mp ha.1)
  obtain ⟨B, hB, rfl⟩ := hform b ((S.perm lessByLen xs).mem_iff.mp hb.1)
  have hf : validName f = true := hA f (by simp)
  have hda := Dir_joinElements A f (valid_append_left hA) (validName_no_sep hf)
  have hdb := Dir_joinElements B f (valid_append_left hB) (validName_no_sep hf)
  have h1 := ha.2
  have h2 := hb.2
  rw [hda] at h1
  rw [hdb] at h2
  have := length_le_of_length_le A B f t (valid_append_left hA) (valid_append_left hB) hlen h1 h2
  rw [depth_joinElements (A ++ [f]) (by simp) hA, depth_joinElements (B ++ [f]) (by simp) hB]
  simpa using this

theorem classify_layout {includeDir layout p : Path}
    (h : classify includeDir layout p false = .Layout) :
    Base (Dir p) ≠ includeDir ∧ HasSuffix p (Separator :: layout) = true := by
  unfold classify at h
  simp only [Bool.false_eq_true, if_false] at h
  split at h
  · cases h
  · rename_i h1
    split at h
    · rename_i h2; exact ⟨h1, h2⟩
    · cases h

theorem classify_template {includeDir layout p : Path}
    (h : classify includeDir layout p false = .PlainTemplate) :
    Base (Dir p) ≠ includeDir ∧ HasSuffix p (Separator :: layout) = false := by
  unfold classify at h
  simp only [Bool.false_eq_true, if_false] at h
  split at h
  · cases h
  · rename_i h1
    split at h
    · cases h
    · rename_i h2; exact ⟨h1, by simpa using h2⟩

theorem classify_includeDir {includeDir layout p : Path}
    (h : classify includeDir layout p true = .IncludeDir) : Base p = includeDir := by
  unfold classify at h
  simp only [if_true] at h
  split at h
  · assumption
  · cases h

/-- A recorded layout is a directory of at least one element followed by the last
element of the layout name. -/
theorem layout_form (X : List Path) (layout : Path) (hX : ∀ e ∈ X, validName e = true)
    (h : HasSuffix (pathOfElements X) (Separator :: layout) = true) :
    ∃ A, A ≠ [] ∧ X = A ++ [lastPart layout] := by
  rw [HasSuffix_iff] at h
  obtain ⟨x, hx⟩ := h
  have hs : Separator ∈ pathOfElements X := by rw [← hx]; simp
  obtain ⟨A, f, hA, rfl⟩ := split_last_of_sep X hX hs
  refine ⟨A, hA, ?_⟩
  have hf := validName_no_sep (hX f (by simp))
  have h1 : pathOfElements (A ++ [f]) = joinElements (A ++ [f]) := by simp [pathOfElements]
  have h2 := lastPart_joinElements A f hf
  rw [← h1, ← hx, lastPart_append_sep] at h2
  rw [h2]

theorem sinkLeft_perm (less : Path → Path → Bool) (x : Path) (l : List Path) :
    (sinkLeft less x l).Perm (x :: l) := by
  induction l with
  | nil => simp [sinkLeft]
  | cons y ys ih =>
    simp only [sinkLeft]
    split
    · exact (List.Perm.cons y ih).trans (List.Perm.swap x y ys)
    · exact List.Perm.refl _

theorem insertionSort_perm (less : Path → Path → Bool) (l : List Path) :
    (insertionSort less l).Perm l := by
  have key : ∀ (l acc : List Path),
      (l.foldl (fun sortedRev x => sinkLeft less x sortedRev) acc).Perm (l.reverse ++ acc) := by
    intro l
    induction l with
    | nil => intro acc; simp
    | cons x xs ih =>
      intro acc
      simp only [List.foldl_cons, List.reverse_cons, List.append_assoc, List.singleton_append]
      exact (ih _).trans (List.Perm.append_left _ (sinkLeft_perm less x acc))
  have h := key l []
  simp only [List.append_nil] at h
  unfold insertionSort
  exact (List.reverse_perm _).trans (h.trans (List.reverse_perm l))

theorem sinkLeft_sorted (key : Path → Nat) (x : Path) (l : List Path)
    (h : l.Pairwise (fun a b => key b ≤ key a)) :
    (sinkLeft (fun a b => decide (key a < key b)) x l).Pairwise (fun a b => key b ≤ key a) := by
  induction l with
  | nil => simp [sinkLeft]
  | cons y ys ih =>
    simp only [sinkLeft]
    rw [List.pairwise_cons] at h
    split
    · rename_i hlt
      have hlt : key x < key y := by simpa using hlt
      rw [List.pairwise_cons]
      refine ⟨?_, ih h.2⟩
      intro z hz
      have := (sinkLeft_perm (fun a b => decide (key a < key b)) x ys).subset hz
      rcases List.mem_cons.mp this with rfl | hz
      · exact Nat.le_of_lt hlt
      · exact h.1 z hz
    · rename_i hlt
      have hle : key y ≤ key x := by simpa using hlt
      rw [List.pairwise_cons]
      refine ⟨?_, List.pairwise_cons.mpr h⟩
      intro z hz
      rcases List.mem_cons.mp hz with rfl | hz
      · exact hle
      · exact Nat.le_trans (h.1 z hz) hle

theorem insertionSort_sorted (key : Path → Nat) (l : List Path) :
    (insertionSort (fun a b => decide (key a < key b)) l).Pairwise (fun a b => key a ≤ key b) := by
  have inv : ∀ (l acc : List Path), acc.Pairwise (fun a b => key b ≤ key a) →
      (l.foldl (fun sortedRev x => sinkLeft (fun a b => decide (key a < key b)) x sortedRev)
        acc).Pairwise (fun a b => key b ≤ key a) := by
    intro l
    induction l with
    | nil => intro acc h; simpa using h
    | cons x xs ih =>
      intro acc h
      simp only [List.foldl_cons]
      exact ih _ (sinkLeft_sorted key x acc h)
  unfold insertionSort
  rw [List.pairwise_reverse]
  exact inv l [] List.Pairwise.nil

def insertionSorter : Sorter where
  sort := insertionSort
  perm := insertionSort_perm
  sorted := insertionSort_sorted

theorem sep_mem_of_HasSuffix {p layout : Path}
    (h : HasSuffix p (Separator :: layout) = true) : Separator ∈ p := by
  rw [HasSuffix_iff] at h
  obtain ⟨x, hx⟩ := h
  rw [← hx]; simp

/-- The facts about one recorded layout that the plan theorems use. -/
theorem recorded_layout_form {root : List Path} {includeDir layout : Path} {found : Found}
    (facts : ScanFacts root includeDir layout found) (l : Path) (hl : l ∈ found.layouts) :
    ∃ A, A ≠ [] ∧ (∀ e ∈ A ++ [lastPart layout], validName e = true) ∧
      l = joinElements (A ++ [lastPart layout]) ∧ Dir l = pathOfElements A := by
  obtain ⟨M, hall, heq, hc⟩ := facts.layouts l hl
  have hsuf := (classify_layout hc).2
  rw [heq] at hsuf
  obtain ⟨A, hA, hX⟩ := layout_form (root ++ M) layout hall hsuf
  rw [hX] at hall heq
  have hj : l = joinElements (A ++ [lastPart layout]) := by
    rw [heq]; simp [pathOfElements]
  refine ⟨A, hA, hall, hj, ?_⟩
  rw [hj]
  exact Dir_joinElements A _ (valid_append_left hall)
    (validName_no_sep (hall _ (by simp)))

/-- **C1** For every leaf recorded by a scan of a tree of valid names, the `files` of
its plan hold every recorded layout whose directory is the leaf's directory or an
ancestor of it (by whole path elements); everything before the last entry of `files`
is a recorded layout, these come with non-decreasing number of path elements
(shallow to deep), and the last entry is the leaf itself. -/
theorem findTemplates_files_layouts_then_leaf (S : Sorter) (files : FS)
    (dir includeDir layout : Path) (found : Found)
    (hvalid : Node.valid files = true)
    (hscan : scan files dir includeDir layout = .ok found) :
    List.Forall₂
      (fun t plan =>
        (∀ l ∈ found.layouts, isAncestorOrSelf (Dir l) (Dir t) → l ∈ plan.files) ∧
        (∀ l ∈ plan.files.dropLast, l ∈ found.layouts) ∧
        plan.files.dropLast.Pairwise (fun a b => depth a ≤ depth b) ∧
        plan.files.getLast? = some t)
      found.templates (findTemplates S files dir includeDir layout).1 := by
  rw [findTemplates_ok S files dir includeDir layout found hscan]
  obtain ⟨root, hroot, _, facts⟩ := scan_facts files dir includeDir layout found hvalid hscan
  simp only [List.forall₂_map_right_iff, List.forall₂_same]
  intro t ht
  obtain ⟨X, hX, htX, _⟩ := facts.templates t ht
  simp only [planFor, List.dropLast_concat, List.getLast?_append, List.getLast?_singleton,
    Option.or_some, List.mem_append, List.mem_filter, List.mem_singleton, and_true]
  refine ⟨?_, ?_, ?_⟩
  · intro l hl hanc
    left
    refine ⟨(S.perm lessByLen found.layouts).mem_iff.mpr hl, ?_⟩
    obtain ⟨A, hA0, hall, _, hdir⟩ := recorded_layout_form facts l hl
    rw [hdir] at hanc ⊢
    rw [htX] at hanc ⊢
    exact HasPrefix_of_isAncestorOrSelf A (root ++ X) (valid_append_left hall) hX hA0 hanc
  · intro l hl
    exact (S.perm lessByLen found.layouts).mem_iff.mp hl.1
  · apply sorted_filter_depth S t (lastPart layout)
    intro x hx
    obtain ⟨A, _, hall, hj, _⟩ := recorded_layout_form facts x hx
    exact ⟨A, hall, hj⟩

theorem testDir_valid : Node.valid testDirFS = true := by decide

theorem testDir_scan :
    scan testDirFS "test/templates".toList "includes".toList "layout.html".toList
      = .ok testDirFound := by rfl

/-- Witness of C1 on the tree of the tests scanned at `test/templates`: the plan of
`profile/payments/methods.html` lists the three layouts above it, then the leaf. -/
theorem findTemplates_files_layouts_then_leaf_witness :
    Node.valid testDirFS = true ∧
    scan testDirFS "test/templates".toList "includes".toList "layout.html".toList
      = .ok testDirFound ∧
    (findTemplates insertionSorter testDirFS "test/templates".toList "includes".toList
      "layout.html".toList).1.map templateInfo.files =
      [["test/templates/layout.html".toList, "test/templates/profile/layout.html".toList,
        "test/templates/profile/edit.html".toList],
       ["test/templates/layout.html".toList, "test/templates/profile/layout.html".toList,
        "test/templates/profile/payments/layout.html".toList,
        "test/templates/profile/payments/methods.html".toList],
       ["test/templates/layout.html".toList, "test/templates/profile/layout.html".toList,
        "test/templates/profile/view.html".toList]] ∧
    List.Forall₂
      (fun t plan =>
        (∀ l ∈ testDirFound.layouts, isAncestorOrSelf (Dir l) (Dir t) → l ∈ plan.files) ∧
        (∀ l ∈ plan.files.dropLast, l ∈ testDirFound.layouts) ∧
        plan.files.dropLast.Pairwise (fun a b => depth a ≤ depth b) ∧
        plan.files.getLast? = some t)
      testDirFound.templates
      (findTemplates insertionSorter testDirFS "test/templates".toList "includes".toList
        "layout.html".toList).1 :=
  ⟨testDir_valid, testDir_scan, by decide,
    findTemplates_files_layouts_then_leaf insertionSorter testDirFS "test/templates".toList
      "includes".toList "layout.html".toList testDirFound testDir_valid testDir_scan⟩

/-- The facts about one recorded include directory below a named root. -/
theorem recorded_includeDir_form {root : List Path} {includeDir layout : Path} {found : Found}
    (hroot : root ≠ [])
    (facts : ScanFacts root includeDir layout found) (i : Path) (hi : i ∈ found.includeDirs) :
    ∃ A, (∀ e ∈ A ++ [includeDir], validName e = true) ∧
      i = joinElements (A ++ [includeDir]) ∧ Dir i = pathOfElements A ∧
      root ++ (A ++ [includeDir]).drop root.length = A ++ [includeDir] := by
  obtain ⟨M, hall, heq, hc⟩ := facts.includeDirs i hi
  have hbase := classify_includeDir hc
  rcases List.eq_nil_or_concat (root ++ M) with h0 | ⟨A, f, h0⟩
  · simp at h0; exact absurd h0.1 hroot
  · have h0 : root ++ M = A ++ [f] := by simpa using h0
    rw [h0] at hall heq
    have hj : i = joinElements (A ++ [f]) := by rw [heq]; simp [pathOfElements]
    have hf : f = includeDir := by
      rw [← hbase, hj]
      exact (Base_joinElements A f (hall f (by simp))).symm
    subst hf
    refine ⟨A, hall, hj, ?_, ?_⟩
    · rw [hj]
      exact Dir_joinElements A _ (valid_append_left hall) (validName_no_sep (hall _ (by simp)))
    · rw [← h0]; simp

/-- **C2** For every scan root that is a named directory (its cleaned path is not
`.`) over a tree of valid names and every recorded leaf: the `includes` of the leaf's
plan hold every recorded include directory whose parent directory is the leaf's
directory or an ancestor of it (by whole path elements); every entry of `includes` is
a recorded include directory, and the entries come with non-decreasing number of
path elements, so a deeper include directory comes after a shallower one. -/
theorem findTemplates_includes_shallow_to_deep (S : Sorter) (files : FS)
    (dir includeDir layout : Path) (found : Found)
    (hvalid : Node.valid files = true)
    (hnamed : Clean dir ≠ ['.'])
    (hscan : scan files dir includeDir layout = .ok found) :
    List.Forall₂
      (fun t plan =>
        (∀ i ∈ found.includeDirs, isAncestorOrSelf (Dir i) (Dir t) → i ∈ plan.includes) ∧
        (∀ i ∈ plan.includes, i ∈ found.includeDirs) ∧
        plan.includes.Pairwise (fun a b => depth a ≤ depth b) ∧
        plan.files.getLast? = some t)
      found.templates (findTemplates S files dir includeDir layout).1 := by
  rw [findTemplates_ok S files dir includeDir layout found hscan]
  obtain ⟨root, hroot, hcd, facts⟩ := scan_facts files dir includeDir layout found hvalid hscan
  have hroot0 : root ≠ [] := by
    intro h0; apply hnamed; rw [hcd, h0]; rfl
  simp only [List.forall₂_map_right_iff, List.forall₂_same]
  intro t ht
  obtain ⟨X, hX, htX, _⟩ := facts.templates t ht
  simp only [planFor, List.getLast?_append, List.getLast?_singleton,
    Option.or_some, List.mem_filter, and_true]
  refine ⟨?_, ?_, ?_⟩
  · intro i hi hanc
    refine ⟨(S.perm lessByLen found.includeDirs).mem_iff.mpr hi, ?_⟩
    obtain ⟨A, hall, hj, hdir, hpre⟩ := recorded_includeDir_form hroot0 facts i hi
    rw [hdir] at hanc ⊢
    rw [htX] at hanc ⊢
    by_cases hA0 : A = []
    · -- the include directory is the scan root itself: its parent `.` is no ancestor
      exfalso
      subst hA0
      have hrootEq : root = [Clean includeDir] := by
        have h1 : root.length ≤ 1 := by
          have := congrArg List.length hpre
          simp at this; omega
        cases root with
        | nil => exact absurd rfl hroot0
        | cons r rs =>
          cases rs with
          | nil => simpa using hpre
          | cons r2 rs2 => simp at h1
      -- the leaf is not the root (the root is a directory), so it lies below it
      have hX0 : X ≠ [] := by
        intro hX0
        apply facts.rootOnce t (List.mem_append_left _ ht) i hi
        · rw [htX, hX0]; simp
        · rw [hj, hrootEq]; simp [pathOfElements, joinElements]
      rw [Dir_recorded (root ++ X) hX] at hanc
      unfold isAncestorOrSelf at hanc
      rw [elements_pathOfElements_nil] at hanc
      have hne : (root ++ X).dropLast ≠ [] := by
        rw [hrootEq]
        cases X with
        | nil => exact absurd rfl hX0
        | cons x xs => simp [List.dropLast]
      have eT : elements (pathOfElements (root ++ X).dropLast) = (root ++ X).dropLast := by
        simp only [pathOfElements, hne, if_false]
        exact elements_joinElements _ hne
          (fun e he => validName_no_sep (valid_dropLast hX e he))
      rw [eT] at hanc
      obtain ⟨r, hr⟩ := hanc
      have hmem : ['.'] ∈ (root ++ X).dropLast := by rw [← hr]; simp
      have := valid_dropLast hX _ hmem
      rw [not_validName_dot] at this
      cases this
    · exact HasPrefix_of_isAncestorOrSelf A (root ++ X) (valid_append_left hall) hX hA0 hanc
  · intro i hi
    exact (S.perm lessByLen found.includeDirs).mem_iff.mp hi.1
  · apply sorted_filter_depth S t (Clean includeDir)
    intro x hx
    obtain ⟨A, hall, hj, _, _⟩ := recorded_includeDir_form hroot0 facts x hx
    exact ⟨A, hall, hj⟩

/-- Witness of C2 on the tree of the tests scanned at `test/templates`. -/
theorem findTemplates_includes_shallow_to_deep_witness :
    Node.valid testDirFS = true ∧ Clean "test/templates".toList ≠ ['.'] ∧
    scan testDirFS "test/templates".toList "includes".toList "layout.html".toList
      = .ok testDirFound ∧
    (findTemplates insertionSorter testDirFS "test/templates".toList "includes".toList
      "layout.html".toList).1.map templateInfo.includes =
      [["test/templates/includes".toList],
       ["test/templates/includes".toList, "test/templates/profile/payments/includes".toList],
       ["test/templates/includes".toList]] ∧
    List.Forall₂
      (fun t plan =>
        (∀ i ∈ testDirFound.includeDirs, isAncestorOrSelf (Dir i) (Dir t) → i ∈ plan.includes) ∧
        (∀ i ∈ plan.includes, i ∈ testDirFound.includeDirs) ∧
        plan.includes.Pairwise (fun a b => depth a ≤ depth b) ∧
        plan.files.getLast? = some t)
      testDirFound.templates
      (findTemplates insertionSorter testDirFS "test/templates".toList "includes".toList
        "layout.html".toList).1 :=
  ⟨testDir_valid, by decide, testDir_scan, by decide,
    findTemplates_includes_shallow_to_deep insertionSorter testDirFS "test/templates".toList
      "includes".toList "layout.html".toList testDirFound testDir_valid (by decide)
      testDir_scan⟩

theorem beforeFinalDot_append_finalDotSuffix (e : Path) :
    beforeFinalDot e ++ finalDotSuffix e = e := by
  induction e with
  | nil => rfl
  | cons c cs ih =>
    by_cases h : '.' ∈ cs
    · simp only [beforeFinalDot, finalDotSuffix, h, if_true, List.cons_append, ih]
    · by_cases hc : c = '.'
      · simp [beforeFinalDot, finalDotSuffix, h, hc]
      · simp [beforeFinalDot, finalDotSuffix, h, hc]

theorem elements_split (p : Path) :
    ∃ E f, elements p = E ++ [f] ∧ Separator ∉ f ∧ p = joinElements (E ++ [f]) := by
  rcases List.eq_nil_or_concat (elements p) with h0 | ⟨E, f, h0⟩
  · exact absurd h0 (elements_ne_nil p)
  · have h0 : elements p = E ++ [f] := by simpa using h0
    refine ⟨E, f, h0, sep_not_mem_of_mem_elements p f (by rw [h0]; simp), ?_⟩
    rw [← h0, joinElements_elements]

theorem take_length_sub (a b : Path) : (a ++ b).take ((a ++ b).length - b.length) = a := by
  simp

theorem TrimSuffix_Ext (p : Path) : TrimSuffix p (Ext p) = withoutExtension p := by
  obtain ⟨E, f, hE, hf, hp⟩ := elements_split p
  have hlast : lastPart p = f := by rw [hp]; exact lastPart_joinElements E f hf
  have hkey : ∀ x : Path, joinElements (E ++ [x]) = dirPart p ++ x := by
    intro x
    by_cases hE0 : E = []
    · subst hE0
      have : dirPart p = [] := by
        rw [hp]; simpa [joinElements] using dirPart_of_no_sep f hf
      simp [joinElements, this]
    · have : dirPart p = joinElements E ++ [Separator] := by
        rw [hp, joinElements_append_singleton E hE0, dirPart_append_sep, dirPart_of_no_sep f hf]
      rw [joinElements_append_singleton E hE0, this]; simp
  have hw : withoutExtension p = dirPart p ++ beforeFinalDot f := by
    unfold withoutExtension
    rw [hE]
    simp only [List.dropLast_concat, List.getLastD_concat]
    exact hkey _
  have hdecomp : p = (dirPart p ++ beforeFinalDot f) ++ finalDotSuffix f := by
    rw [List.append_assoc, beforeFinalDot_append_finalDotSuffix, ← hlast,
      dirPart_append_lastPart]
  have hext : Ext p = finalDotSuffix f := by unfold Ext; rw [hlast]
  rw [hw, hext]
  unfold TrimSuffix
  have hsuf : HasSuffix p (finalDotSuffix f) = true := by
    rw [HasSuffix_iff]; exact ⟨_, hdecomp.symm⟩
  rw [if_pos hsuf]
  have key := take_length_sub (dirPart p ++ beforeFinalDot f) (finalDotSuffix f)
  rw [← hdecomp] at key
  exact key

theorem TrimPrefix_append (a b : Path) : TrimPrefix (a ++ b) a = b := by
  unfold TrimPrefix
  rw [if_pos (by rw [HasPrefix_iff]; exact List.prefix_append a b)]
  simp

theorem not_HasPrefix_dot_sep (X : List Path) (hX : ∀ e ∈ X, validName e = true) :
    HasPrefix (pathOfElements X) (['.'] ++ [Separator]) = false := by
  by_contra hcon
  have hpre : HasPrefix (pathOfElements X) (['.'] ++ [Separator]) = true := by
    simpa using hcon
  rw [HasPrefix_iff] at hpre
  obtain ⟨q, hq⟩ := hpre
  by_cases hX0 : X = []
  · subst hX0
    have := congrArg List.length hq
    simp [pathOfElements] at this
  · have e1 : elements (pathOfElements X) = X := by
      simp only [pathOfElements, hX0, if_false]
      exact elements_joinElements X hX0 (fun e he => validName_no_sep (hX e he))
    have e2 : elements (['.'] ++ [Separator] ++ q) = ['.'] :: elements q := by
      have : (['.'] ++ [Separator] ++ q : Path) = ['.'] ++ Separator :: q := by simp
      rw [this, elements_append_sep]; rfl
    rw [← hq, e2] at e1
    have := hX ['.'] (by rw [← e1]; simp)
    rw [not_validName_dot] at this
    cases this

/-- **C3** In every plan of a scan over a tree of valid names, for the leaf `t` of
the plan (the last entry of `files`): when `t` is the cleaned scan root followed by
`/` and `rel`, and when the cleaned scan root is `.` and `t` is `rel`, the identifier
is `rel` with the extension of its last path element removed. -/
theorem findTemplates_id_withoutExtension (S : Sorter) (files : FS)
    (dir includeDir layout : Path) (hvalid : Node.valid files = true) :
    ∀ plan ∈ (findTemplates S files dir includeDir layout).1,
      ∀ t, plan.files.getLast? = some t →
        (∀ rel, t = Clean dir ++ Separator :: rel → plan.id = withoutExtension rel) ∧
        (Clean dir = ['.'] → plan.id = withoutExtension t) := by
  intro plan hplan t ht
  cases hscan : scan files dir includeDir layout with
  | error e =>
    rw [findTemplates_error S files dir includeDir layout e hscan] at hplan
    simp at hplan
  | ok found =>
    rw [findTemplates_ok S files dir includeDir layout found hscan] at hplan
    obtain ⟨root, hroot, hcd, facts⟩ := scan_facts files dir includeDir layout found hvalid hscan
    rw [List.mem_map] at hplan
    obtain ⟨t0, ht0, rfl⟩ := hplan
    simp only [planFor, List.getLast?_append, List.getLast?_singleton, Option.or_some,
      Option.some.injEq] at ht
    subst ht
    simp only [planFor]
    constructor
    · intro rel hrel
      have h1 : TrimPrefix t0 (Clean dir ++ [Separator]) = rel := by
        have : t0 = (Clean dir ++ [Separator]) ++ rel := by rw [hrel]; simp
        rw [this]; exact TrimPrefix_append _ _
      rw [h1]; exact TrimSuffix_Ext rel
    · intro hdot
      obtain ⟨X, hX, htX, _⟩ := facts.templates t0 ht0
      have hr0 : root = [] := by
        have h0 : pathOfElements root = pathOfElements [] := by rw [← hcd, hdot]; rfl
        exact pathOfElements_injective root [] hroot (by simp) h0
      subst hr0
      have h1 : TrimPrefix t0 (Clean dir ++ [Separator]) = t0 := by
        unfold TrimPrefix
        rw [hdot, htX, not_HasPrefix_dot_sep _ hX]
        simp
      rw [h1]; exact TrimSuffix_Ext t0

/-- Witness of C3: `root/profile/view.html` scanned with root `root` has the
identifier `profile/view`. -/
theorem findTemplates_id_withoutExtension_witness :
    Node.valid rootProfileFS = true ∧
    (findTemplates insertionSorter rootProfileFS "root".toList "includes".toList
      "layout.html".toList).1 =
      [{ id := "profile/view".toList, includes := [],
         files := ["root/profile/view.html".toList] }] ∧
    withoutExtension "profile/view.html".toList = "profile/view".toList ∧
    withoutExtension "a.b/view".toList = "a.b/view".toList ∧
    withoutExtension "a.b/view.tar.gz".toList = "a.b/view.tar".toList ∧
    ∀ plan ∈ (findTemplates insertionSorter rootProfileFS "root".toList "includes".toList
        "layout.html".toList).1,
      ∀ t, plan.files.getLast? = some t →
        (∀ rel, t = Clean "root".toList ++ Separator :: rel → plan.id = withoutExtension rel) ∧
        (Clean "root".toList = ['.'] → plan.id = withoutExtension t) :=
  ⟨by decide, by decide, by decide, by decide, by decide,
    findTemplates_id_withoutExtension insertionSorter rootProfileFS "root".toList
      "includes".toList "layout.html".toList (by decide)⟩

/-- **C4** (the code at the failing input) In the tree `root/a/includes/p.html`,
`root/a/layout.html`, `root/ab/x.html` the plan of the leaf `root/ab/x.html` lists
the include directory `root/a/includes` and the layout `root/a/layout.html`, although
their directory `root/a` is neither the leaf's directory `root/ab` nor an ancestor
of it. -/
theorem findTemplates_lists_sibling_directory :
    (findTemplates insertionSorter siblingFS "root".toList "includes".toList
      "layout.html".toList) =
      ([{ id := "ab/x".toList, includes := ["root/a/includes".toList],
          files := ["root/a/layout.html".toList, "root/ab/x.html".toList] }], none) ∧
    Dir "root/a/includes".toList = "root/a".toList ∧
    Dir "root/a/layout.html".toList = "root/a".toList ∧
    Dir "root/ab/x.html".toList = "root/ab".toList ∧
    ¬ isAncestorOrSelf "root/a".toList "root/ab".toList := by
  decide

theorem Listing.filePaths_valid (l : Listing) (hv : l.valid = true) :
    ∀ names ∈ l.filePaths, names ≠ [] ∧ ∀ e ∈ names, validName e = true := by
  induction l with
  | nil => intro names h; simp [Listing.filePaths] at h
  | file n rest ih =>
    intro names h
    simp only [Listing.valid, Bool.and_eq_true] at hv
    simp only [Listing.filePaths, List.mem_cons] at h
    rcases h with rfl | h
    · exact ⟨by simp, by simpa using hv.1⟩
    · exact ih hv.2 names h
  | dir n children readErr rest ihc ihr =>
    intro names h
    simp only [Listing.valid, Bool.and_eq_true] at hv
    simp only [Listing.filePaths, List.mem_append, List.mem_map] at h
    rcases h with ⟨ns, hns, rfl⟩ | h
    · refine ⟨by simp, ?_⟩
      intro e he
      rcases List.mem_cons.mp he with rfl | he
      · exact hv.1.1
      · exact (ihc hv.1.2 ns hns).2 e he
    · exact ihr hv.2 names h

theorem walkPath_pathOfElements (names R : List Path) (hR : ∀ e ∈ R, validName e = true)
    (hn : ∀ e ∈ names, validName e = true) :
    walkPath (pathOfElements R) names = pathOfElements (R ++ names) := by
  unfold walkPath
  induction names generalizing R with
  | nil => simp
  | cons n ns ih =>
    rw [List.foldl_cons, Join_pathOfElements R n hR (hn n (by simp))]
    have h1 : joinElements (R ++ [n]) = pathOfElements (R ++ [n]) := by simp [pathOfElements]
    rw [h1, ih (R ++ [n]) ?_ (fun e he => hn e (by simp [he]))]
    · simp
    · intro e he
      rcases List.mem_append.mp he with he | he
      · exact hR e he
      · simp at he; exact he ▸ hn n (by simp)

theorem Base_pathOfElements_clean (P : List Path) (hP : ∀ e ∈ P, validName e = true) :
    Clean (Base (pathOfElements P)) = Base (pathOfElements P) := by
  rcases List.eq_nil_or_concat P with h0 | ⟨A, f, h0⟩
  · subst h0; decide
  · have h0 : P = A ++ [f] := by simpa using h0
    subst h0
    have hf := hP f (by simp)
    have h1 : pathOfElements (A ++ [f]) = joinElements (A ++ [f]) := by simp [pathOfElements]
    rw [h1, Base_joinElements A f hf]
    simpa [joinElements] using Clean_joinElements [f] (by simp) (by simpa using hf)

/-- Every entry of a plan's `files` is a recorded layout or the recorded leaf. -/
theorem mem_files_classify (S : Sorter) (files : FS) (dir includeDir layout : Path)
    (hvalid : Node.valid files = true) :
    ∀ plan ∈ (findTemplates S files dir includeDir layout).1, ∀ p ∈ plan.files,
      classify (Clean includeDir) layout p false = .Layout ∨
      classify (Clean includeDir) layout p false = .PlainTemplate := by
  intro plan hplan p hp
  cases hscan : scan files dir includeDir layout with
  | error e =>
    rw [findTemplates_error S files dir includeDir layout e hscan] at hplan
    simp at hplan
  | ok found =>
    rw [findTemplates_ok S files dir includeDir layout found hscan] at hplan
    obtain ⟨root, _, _, facts⟩ := scan_facts files dir includeDir layout found hvalid hscan
    rw [List.mem_map] at hplan
    obtain ⟨t0, ht0, rfl⟩ := hplan
    simp only [planFor, List.mem_append, List.mem_filter, List.mem_singleton] at hp
    rcases hp with ⟨hp, _⟩ | rfl
    · left
      obtain ⟨M, _, _, hc⟩ := facts.layouts p ((S.perm lessByLen found.layouts).mem_iff.mp hp)
      exact hc
    · right
      obtain ⟨M, _, _, hc⟩ := facts.templates p ht0
      exact hc

/-- **C5** For every tree of valid names and every file at or below the scan root
whose parent directory has the base name `includeDir`: the file is classified as
ignored, so it is recorded neither as a layout nor as a template; it is in no plan's
`files`, and so it is the leaf of no plan and no identifier is derived from it. -/
theorem findTemplates_skips_files_of_includeDir (S : Sorter) (files : FS)
    (dir includeDir layout : Path) (node : Node)
    (hvalid : Node.valid files = true)
    (hstat : Stat files (Clean dir) = .ok node) :
    ∀ names ∈ node.filePaths, Base (parentPath (Clean dir) names) = includeDir →
      classify (Clean includeDir) layout (walkPath (Clean dir) names) false = .Ignored ∧
      (∀ found, scan files dir includeDir layout = .ok found →
        walkPath (Clean dir) names ∉ found.layouts ∧
        walkPath (Clean dir) names ∉ found.templates) ∧
      ∀ plan ∈ (findTemplates S files dir includeDir layout).1,
        walkPath (Clean dir) names ∉ plan.files ∧
        plan.files.getLast? ≠ some (walkPath (Clean dir) names) := by
  intro names hnames hbase
  obtain ⟨hvp, hvn⟩ := Stat_ok files (Clean dir) node hvalid hstat
  obtain ⟨R, hR, hcd⟩ := ValidPath_form (Clean dir) hvp
  have hn : ∀ e ∈ names, validName e = true := by
    cases node with
    | file =>
      simp only [Node.filePaths, List.mem_singleton] at hnames
      subst hnames; simp
    | dir children readErr =>
      exact (Listing.filePaths_valid children hvn names hnames).2
  have hall : ∀ e ∈ R ++ names, validName e = true := by
    intro e he
    rcases List.mem_append.mp he with he | he
    · exact hR e he
    · exact hn e he
  have hpath : walkPath (Clean dir) names = pathOfElements (R ++ names) := by
    rw [hcd]; exact walkPath_pathOfElements names R hR hn
  have hparent : parentPath (Clean dir) names = Dir (walkPath (Clean dir) names) := by
    rw [hpath, Dir_recorded (R ++ names) hall]
    cases names with
    | nil =>
      simp only [parentPath, List.append_nil]
      rw [hcd, Dir_recorded R hR]
    | cons n ns =>
      simp only [parentPath]
      rw [hcd, walkPath_pathOfElements _ R hR (valid_dropLast hn)]
      congr 1
      rw [List.dropLast_append_of_ne_nil _ (by simp)]
  have hclean : Clean includeDir = includeDir := by
    rw [← hbase, hparent, hpath, Dir_recorded (R ++ names) hall]
    exact Base_pathOfElements_clean _ (valid_dropLast hall)
  have hcls : classify (Clean includeDir) layout (walkPath (Clean dir) names) false
      = .Ignored := by
    unfold classify
    rw [hclean, ← hparent, hbase]
    simp
  refine ⟨hcls, ?_, ?_⟩
  · intro found hscan
    obtain ⟨root, _, _, facts⟩ := scan_facts files dir includeDir layout found hvalid hscan
    constructor
    · intro hmem
      obtain ⟨M, _, _, hc⟩ := facts.layouts _ hmem
      rw [hcls] at hc; cases hc
    · intro hmem
      obtain ⟨M, _, _, hc⟩ := facts.templates _ hmem
      rw [hcls] at hc; cases hc
  · intro plan hplan
    have hnot : walkPath (Clean dir) names ∉ plan.files := by
      intro hmem
      rcases mem_files_classify S files dir includeDir layout hvalid plan hplan _ hmem with h | h
      · rw [hcls] at h; cases h
      · rw [hcls] at h; cases h
    exact ⟨hnot, fun hlast => hnot (List.mem_of_getLast?_eq_some hlast)⟩

/-- Witness of C5 on the tree of the tests: `includes/header.html` below
`test/templates` is in no plan. -/
theorem findTemplates_skips_files_of_includeDir_witness :
    Node.valid testDirFS = true ∧
    Stat testDirFS (Clean "test/templates".toList) = .ok (.dir templatesListing none) ∧
    ["includes".toList, "header.html".toList] ∈ Node.filePaths (.dir templatesListing none) ∧
    Base (parentPath (Clean "test/templates".toList)
      ["includes".toList, "header.html".toList]) = "includes".toList ∧
    walkPath (Clean "test/templates".toList) ["includes".toList, "header.html".toList]
      = "test/templates/includes/header.html".toList ∧
    ∀ plan ∈ (findTemplates insertionSorter testDirFS "test/templates".toList
        "includes".toList "layout.html".toList).1,
      walkPath (Clean "test/templates".toList) ["includes".toList, "header.html".toList]
        ∉ plan.files ∧
      plan.files.getLast? ≠ some (walkPath (Clean "test/templates".toList)
        ["includes".toList, "header.html".toList]) :=
  ⟨testDir_valid, by rfl, by decide, by decide, by decide,
    (findTemplates_skips_files_of_includeDir insertionSorter testDirFS "test/templates".toList
      "includes".toList "layout.html".toList (.dir templatesListing none) testDir_valid (by rfl)
      ["includes".toList, "header.html".toList] (by decide) (by decide)).2.2⟩

/-- **C6** (counterexample) In the tree `root/includes/sub/x.html` scanned at `root`
the file `root/includes/sub/x.html` is the leaf of a plan, although the directory
`root/includes`, which lies between the scan root and the leaf, is named `includes`:
it is not true of every plan that the leaf is not named `layout.html` and that no
directory between the scan root and the leaf is named `includes`. -/
theorem findTemplates_leaf_below_includeDir :
    (findTemplates insertionSorter nestedIncludeFS "root".toList "includes".toList
      "layout.html".toList) =
      ([{ id := "includes/sub/x".toList, includes := ["root/includes".toList],
          files := ["root/includes/sub/x.html".toList] }], none) ∧
    directoriesBetween "root".toList "root/includes/sub/x.html".toList
      = ["includes".toList, "sub".toList] ∧
    ¬ (∀ plan ∈ (findTemplates insertionSorter nestedIncludeFS "root".toList
          "includes".toList "layout.html".toList).1,
        ∀ t, plan.files.getLast? = some t →
          Base t ≠ "layout.html".toList ∧
          "includes".toList ∉ directoriesBetween (Clean "root".toList) t) := by
  refine ⟨by decide, by decide, ?_⟩
  intro h
  have h1 := h ⟨"includes/sub/x".toList, ["root/includes".toList],
    ["root/includes/sub/x.html".toList]⟩ (by decide)
    "root/includes/sub/x.html".toList (by decide)
  exact absurd h1.2 (by decide)

/-- **C6** (amended) In every plan of a scan over a tree of valid names the leaf does
not lie directly inside an include directory: the base name of its parent directory
is not `includeDir`, cleaned or as given. Its path does not end with `/` followed by
`layout`, so a leaf whose path has a directory part is not named `layout`. -/
theorem findTemplates_leaf_not_layout_not_in_includeDir (S : Sorter) (files : FS)
    (dir includeDir layout : Path) (hvalid : Node.valid files = true) :
    ∀ plan ∈ (findTemplates S files dir includeDir layout).1,
      ∀ t, plan.files.getLast? = some t →
        Base (Dir t) ≠ Clean includeDir ∧ Base (Dir t) ≠ includeDir ∧
        HasSuffix t (Separator :: layout) = false ∧
        (Separator ∈ t → Base t ≠ layout) := by
  intro plan hplan t ht
  cases hscan : scan files dir includeDir layout with
  | error e =>
    rw [findTemplates_error S files dir includeDir layout e hscan] at hplan
    simp at hplan
  | ok found =>
    rw [findTemplates_ok S files dir includeDir layout found hscan] at hplan
    obtain ⟨root, hroot, hcd, facts⟩ := scan_facts files dir includeDir layout found hvalid hscan
    rw [List.mem_map] at hplan
    obtain ⟨t0, ht0, rfl⟩ := hplan
    simp only [planFor, List.getLast?_append, List.getLast?_singleton, Option.or_some,
      Option.some.injEq] at ht
    subst ht
    obtain ⟨X, hX, htX, hc⟩ := facts.templates t0 ht0
    obtain ⟨h1, h2⟩ := classify_template hc
    refine ⟨h1, ?_, h2, ?_⟩
    · intro hb
      apply h1
      have hcl : Clean (Base (Dir t0)) = Base (Dir t0) := by
        rw [htX, Dir_recorded _ hX]
        exact Base_pathOfElements_clean _ (valid_dropLast hX)
      rw [← hb, hcl]
    · intro hsep hbase
      rw [htX] at hsep
      obtain ⟨A, f, hA, hXA⟩ := split_last_of_sep (root ++ X) hX hsep
      rw [hXA] at hX htX
      have hj : t0 = joinElements (A ++ [f]) := by rw [htX]; simp [pathOfElements]
      have hf : f = layout := by
        rw [← hbase, hj]
        exact (Base_joinElements A f (hX f (by simp))).symm
      have : HasSuffix t0 (Separator :: layout) = true := by
        rw [HasSuffix_iff, hj, joinElements_append_singleton A hA, hf]
        exact List.suffix_append _ _
      rw [h2] at this
      cases this

/-- Witness of C6 (amended) on the tree of the tests. -/
theorem findTemplates_leaf_not_layout_not_in_includeDir_witness :
    Node.valid testDirFS = true ∧
    (findTemplates insertionSorter testDirFS "test/templates".toList "includes".toList
      "layout.html".toList).1.map (fun plan => plan.files.getLast?) =
      [some "test/templates/profile/edit.html".toList,
       some "test/templates/profile/payments/methods.html".toList,
       some "test/templates/profile/view.html".toList] ∧
    ∀ plan ∈ (findTemplates insertionSorter testDirFS "test/templates".toList
        "includes".toList "layout.html".toList).1,
      ∀ t, plan.files.getLast? = some t →
        Base (Dir t) ≠ Clean "includes".toList ∧ Base (Dir t) ≠ "includes".toList ∧
        HasSuffix t (Separator :: "layout.html".toList) = false ∧
        (Separator ∈ t → Base t ≠ "layout.html".toList) :=
  ⟨testDir_valid, by decide,
    findTemplates_leaf_not_layout_not_in_includeDir insertionSorter testDirFS
      "test/templates".toList "includes".toList "layout.html".toList testDir_valid⟩

/-- **C7** (the code at the failing input) The tree of the tests scanned under the
named root `test/templates` gives three plans, each with the root layout and the root
include directory. The same tree scanned as root `.` gives a fourth plan, with the
identifier `layout`, for the root-level `layout.html`, and the plans of `profile/edit`,
`profile/payments/methods` and `profile/view` have neither the root-level layout nor
the root-level include directory. -/
theorem findTemplates_root_dot_differs :
    (findTemplates insertionSorter testDirFS "test/templates".toList "includes".toList
      "layout.html".toList) =
      ([{ id := "profile/edit".toList,
          includes := ["test/templates/includes".toList],
          files := ["test/templates/layout.html".toList,
            "test/templates/profile/layout.html".toList,
            "test/templates/profile/edit.html".toList] },
        { id := "profile/payments/methods".toList,
          includes := ["test/templates/includes".toList,
            "test/templates/profile/payments/includes".toList],
          files := ["test/templates/layout.html".toList,
            "test/templates/profile/layout.html".toList,
            "test/templates/profile/payments/layout.html".toList,
            "test/templates/profile/payments/methods.html".toList] },
        { id := "profile/view".toList,
          includes := ["test/templates/includes".toList],
          files := ["test/templates/layout.html".toList,
            "test/templates/profile/layout.html".toList,
            "test/templates/profile/view.html".toList] }], none) ∧
    (findTemplates insertionSorter templatesFS ".".toList "includes".toList
      "layout.html".toList) =
      ([{ id := "layout".toList, includes := [], files := ["layout.html".toList] },
        { id := "profile/edit".toList, includes := [],
          files := ["profile/layout.html".toList, "profile/edit.html".toList] },
        { id := "profile/payments/methods".toList,
          includes := ["profile/payments/includes".toList],
          files := ["profile/layout.html".toList, "profile/payments/layout.html".toList,
            "profile/payments/methods.html".toList] },
        { id := "profile/view".toList, includes := [],
          files := ["profile/layout.html".toList, "profile/view.html".toList] }], none) := by
  decide

theorem Registry.get_eq_none_iff {U : Type} (m : Registry U) (name : Path) :
    Registry.get m name = none ↔ ∀ u, (name, u) ∉ m := by
  induction m with
  | nil => simp [Registry.get]
  | cons kv rest ih =>
    obtain ⟨k, v⟩ := kv
    simp only [Registry.get]
    split
    · rename_i hk
      subst hk
      constructor
      · intro h; cases h
      · intro h; exact absurd (List.mem_cons_self _ _) (h v)
    · rename_i hk
      rw [ih]
      constructor
      · intro h u hmem
        rcases List.mem_cons.mp hmem with h1 | h1
        · cases h1; exact hk rfl
        · exact h u h1
      · intro h u hmem
        exact h u (List.mem_cons_of_mem _ hmem)

theorem Template.lookup_eq_none_iff {U F : Type} (t : Template U F) (name : Path) :
    t.templates.bind (fun m => Registry.get m name) = none ↔ ¬ t.isKey name := by
  unfold Template.isKey
  cases ht : t.templates with
  | none => simp
  | some m =>
    simp only [Option.some_bind, Registry.get_eq_none_iff, Option.some.injEq]
    constructor
    · rintro h ⟨m2, u, rfl, hmem⟩
      exact h u hmem
    · intro h u hmem
      exact h ⟨m, u, rfl, hmem⟩

/-- **C8** `ExecuteTemplate(w, name, data)` returns a `NotFoundError` carrying `name`
exactly when `name` is not a key of the registry (a `nil` registry has no key); the
writer is then as before and the outcome is the same for every engine. When `name`
is the key of a compiled template, the writer is what the engine's `Execute` leaves,
and the error is an `ExecuteError` carrying `name` and the engine's error when the
engine reports one, and `nil` otherwise. The receiver is unchanged in every case. -/
theorem ExecuteTemplate_contract {U F D : Type} (E : Engine U F D) (t : Template U F)
    (w name : Path) (data : D) :
    (t.ExecuteTemplate E w name data).receiver = t ∧
    ((t.ExecuteTemplate E w name data).err = some (.notFound { Template := name })
      ↔ ¬ t.isKey name) ∧
    (¬ t.isKey name →
      (t.ExecuteTemplate E w name data).writer = w ∧
      ∀ (E2 : Engine U F D), t.ExecuteTemplate E2 w name data = t.ExecuteTemplate E w name data) ∧
    (t.isKey name → ∃ tmpl, t.templates.bind (fun m => Registry.get m name) = some tmpl ∧
      (t.ExecuteTemplate E w name data).writer = (E.Execute tmpl w data).1 ∧
      (t.ExecuteTemplate E w name data).err =
        (E.Execute tmpl w data).2.map (fun err =>
          .execute { Template := name, Err := err })) := by
  cases hl : t.templates.bind (fun m => Registry.get m name) with
  | none =>
    have hk : ¬ t.isKey name := (Template.lookup_eq_none_iff t name).mp hl
    have hex : ∀ (E2 : Engine U F D), t.ExecuteTemplate E2 w name data =
        { receiver := t, writer := w, err := some (.notFound { Template := name }) } := by
      intro E2; simp only [Template.ExecuteTemplate, hl]
    refine ⟨by rw [hex], by rw [hex]; simp [hk], fun _ => ⟨by rw [hex], ?_⟩,
      fun h => absurd h hk⟩
    intro E2; rw [hex, hex]
  | some tmpl =>
    have hk : t.isKey name := by
      by_contra hk
      rw [(Template.lookup_eq_none_iff t name).mpr hk] at hl
      cases hl
    cases hx : E.Execute tmpl w data with
    | mk w1 oe =>
      cases oe with
      | none =>
        have hex : t.ExecuteTemplate E w name data =
            { receiver := t, writer := w1, err := none } := by
          simp only [Template.ExecuteTemplate, hl, hx]
        refine ⟨by rw [hex], by rw [hex]; simp [hk], fun h => absurd hk h,
          fun _ => ⟨tmpl, rfl, by rw [hex, hx], by rw [hex, hx]; rfl⟩⟩
      | some e =>
        have hex : t.ExecuteTemplate E w name data =
            { receiver := t, writer := w1,
              err := some (.execute { Template := name, Err := e }) } := by
          simp only [Template.ExecuteTemplate, hl, hx]
        refine ⟨by rw [hex], by rw [hex]; simp [hk], fun h => absurd hk h,
          fun _ => ⟨tmpl, rfl, by rw [hex, hx], by rw [hex, hx]; rfl⟩⟩

/-- Examples of C8 with `listEngine`: a name that is not registered, a registered
template that renders, and a registered template on which the engine fails. -/
theorem ExecuteTemplate_contract_witness :
    ((parsedBefore.ExecuteTemplate listEngine "out:".toList "missing".toList ()).writer,
      (parsedBefore.ExecuteTemplate listEngine "out:".toList "missing".toList ()).err)
      = ("out:".toList, some (.notFound { Template := "missing".toList })) ∧
    ((parsedBefore.ExecuteTemplate listEngine "out:".toList "old".toList ()).writer,
      (parsedBefore.ExecuteTemplate listEngine "out:".toList "old".toList ()).err)
      = ("out:old.html".toList, none) ∧
    ((parsedBefore.ExecuteTemplate listEngine "out:".toList "empty".toList ()).writer,
      (parsedBefore.ExecuteTemplate listEngine "out:".toList "empty".toList ()).err)
      = ("out:".toList, some (.execute { Template := "empty".toList, Err := .other 2 })) ∧
    ((New : Template (List Path) Unit).ExecuteTemplate listEngine [] "old".toList ()).err
      = some (.notFound { Template := "old".toList }) ∧
    (parsedBefore.ExecuteTemplate listEngine "out:".toList "old".toList ()).receiver
      = parsedBefore :=
  ⟨by decide, by decide, by decide, by decide,
    (ExecuteTemplate_contract listEngine parsedBefore "out:".toList "old".toList ()).1⟩

theorem parsePlans_error {U F D : Type} (E : Engine U F D) (files : FS) (layout : Path)
    (funcMap : List (Path × F)) (plans : List templateInfo) :
    ∀ (templates : Registry U) (err : ParseError),
      (parsePlans E files layout funcMap templates plans).2 = some err →
      (parsePlans E files layout funcMap templates plans).1 = none := by
  induction plans with
  | nil => intro templates err h; simp [parsePlans] at h
  | cons info rest ih =>
    intro templates err h
    simp only [parsePlans] at h ⊢
    cases hi : parseIncludes E files (E.New layout funcMap) info.includes with
    | error e => simp only [hi]
    | ok t =>
      simp only [hi] at h ⊢
      cases hp : E.ParseFS t files info.files with
      | error e => simp only [hp]
      | ok t1 =>
        simp only [hp] at h ⊢
        exact ih _ err h

theorem parseFS_error {U F D : Type} (S : Sorter) (E : Engine U F D) (files : FS)
    (dir includeDir layout : Path) (funcMap : List (Path × F)) (err : ParseError)
    (h : (parseFS S E files dir includeDir layout funcMap).2 = some err) :
    (parseFS S E files dir includeDir layout funcMap).1 = none := by
  unfold parseFS at h ⊢
  cases hf : findTemplates S files dir includeDir layout with
  | mk plans oe =>
    cases oe with
    | some e => rfl
    | none =>
      simp only [hf] at h ⊢
      exact parsePlans_error E files layout funcMap plans [] err h

/-- **C9** When `parseFS` returns an error it returns no registry. So when `ParseFS`
or `ParseDir` returns an error, the template's registry is `nil` afterwards, whatever
it held before and whatever had been compiled before the failure, and every later
`ExecuteTemplate` returns a `NotFoundError` for its name and leaves the writer as it
was. -/
theorem ParseFS_error_exposes_no_registry {U F D : Type} (S : Sorter) (E : Engine U F D)
    (t : Template U F) (files : FS) (dir : Path) (err : ParseError) :
    ((parseFS S E files dir t.IncludeDir t.Layout t.FuncMap).2 = some err →
      (parseFS S E files dir t.IncludeDir t.Layout t.FuncMap).1 = none) ∧
    ((t.ParseFS S E files dir).2 = some err →
      (t.ParseFS S E files dir).1.templates = none ∧
      ∀ (w name : Path) (data : D),
        ((t.ParseFS S E files dir).1.ExecuteTemplate E w name data).err
          = some (.notFound { Template := name }) ∧
        ((t.ParseFS S E files dir).1.ExecuteTemplate E w name data).writer = w) ∧
    ((Template.ParseDir S E files t dir).2 = some err →
      (Template.ParseDir S E files t dir).1.templates = none ∧
      ∀ (w name : Path) (data : D),
        ((Template.ParseDir S E files t dir).1.ExecuteTemplate E w name data).err
          = some (.notFound { Template := name }) ∧
        ((Template.ParseDir S E files t dir).1.ExecuteTemplate E w name data).writer = w) := by
  have key : ∀ (t2 : Template U F), t2.templates = none → ∀ (w name : Path) (data : D),
      (t2.ExecuteTemplate E w name data).err = some (.notFound { Template := name }) ∧
      (t2.ExecuteTemplate E w name data).writer = w := by
    intro t2 h2 w name data
    simp [Template.ExecuteTemplate, h2]
  refine ⟨parseFS_error S E files dir _ _ _ err, ?_, ?_⟩
  · intro h
    have h1 : (t.ParseFS S E files dir).1.templates = none :=
      parseFS_error S E files dir _ _ _ err h
    exact ⟨h1, key _ h1⟩
  · intro h
    have h1 : (Template.ParseDir S E files t dir).1.templates = none :=
      parseFS_error S E files dir _ _ _ err h
    exact ⟨h1, key _ h1⟩

/-- Example of C9: parsing `root`, where `a.html` compiles and `broken.html` is
rejected, into a template that had `old` registered: the parse fails, and afterwards
neither `a` nor `old` is found. -/
theorem ParseFS_error_exposes_no_registry_witness :
    (parsedBefore.ParseFS insertionSorter listEngine brokenLeafFS "root".toList).2
      = some { Path := "[root/broken.html]".toList, Err := .other 1 } ∧
    (parsedBefore.ExecuteTemplate listEngine [] "old".toList ()).err = none ∧
    ((parsedBefore.ParseFS insertionSorter listEngine brokenLeafFS "root".toList).1.templates
      = none ∧
      ∀ (w name : Path) (data : Unit),
        ((parsedBefore.ParseFS insertionSorter listEngine brokenLeafFS
            "root".toList).1.ExecuteTemplate listEngine w name data).err
          = some (.notFound { Template := name }) ∧
        ((parsedBefore.ParseFS insertionSorter listEngine brokenLeafFS
            "root".toList).1.ExecuteTemplate listEngine w name data).writer = w) :=
  ⟨by decide, by decide,
    (ParseFS_error_exposes_no_registry insertionSorter listEngine parsedBefore brokenLeafFS
      "root".toList { Path := "[root/broken.html]".toList, Err := .other 1 }).2.1
      (by decide)⟩

theorem Listing.firstFailure_listingError (l : Listing) :
    ∀ name, (l.firstFailure name).map Prod.snd = l.firstError := by
  induction l with
  | nil => intro name; rfl
  | file n rest ih => intro name; simpa [Listing.firstFailure, Listing.firstError] using ih name
  | dir n children readErr rest ihc ihr =>
    intro name
    simp only [Listing.firstFailure, Listing.firstError]
    cases readErr with
    | some e => rfl
    | none =>
      simp only
      rw [← ihc (Join name n)]
      cases children.firstFailure (Join name n) with
      | some failure => rfl
      | none => exact ihr name

theorem Node.firstFailure_nodeError (node : Node) (name : Path) :
    (node.firstFailure name).map Prod.snd = node.firstError := by
  cases node with
  | file => rfl
  | dir children readErr =>
    simp only [Node.firstFailure, Node.firstError]
    cases readErr with
    | some e => rfl
    | none => exact Listing.firstFailure_listingError children name

theorem scan_traversalFailure (files : FS) (dir includeDir layout : Path) :
    (∀ failure, traversalFailure files (Clean dir) = some failure →
      scan files dir includeDir layout = .error failure.2) ∧
    (traversalFailure files (Clean dir) = none →
      ∃ found, scan files dir includeDir layout = .ok found) := by
  rw [scan_eq]
  unfold traversalFailure
  cases hs : Stat files (Clean dir) with
  | error e =>
    refine ⟨?_, ?_⟩
    · intro failure h; simp only [Option.some.injEq] at h; subst h; rfl
    · intro h; simp at h
  | ok node =>
    simp only
    have hsnd := Node.firstFailure_nodeError node (Clean dir)
    refine ⟨?_, ?_⟩
    · intro failure h
      rw [h] at hsnd
      simp only [Option.map_some'] at hsnd
      rw [← hsnd]
    · intro h
      rw [h] at hsnd
      simp only [Option.map_none'] at hsnd
      rw [← hsnd]
      exact ⟨_, rfl⟩

/-- **C10** (counterexample) In the tree with `root/a.html` and the unreadable
directory `root/sub`, scanned at `root`, the traversal fails at the entry `root/sub`;
`findTemplates` returns no plans and an error whose path is the scan root `root`,
not the path `root/sub` of the entry that caused the failure. -/
theorem findTemplates_error_path_is_root :
    traversalFailure unreadableSubFS (Clean "root".toList)
      = some ("root/sub".toList, .other 13) ∧
    findTemplates insertionSorter unreadableSubFS "root".toList "includes".toList
      "layout.html".toList = ([], some { Path := "root".toList, Err := .other 13 }) ∧
    findTemplates insertionSorter unreadableSubFS "root".toList "includes".toList
      "layout.html".toList ≠ ([], some { Path := "root/sub".toList, Err := .other 13 }) := by
  decide

/-- **C10** (amended) When the traversal fails at some entry, `findTemplates` returns
no plans and a `ParseError` that carries the cleaned scan root as its path, together
with the underlying error. -/
theorem findTemplates_traversal_error (S : Sorter) (files : FS)
    (dir includeDir layout entry : Path) (err : Error)
    (hfail : traversalFailure files (Clean dir) = some (entry, err)) :
    findTemplates S files dir includeDir layout
      = ([], some { Path := Clean dir, Err := err }) :=
  findTemplates_error S files dir includeDir layout err
    ((scan_traversalFailure files dir includeDir layout).1 (entry, err) hfail)

/-- Witness of C10 (amended): the unreadable `root/sub` below the scan root `root/`,
and a scan root that does not exist. -/
theorem findTemplates_traversal_error_witness :
    traversalFailure unreadableSubFS (Clean "root/".toList)
      = some ("root/sub".toList, .other 13) ∧
    findTemplates insertionSorter unreadableSubFS "root/".toList "includes".toList
      "layout.html".toList = ([], some { Path := "root".toList, Err := .other 13 }) ∧
    findTemplates insertionSorter unreadableSubFS "missing".toList "includes".toList
      "layout.html".toList = ([], some { Path := "missing".toList, Err := .notExist }) :=
  ⟨by decide,
    findTemplates_traversal_error insertionSorter unreadableSubFS "root/".toList
      "includes".toList "layout.html".toList "root/sub".toList (.other 13) (by decide),
    by decide⟩

/-- **C11** (counterexample) On the tree of the tests scanned at `test/templates`, a
template whose `Layout` and `IncludeDir` are left empty builds other plans than one
configured with `layout.html` and `includes`: no file is a layout, and the files of
the include directories become leaves. -/
theorem findTemplates_unset_differs_from_defaults :
    findTemplates insertionSorter testDirFS "test/templates".toList
        (unsetTemplate : Template Unit Unit).IncludeDir
        (unsetTemplate : Template Unit Unit).Layout
      ≠ findTemplates insertionSorter testDirFS "test/templates".toList
        "includes".toList "layout.html".toList ∧
    (findTemplates insertionSorter testDirFS "test/templates".toList
        (unsetTemplate : Template Unit Unit).IncludeDir
        (unsetTemplate : Template Unit Unit).Layout).1.map templateInfo.id
      = ["includes/footer".toList, "includes/header".toList, "layout".toList,
         "profile/edit".toList, "profile/layout".toList,
         "profile/payments/includes/method".toList, "profile/payments/layout".toList,
         "profile/payments/methods".toList, "profile/view".toList] := by
  decide

/-- **C11** (amended) The defaults come from `New()`: its `Layout` is `layout.html` and
its `IncludeDir` is `includes`, so for every tree it is parsed like a template
configured with these two values. Leaving `Layout` empty sets no default: over a tree
of valid names a scan with the empty layout name records no layout, and every plan's
`files` is the leaf alone. -/
theorem New_sets_defaults_unset_has_none {U F D : Type} (S : Sorter) (E : Engine U F D)
    (files : FS) (dir includeDir : Path) (hvalid : Node.valid files = true) :
    (New : Template U F).Layout = "layout.html".toList ∧
    (New : Template U F).IncludeDir = "includes".toList ∧
    (New : Template U F).ParseFS S E files dir =
      Template.ParseFS S E (Template.mk "layout.html".toList "includes".toList [] none)
        files dir ∧
    (∀ found, scan files dir includeDir (unsetTemplate : Template U F).Layout = .ok found →
      found.layouts = []) ∧
    ∀ plan ∈ (findTemplates S files dir includeDir (unsetTemplate : Template U F).Layout).1,
      plan.files.length = 1 := by
  have hnone : ∀ found, scan files dir includeDir [] = .ok found → found.layouts = [] := by
    intro found hscan
    obtain ⟨root, _, _, facts⟩ := scan_facts files dir includeDir [] found hvalid hscan
    rw [List.eq_nil_iff_forall_not_mem]
    intro l hl
    obtain ⟨M, hall, heq, hc⟩ := facts.layouts l hl
    have hsuf := (classify_layout hc).2
    rw [heq] at hsuf
    obtain ⟨A, _, hX⟩ := layout_form (root ++ M) [] hall hsuf
    have := hall (lastPart []) (by rw [hX]; simp)
    revert this
    decide
  refine ⟨rfl, rfl, rfl, hnone, ?_⟩
  intro plan hplan
  show plan.files.length = 1
  change plan ∈ (findTemplates S files dir includeDir []).1 at hplan
  cases hscan : scan files dir includeDir [] with
  | error e =>
    rw [findTemplates_error S files dir includeDir [] e hscan] at hplan
    simp at hplan
  | ok found =>
    rw [findTemplates_ok S files dir includeDir [] found hscan] at hplan
    rw [List.mem_map] at hplan
    obtain ⟨t0, _, rfl⟩ := hplan
    have hl := hnone found hscan
    have hs : S.sort lessByLen found.layouts = [] := by
      rw [hl]
      exact List.Perm.eq_nil (S.perm lessByLen [])
    simp [planFor, hs]

/-- Witness of C11 (amended) on the tree of the tests. -/
theorem New_sets_defaults_unset_has_none_witness :
    Node.valid testDirFS = true ∧
    (findTemplates insertionSorter testDirFS "test/templates".toList "includes".toList
        (unsetTemplate : Template (List Path) Unit).Layout).1.map templateInfo.files
      = [["test/templates/layout.html".toList], ["test/templates/profile/edit.html".toList],
         ["test/templates/profile/layout.html".toList],
         ["test/templates/profile/payments/layout.html".toList],
         ["test/templates/profile/payments/methods.html".toList],
         ["test/templates/profile/view.html".toList]] ∧
    ∀ plan ∈ (findTemplates insertionSorter testDirFS "test/templates".toList
        "includes".toList (unsetTemplate : Template (List Path) Unit).Layout).1,
      plan.files.length = 1 :=
  ⟨testDir_valid, by decide,
    (New_sets_defaults_unset_has_none insertionSorter listEngine testDirFS
      "test/templates".toList "includes".toList testDir_valid).2.2.2.2⟩

theorem Clean_append_Separator (d : Path) (hd : d ≠ []) :
    Clean (d ++ [Separator]) = Clean d := by
  unfold Clean
  rw [if_neg (by simp), if_neg hd]
  have hh : (d ++ [Separator]).head? = d.head? := by
    cases d with
    | nil => exact absurd rfl hd
    | cons c cs => rfl
  have he : elements (d ++ [Separator]) = elements d ++ [[]] := by
    rw [elements_append_sep]; rfl
  rw [hh, he]
  simp only [List.foldl_append, List.foldl_cons, List.foldl_nil]
  have hstep : ∀ (r : Bool) (out : List Path), cleanStep r out [] = out := by
    intro r out; simp [cleanStep]
  simp only [hstep]

/-- **C18** A trailing separator on the scan root does not change the result: for every
non-empty directory name `d`, `findTemplates` called with `d` followed by `/` returns
what it returns for `d`, plans, identifiers and error alike. -/
theorem findTemplates_trailing_separator (S : Sorter) (files : FS)
    (d includeDir layout : Path) (hd : d ≠ []) :
    findTemplates S files (d ++ [Separator]) includeDir layout
      = findTemplates S files d includeDir layout := by
  unfold findTemplates scan
  rw [Clean_append_Separator d hd]

/-- Witness of C18: `templates/` and `templates` both give the identifier
`profile/view` for `templates/profile/view.html`. -/
theorem findTemplates_trailing_separator_witness :
    "templates".toList ≠ [] ∧
    findTemplates insertionSorter templatesDirFS "templates".toList "includes".toList
      "layout.html".toList =
      ([{ id := "profile/view".toList, includes := [],
          files := ["templates/layout.html".toList,
            "templates/profile/view.html".toList] }], none) ∧
    findTemplates insertionSorter templatesDirFS ("templates".toList ++ [Separator])
      "includes".toList "layout.html".toList
      = findTemplates insertionSorter templatesDirFS "templates".toList "includes".toList
        "layout.html".toList :=
  ⟨by decide, by decide,
    findTemplates_trailing_separator insertionSorter templatesDirFS "templates".toList
      "includes".toList "layout.html".toList (by decide)⟩

theorem classify_file_cases (includeDir layout path : Path) :
    (classify (Clean includeDir) layout path false = .Ignored
      ↔ directlyInIncludeDir includeDir path = true) ∧
    (classify (Clean includeDir) layout path false = .Layout
      ↔ directlyInIncludeDir includeDir path = false ∧ isLayoutPath layout path = true) ∧
    (classify (Clean includeDir) layout path false = .PlainTemplate
      ↔ directlyInIncludeDir includeDir path = false ∧ isLayoutPath layout path = false) ∧
    classify (Clean includeDir) layout path false ≠ .IncludeDir := by
  unfold classify directlyInIncludeDir isLayoutPath
  by_cases h1 : Base (Dir path) = Clean includeDir
  · simp [h1]
  · by_cases h2 : HasSuffix path (Separator :: layout) = true
    · simp [h1, h2]
    · simp [h1, h2]

theorem classify_dir_no_template (includeDir layout path : Path) :
    classify includeDir layout path true ≠ .PlainTemplate ∧
    classify includeDir layout path true ≠ .Layout := by
  unfold classify
  by_cases h : Base path = includeDir <;> simp [h]

theorem templates_eq_visitedLeaves (includeDir layout : Path) (vs : List (Path × Bool)) :
    (vs.filter (fun v => classify (Clean includeDir) layout v.1 v.2 = .PlainTemplate)).map
      Prod.fst = visitedLeaves includeDir layout vs := by
  unfold visitedLeaves
  congr 1
  apply List.filter_congr
  intro v _
  obtain ⟨p, d⟩ := v
  cases d with
  | true =>
    have := (classify_dir_no_template (Clean includeDir) layout p).1
    simp [this]
  | false =>
    have h := (classify_file_cases includeDir layout p).2.2.1
    by_cases hc : classify (Clean includeDir) layout p false = .PlainTemplate
    · have := h.mp hc
      simp [hc, this.1, this.2]
    · have hn : ¬ (directlyInIncludeDir includeDir p = false ∧ isLayoutPath layout p = false) :=
        fun hh => hc (h.mpr hh)
      simp only [hc, decide_False, Bool.not_false, Bool.true_and]
      cases h1 : directlyInIncludeDir includeDir p <;> cases h2 : isLayoutPath layout p <;>
        simp_all

/-- **C16** When the traversal succeeds, `findTemplates` returns no error and exactly
one plan for each visited file that is neither directly inside an include directory
nor a layout file, in the order in which these files were visited, the file being the
leaf of its plan; so there is no plan for a directory, a layout file or a file
directly inside an include directory. Every file falls in exactly one of the three
classes ignored, layout and leaf, and no directory is a layout or a leaf. -/
theorem findTemplates_one_plan_per_leaf (S : Sorter) (files : FS)
    (dir includeDir layout : Path) (node : Node)
    (hstat : Stat files (Clean dir) = .ok node) (hwalk : node.firstError = none) :
    (findTemplates S files dir includeDir layout).2 = none ∧
    List.Forall₂ (fun path plan => plan.files.getLast? = some path)
      (visitedLeaves includeDir layout (node.visits (Clean dir)))
      (findTemplates S files dir includeDir layout).1 ∧
    (∀ path,
      (classify (Clean includeDir) layout path false = .Ignored
        ↔ directlyInIncludeDir includeDir path = true) ∧
      (classify (Clean includeDir) layout path false = .Layout
        ↔ directlyInIncludeDir includeDir path = false ∧ isLayoutPath layout path = true) ∧
      (classify (Clean includeDir) layout path false = .PlainTemplate
        ↔ directlyInIncludeDir includeDir path = false ∧ isLayoutPath layout path = false) ∧
      classify (Clean includeDir) layout path false ≠ .IncludeDir) ∧
    (∀ path,
      classify (Clean includeDir) layout path true ≠ .PlainTemplate ∧
      classify (Clean includeDir) layout path true ≠ .Layout) := by
  have hscan : scan files dir includeDir layout = .ok ((node.visits (Clean dir)).foldl
      (record (Clean includeDir) layout) ⟨[], [], []⟩) := by
    rw [scan_eq, hstat]
    simp only [hwalk]
  rw [findTemplates_ok S files dir includeDir layout _ hscan]
  refine ⟨rfl, ?_, classify_file_cases includeDir layout,
    classify_dir_no_template (Clean includeDir) layout⟩
  simp only [foldl_record_templates, List.nil_append, templates_eq_visitedLeaves,
    List.forall₂_map_right_iff, List.forall₂_same]
  intro t _
  simp [planFor]

/-- Witness of C16 on the tree of the tests scanned at `test/templates`: fourteen
entries are visited, three of them are leaves. -/
theorem findTemplates_one_plan_per_leaf_witness :
    Stat testDirFS (Clean "test/templates".toList) = .ok (.dir templatesListing none) ∧
    Node.firstError (.dir templatesListing none) = none ∧
    (Node.visits (Clean "test/templates".toList) (.dir templatesListing none)).length = 14 ∧
    visitedLeaves "includes".toList "layout.html".toList
        (Node.visits (Clean "test/templates".toList) (.dir templatesListing none))
      = ["test/templates/profile/edit.html".toList,
         "test/templates/profile/payments/methods.html".toList,
         "test/templates/profile/view.html".toList] ∧
    List.Forall₂ (fun path plan => plan.files.getLast? = some path)
      (visitedLeaves "includes".toList "layout.html".toList
        (Node.visits (Clean "test/templates".toList) (.dir templatesListing none)))
      (findTemplates insertionSorter testDirFS "test/templates".toList "includes".toList
        "layout.html".toList).1 :=
  ⟨by rfl, by decide, by decide, by decide,
    (findTemplates_one_plan_per_leaf insertionSorter testDirFS "test/templates".toList
      "includes".toList "layout.html".toList (.dir templatesListing none) (by rfl)
      (by decide)).2.1⟩

/-- Lists that are permutations of each other and both ordered by length have the
same entries satisfying `p`, in the same order, when no two such entries have the same
length. -/
theorem filter_eq_of_perm_of_sorted (p : Path → Bool) (L1 L2 : List Path)
    (hperm : L1.Perm L2)
    (h1 : L1.Pairwise (fun a b => a.length ≤ b.length))
    (h2 : L2.Pairwise (fun a b => a.length ≤ b.length))
    (hnd : L1.Nodup)
    (hinj : ∀ a ∈ L1, ∀ b ∈ L1, p a = true → p b = true → a.length = b.length → a = b) :
    L1.filter p = L2.filter p ∧ (L1.filter p).Pairwise (fun a b => a.length < b.length) := by
  have strict : ∀ L : List Path, L.Perm L1 → L.Pairwise (fun a b => a.length ≤ b.length) →
      (L.filter p).Pairwise (fun a b => a.length < b.length) := by
    intro L hL hs
    have hndL : (L.filter p).Nodup := (hL.nodup_iff.mpr hnd).filter p
    have hboth := (hs.filter p).and hndL
    refine hboth.imp_of_mem ?_
    intro a b ha hb hab
    rw [List.mem_filter] at ha hb
    rcases Nat.lt_or_ge a.length b.length with hlt | hge
    · exact hlt
    · exfalso
      apply hab.2
      exact hinj a (hL.mem_iff.mp ha.1) b (hL.mem_iff.mp hb.1) ha.2 hb.2
        (Nat.le_antisymm hab.1 hge)
  have s1 := strict L1 (List.Perm.refl _) h1
  have s2 := strict L2 hperm.symm h2
  haveI : IsAntisymm Path (fun a b => a.length < b.length) :=
    ⟨fun a b hab hba => absurd hab (Nat.lt_asymm hba)⟩
  exact ⟨List.eq_of_perm_of_sorted (hperm.filter p) s1 s2, s1⟩

theorem length_joinElements_snoc (A : List Path) (f : Path) (hA : A ≠ []) :
    (joinElements (A ++ [f])).length = (joinElements A).length + 1 + f.length := by
  rw [joinElements_append_singleton A hA]
  simp only [List.length_append, List.length_cons]
  omega

/-- Two paths with the same last element and the same length whose directories are
prefixes of one path are equal. -/
theorem eq_of_length_eq_of_prefixes (A B : List Path) (f t : Path)
    (hA0 : A ≠ []) (hB0 : B ≠ [])
    (hlen : (joinElements (A ++ [f])).length = (joinElements (B ++ [f])).length)
    (ha : HasPrefix t (joinElements A) = true) (hb : HasPrefix t (joinElements B) = true) :
    joinElements (A ++ [f]) = joinElements (B ++ [f]) := by
  rw [length_joinElements_snoc A f hA0, length_joinElements_snoc B f hB0] at hlen
  have hl : (joinElements A).length = (joinElements B).length := by omega
  rw [HasPrefix_iff] at ha hb
  have hpre : joinElements A <+: joinElements B :=
    List.prefix_of_prefix_length_le ha hb (Nat.le_of_eq hl)
  have heq : joinElements A = joinElements B := hpre.eq_of_length hl
  rw [joinElements_append_singleton A hA0, joinElements_append_singleton B hB0, heq]

/-- Among the recorded layouts whose directory is a prefix of `t`, the length
determines the layout. -/
theorem layouts_length_injective {root : List Path} {includeDir layout : Path} {found : Found}
    (facts : ScanFacts root includeDir layout found) (t : Path) :
    ∀ a ∈ found.layouts, ∀ b ∈ found.layouts, HasPrefix t (Dir a) = true →
      HasPrefix t (Dir b) = true → a.length = b.length → a = b := by
  intro a ha b hb hpa hpb hlen
  obtain ⟨A, hA0, _, hja, hda⟩ := recorded_layout_form facts a ha
  obtain ⟨B, hB0, _, hjb, hdb⟩ := recorded_layout_form facts b hb
  rw [hda] at hpa
  rw [hdb] at hpb
  simp only [pathOfElements, hA0, hB0, if_false] at hpa hpb
  rw [hja, hjb] at hlen ⊢
  exact eq_of_length_eq_of_prefixes A B _ t hA0 hB0 hlen hpa hpb

/-- A recorded include directory is the path `.` (and then the cleaned include
directory name is `.`), or a directory followed by the cleaned include directory
name. -/
theorem recorded_includeDir_cases {root : List Path} {includeDir layout : Path} {found : Found}
    (facts : ScanFacts root includeDir layout found) (i : Path) (hi : i ∈ found.includeDirs) :
    (i = ['.'] ∧ includeDir = ['.']) ∨
    ∃ A, (∀ e ∈ A ++ [includeDir], validName e = true) ∧
      i = joinElements (A ++ [includeDir]) ∧ Dir i = pathOfElements A := by
  obtain ⟨M, hall, heq, hc⟩ := facts.includeDirs i hi
  have hbase := classify_includeDir hc
  rcases List.eq_nil_or_concat (root ++ M) with h0 | ⟨A, f, h0⟩
  · left
    rw [h0] at heq
    have hi : i = ['.'] := by rw [heq]; rfl
    refine ⟨hi, ?_⟩
    rw [← hbase, hi]; decide
  · right
    have h0 : root ++ M = A ++ [f] := by simpa using h0
    rw [h0] at hall heq
    have hj : i = joinElements (A ++ [f]) := by rw [heq]; simp [pathOfElements]
    have hf : f = includeDir := by
      rw [← hbase, hj]
      exact (Base_joinElements A f (hall f (by simp))).symm
    subst hf
    refine ⟨A, hall, hj, ?_⟩
    rw [hj]
    exact Dir_joinElements A _ (valid_append_left hall) (validName_no_sep (hall _ (by simp)))

/-- Among the recorded include directories whose parent is a prefix of `t`, the
length determines the include directory. -/
theorem includeDirs_length_injective {root : List Path} {includeDir layout : Path}
    {found : Found} (facts : ScanFacts root includeDir layout found) (t : Path) :
    ∀ a ∈ found.includeDirs, ∀ b ∈ found.includeDirs, HasPrefix t (Dir a) = true →
      HasPrefix t (Dir b) = true → a.length = b.length → a = b := by
  intro a ha b hb hpa hpb hlen
  rcases recorded_includeDir_cases facts a ha with ⟨ha1, hinc⟩ | ⟨A, hAall, hja, hda⟩
  · rcases recorded_includeDir_cases facts b hb with ⟨hb1, _⟩ | ⟨B, hBall, _, _⟩
    · rw [ha1, hb1]
    · exfalso
      have := hBall includeDir (by simp)
      rw [hinc, not_validName_dot] at this
      cases this
  · rcases recorded_includeDir_cases facts b hb with ⟨_, hinc⟩ | ⟨B, hBall, hjb, hdb⟩
    · exfalso
      have := hAall includeDir (by simp)
      rw [hinc, not_validName_dot] at this
      cases this
    · rw [hda] at hpa
      rw [hdb] at hpb
      rw [hja, hjb] at hlen ⊢
      by_cases hA0 : A = []
      · by_cases hB0 : B = []
        · rw [hA0, hB0]
        · exfalso
          rw [hA0, length_joinElements_snoc B _ hB0] at hlen
          simp [joinElements] at hlen
      · by_cases hB0 : B = []
        · exfalso
          rw [hB0, length_joinElements_snoc A _ hA0] at hlen
          simp [joinElements] at hlen
        · simp only [pathOfElements, hA0, hB0, if_false] at hpa hpb
          exact eq_of_length_eq_of_prefixes A B _ t hA0 hB0 hlen hpa hpb

/-- The plan of a template does not depend on which sorted permutations of the
recorded include directories and layouts are used. -/
theorem planFor_eq_of_sorted_perm {root : List Path} {includeDir layout : Path}
    {found : Found} (facts : ScanFacts root includeDir layout found)
    (hndl : found.layouts.Nodup) (hndi : found.includeDirs.Nodup)
    (dir : Path) (I1 I2 L1 L2 : List Path)
    (hI1 : I1.Perm found.includeDirs) (hI2 : I2.Perm found.includeDirs)
    (hL1 : L1.Perm found.layouts) (hL2 : L2.Perm found.layouts)
    (sI1 : I1.Pairwise (fun a b => a.length ≤ b.length))
    (sI2 : I2.Pairwise (fun a b => a.length ≤ b.length))
    (sL1 : L1.Pairwise (fun a b => a.length ≤ b.length))
    (sL2 : L2.Pairwise (fun a b => a.length ≤ b.length)) (t : Path) :
    planFor dir I1 L1 t = planFor dir I2 L2 t ∧
    (planFor dir I1 L1 t).includes.Pairwise (fun a b => a.length < b.length) ∧
    (planFor dir I1 L1 t).files.dropLast.Pairwise (fun a b => a.length < b.length) := by
  have hi := filter_eq_of_perm_of_sorted (fun i => HasPrefix t (Dir i)) I1 I2
    (hI1.trans hI2.symm) sI1 sI2 (hI1.nodup_iff.mpr hndi)
    (fun a ha b hb => includeDirs_length_injective facts t a (hI1.mem_iff.mp ha) b
      (hI1.mem_iff.mp hb))
  have hl := filter_eq_of_perm_of_sorted (fun l => HasPrefix t (Dir l)) L1 L2
    (hL1.trans hL2.symm) sL1 sL2 (hL1.nodup_iff.mpr hndl)
    (fun a ha b hb => layouts_length_injective facts t a (hL1.mem_iff.mp ha) b
      (hL1.mem_iff.mp hb))
  refine ⟨?_, hi.2, ?_⟩
  · simp only [planFor, hi.1, hl.1]
  · simpa [planFor] using hl.2

theorem foundOf_templates (includeDir layout : Path) (vs : List (Path × Bool)) :
    (foundOf includeDir layout vs).templates =
      (vs.filter (fun v => classify (Clean includeDir) layout v.1 v.2 = .PlainTemplate)).map
        Prod.fst := by
  unfold foundOf; rw [foldl_record_templates]; rfl

theorem foundOf_layouts (includeDir layout : Path) (vs : List (Path × Bool)) :
    (foundOf includeDir layout vs).layouts =
      (vs.filter (fun v => classify (Clean includeDir) layout v.1 v.2 = .Layout)).map
        Prod.fst := by
  unfold foundOf; rw [foldl_record_layouts]; rfl

theorem foundOf_includeDirs (includeDir layout : Path) (vs : List (Path × Bool)) :
    (foundOf includeDir layout vs).includeDirs =
      (vs.filter (fun v => classify (Clean includeDir) layout v.1 v.2 = .IncludeDir)).map
        Prod.fst := by
  unfold foundOf; rw [foldl_record_includeDirs]; rfl

/-- A successful scan records what the walk's entries give, in walk order. -/
theorem scan_ok_foundOf (files : FS) (dir includeDir layout : Path) (found : Found)
    (h : scan files dir includeDir layout = .ok found) :
    ∃ node, Stat files (Clean dir) = .ok node ∧ node.firstError = none ∧
      found = foundOf includeDir layout (node.visits (Clean dir)) := by
  rw [scan_eq] at h
  cases hs : Stat files (Clean dir) with
  | error e => simp [hs] at h
  | ok node =>
    simp only [hs] at h
    cases hfe : node.firstError with
    | some e => simp [hfe] at h
    | none =>
      simp only [hfe] at h
      refine ⟨node, rfl, hfe, ?_⟩
      cases h; rfl

theorem scan_of_walk_ok (files : FS) (dir includeDir layout : Path) (node : Node)
    (hstat : Stat files (Clean dir) = .ok node) (hwalk : node.firstError = none) :
    scan files dir includeDir layout
      = .ok (foundOf includeDir layout (node.visits (Clean dir))) := by
  rw [scan_eq, hstat]
  simp only [hwalk]
  rfl

theorem foundOf_nodup (includeDir layout : Path) (vs : List (Path × Bool))
    (hnd : (vs.map Prod.fst).Nodup) :
    (foundOf includeDir layout vs).layouts.Nodup ∧
    (foundOf includeDir layout vs).includeDirs.Nodup ∧
    (foundOf includeDir layout vs).templates.Nodup := by
  rw [foundOf_layouts, foundOf_includeDirs, foundOf_templates]
  exact ⟨hnd.sublist ((List.filter_sublist _).map _), hnd.sublist ((List.filter_sublist _).map _),
    hnd.sublist ((List.filter_sublist _).map _)⟩

/-- **C19** Over a tree of valid names whose visited entries have distinct paths, in
every plan returned by `findTemplates` the layout files listed (the `files` without
the leaf) are strictly increasing in path length, and so are the include directories
listed; and `findTemplates` returns the same result whatever sort meeting the contract
of `sort.Slice` is used, so the way ties are broken changes no plan. -/
theorem findTemplates_plans_without_length_ties (S : Sorter) (files : FS)
    (dir includeDir layout : Path) (hvalid : Node.valid files = true)
    (hdistinct : (entryPaths files dir).Nodup) :
    (∀ plan ∈ (findTemplates S files dir includeDir layout).1,
      plan.files.dropLast.Pairwise (fun a b => a.length < b.length) ∧
      plan.includes.Pairwise (fun a b => a.length < b.length)) ∧
    ∀ S2 : Sorter, findTemplates S2 files dir includeDir layout
      = findTemplates S files dir includeDir layout := by
  cases hscan : scan files dir includeDir layout with
  | error e =>
    refine ⟨?_, ?_⟩
    · intro plan hplan
      rw [findTemplates_error S files dir includeDir layout e hscan] at hplan
      simp at hplan
    · intro S2
      rw [findTemplates_error S files dir includeDir layout e hscan,
        findTemplates_error S2 files dir includeDir layout e hscan]
  | ok found =>
    obtain ⟨root, _, _, facts⟩ := scan_facts files dir includeDir layout found hvalid hscan
    obtain ⟨node, hstat, _, hfound⟩ := scan_ok_foundOf files dir includeDir layout found hscan
    have hnd : (found.layouts.Nodup ∧ found.includeDirs.Nodup ∧ found.templates.Nodup) := by
      rw [hfound]
      apply foundOf_nodup
      simpa [entryPaths, hstat] using hdistinct
    have key : ∀ (Sa Sb : Sorter) (t : Path),
        planFor (Clean dir) (Sa.sort lessByLen found.includeDirs)
            (Sa.sort lessByLen found.layouts) t
          = planFor (Clean dir) (Sb.sort lessByLen found.includeDirs)
            (Sb.sort lessByLen found.layouts) t ∧
        (planFor (Clean dir) (Sa.sort lessByLen found.includeDirs)
            (Sa.sort lessByLen found.layouts) t).includes.Pairwise
            (fun a b => a.length < b.length) ∧
        (planFor (Clean dir) (Sa.sort lessByLen found.includeDirs)
            (Sa.sort lessByLen found.layouts) t).files.dropLast.Pairwise
            (fun a b => a.length < b.length) := by
      intro Sa Sb t
      exact planFor_eq_of_sorted_perm facts hnd.1 hnd.2.1 (Clean dir) _ _ _ _
        (Sa.perm lessByLen _) (Sb.perm lessByLen _) (Sa.perm lessByLen _) (Sb.perm lessByLen _)
        (sort_lessByLen_sorted Sa _) (sort_lessByLen_sorted Sb _)
        (sort_lessByLen_sorted Sa _) (sort_lessByLen_sorted Sb _) t
    refine ⟨?_, ?_⟩
    · intro plan hplan
      rw [findTemplates_ok S files dir includeDir layout found hscan] at hplan
      rw [List.mem_map] at hplan
      obtain ⟨t, _, rfl⟩ := hplan
      exact ⟨(key S S t).2.2, (key S S t).2.1⟩
    · intro S2
      rw [findTemplates_ok S files dir includeDir layout found hscan,
        findTemplates_ok S2 files dir includeDir layout found hscan]
      congr 1
      apply List.map_congr_left
      intro t _
      exact (key S2 S t).1

/-- **C13** Over a tree of valid names whose entries have distinct paths: the tag of
an entry is a function of the entry alone, so when the same entries are visited in any
other order `vs`, the same paths are recorded as templates, as layouts and as include
directories; every leaf gets the same plan (identifier, includes and files), also with
another sort meeting the contract of `sort.Slice`; the plans are those of the walk in
another order, one per visited leaf in the order of `vs`. -/
theorem plans_independent_of_traversal_order (S1 S2 : Sorter) (files : FS)
    (dir includeDir layout : Path) (node : Node)
    (hvalid : Node.valid files = true)
    (hstat : Stat files (Clean dir) = .ok node) (hwalk : node.firstError = none)
    (hdistinct : ((node.visits (Clean dir)).map Prod.fst).Nodup)
    (vs : List (Path × Bool)) (horder : vs.Perm (node.visits (Clean dir))) :
    findTemplates S1 files dir includeDir layout
      = (plansOfVisits S1 dir includeDir layout (node.visits (Clean dir)), none) ∧
    (foundOf includeDir layout vs).templates.Perm
      (foundOf includeDir layout (node.visits (Clean dir))).templates ∧
    (foundOf includeDir layout vs).layouts.Perm
      (foundOf includeDir layout (node.visits (Clean dir))).layouts ∧
    (foundOf includeDir layout vs).includeDirs.Perm
      (foundOf includeDir layout (node.visits (Clean dir))).includeDirs ∧
    (∀ t, planFor (Clean dir) (S2.sort lessByLen (foundOf includeDir layout vs).includeDirs)
          (S2.sort lessByLen (foundOf includeDir layout vs).layouts) t
        = planFor (Clean dir)
          (S1.sort lessByLen (foundOf includeDir layout (node.visits (Clean dir))).includeDirs)
          (S1.sort lessByLen (foundOf includeDir layout (node.visits (Clean dir))).layouts) t) ∧
    (plansOfVisits S2 dir includeDir layout vs).Perm
      (plansOfVisits S1 dir includeDir layout (node.visits (Clean dir))) ∧
    List.Forall₂ (fun path plan => plan.files.getLast? = some path)
      (visitedLeaves includeDir layout vs) (plansOfVisits S2 dir includeDir layout vs) := by
  have hscan := scan_of_walk_ok files dir includeDir layout node hstat hwalk
  obtain ⟨root, _, _, facts⟩ := scan_facts files dir includeDir layout _ hvalid hscan
  have hnd := foundOf_nodup includeDir layout _ hdistinct
  have pt : (foundOf includeDir layout vs).templates.Perm
      (foundOf includeDir layout (node.visits (Clean dir))).templates := by
    rw [foundOf_templates, foundOf_templates]; exact (horder.filter _).map _
  have pl : (foundOf includeDir layout vs).layouts.Perm
      (foundOf includeDir layout (node.visits (Clean dir))).layouts := by
    rw [foundOf_layouts, foundOf_layouts]; exact (horder.filter _).map _
  have pi : (foundOf includeDir layout vs).includeDirs.Perm
      (foundOf includeDir layout (node.visits (Clean dir))).includeDirs := by
    rw [foundOf_includeDirs, foundOf_includeDirs]; exact (horder.filter _).map _
  have key : ∀ t, planFor (Clean dir)
        (S2.sort lessByLen (foundOf includeDir layout vs).includeDirs)
        (S2.sort lessByLen (foundOf includeDir layout vs).layouts) t
      = planFor (Clean dir)
        (S1.sort lessByLen (foundOf includeDir layout (node.visits (Clean dir))).includeDirs)
        (S1.sort lessByLen (foundOf includeDir layout (node.visits (Clean dir))).layouts) t := by
    intro t
    exact ((planFor_eq_of_sorted_perm facts hnd.1 hnd.2.1 (Clean dir) _ _ _ _
      (S1.perm lessByLen _) ((S2.perm lessByLen _).trans pi)
      (S1.perm lessByLen _) ((S2.perm lessByLen _).trans pl)
      (sort_lessByLen_sorted S1 _) (sort_lessByLen_sorted S2 _)
      (sort_lessByLen_sorted S1 _) (sort_lessByLen_sorted S2 _) t).1).symm
  refine ⟨?_, pt, pl, pi, key, ?_, ?_⟩
  · rw [findTemplates_ok S1 files dir includeDir layout _ hscan]; rfl
  · unfold plansOfVisits
    rw [List.map_congr_left (fun t _ => key t)]
    exact pt.map _
  · unfold plansOfVisits
    rw [foundOf_templates, templates_eq_visitedLeaves]
    simp only [List.forall₂_map_right_iff, List.forall₂_same]
    intro t _
    simp [planFor]

theorem shellPass_perm (less : Path → Path → Bool) (front : List Path) :
    ∀ back, ((shellPass less front back).1 ++ (shellPass less front back).2).Perm
      (front ++ back) := by
  induction front with
  | nil => intro back; simp [shellPass]
  | cons x xs ih =>
    intro back
    cases back with
    | nil => simp [shellPass]
    | cons y ys =>
      simp only [shellPass]
      have h := ih ys
      have hmid : (x :: (xs ++ y :: ys)).Perm (x :: y :: (xs ++ ys)) :=
        List.Perm.cons x List.perm_middle
      split
      · simp only [List.cons_append]
        have h1 : (y :: ((shellPass less xs ys).1 ++ x :: (shellPass less xs ys).2)).Perm
            (y :: x :: ((shellPass less xs ys).1 ++ (shellPass less xs ys).2)) :=
          List.Perm.cons y List.perm_middle
        exact h1.trans ((List.Perm.swap x y _).trans
          ((List.Perm.cons x (List.Perm.cons y h)).trans hmid.symm))
      · simp only [List.cons_append]
        have h1 : (x :: ((shellPass less xs ys).1 ++ y :: (shellPass less xs ys).2)).Perm
            (x :: y :: ((shellPass less xs ys).1 ++ (shellPass less xs ys).2)) :=
          List.Perm.cons x List.perm_middle
        exact h1.trans ((List.Perm.cons x (List.Perm.cons y h)).trans hmid.symm)

theorem shellInsertionSort_perm (less : Path → Path → Bool) (l : List Path) :
    (shellInsertionSort less l).Perm l := by
  unfold shellInsertionSort
  split
  · refine (insertionSort_perm less _).trans ((shellPass_perm less _ _).trans ?_)
    rw [List.take_append_drop]
  · exact insertionSort_perm less l

theorem shellInsertionSort_sorted (key : Path → Nat) (l : List Path) :
    (shellInsertionSort (fun a b => decide (key a < key b)) l).Pairwise
      (fun a b => key a ≤ key b) := by
  unfold shellInsertionSort
  split
  · exact insertionSort_sorted key _
  · exact insertionSort_sorted key l

/-- The `sort.Slice` of Go 1.18 and earlier on short slices, as a sort that meets the
contract. -/
def shellInsertionSorter : Sorter where
  sort := shellInsertionSort
  perm := shellInsertionSort_perm
  sorted := shellInsertionSort_sorted

theorem sinkLeft_filter (key : Path → Nat) (k : Nat) (x : Path) (l : List Path) :
    (sinkLeft (fun a b => decide (key a < key b)) x l).filter (fun p => key p == k)
      = (x :: l).filter (fun p => key p == k) := by
  induction l with
  | nil => simp [sinkLeft]
  | cons y ys ih =>
    simp only [sinkLeft]
    split
    · rename_i hlt
      have hlt : key x < key y := by simpa using hlt
      rw [List.filter_cons, ih]
      by_cases hy : key y = k
      · have hx : key x ≠ k := by omega
        simp [List.filter_cons, hy, hx]
      · simp [List.filter_cons, hy]
    · rfl

/-- Insertion sort is stable: paths with the same key keep their order. -/
theorem insertionSort_stable (key : Path → Nat) (k : Nat) (l : List Path) :
    (insertionSort (fun a b => decide (key a < key b)) l).filter (fun p => key p == k)
      = l.filter (fun p => key p == k) := by
  have inv : ∀ (l acc : List Path),
      (l.foldl (fun sortedRev x => sinkLeft (fun a b => decide (key a < key b)) x sortedRev)
        acc).filter (fun p => key p == k)
      = (l.reverse ++ acc).filter (fun p => key p == k) := by
    intro l
    induction l with
    | nil => intro acc; simp
    | cons x xs ih =>
      intro acc
      rw [List.foldl_cons, ih, List.filter_append, sinkLeft_filter, ← List.filter_append]
      simp
  unfold insertionSort
  rw [List.filter_reverse, inv l []]
  simp [List.filter_reverse]

/-- **C12** (counterexample) The seven layouts of the tree `sevenLayoutsFS`, sorted by
the `sort.Slice` of Go 1.18 (Shell pass with gap 6, then insertion sort): the shortest
path `root/layout.html`, discovered last, is swapped with `root/aa/layout.html`, which
ends up behind the five paths of its own length that were discovered after it. The
sort does not keep the discovery order of paths of equal length. -/
theorem sort_by_length_not_stable :
    (scan sevenLayoutsFS "root".toList "includes".toList "layout.html".toList).toOption.map
      Found.layouts = some sevenLayouts ∧
    shellInsertionSorter.sort lessByLen sevenLayouts =
      ["root/layout.html".toList, "root/ab/layout.html".toList, "root/ac/layout.html".toList,
       "root/ad/layout.html".toList, "root/ae/layout.html".toList,
       "root/af/layout.html".toList, "root/aa/layout.html".toList] ∧
    ¬ keepsDiscoveryOrder (shellInsertionSorter.sort lessByLen sevenLayouts) sevenLayouts := by
  refine ⟨by decide, by decide, ?_⟩
  intro h
  exact absurd (h 19) (by decide)

/-- **C12** (amended) The sort of the recorded paths orders them by length ascending:
for every sort meeting the contract of `sort.Slice`, and for the two algorithms that
Go runs on short slices, the result is a permutation of the recorded paths in which
no path comes before a shorter one. Plain insertion sort also keeps the discovery
order of paths of equal length. -/
theorem sort_by_length_ascending (S : Sorter) (l : List Path) :
    ((S.sort lessByLen l).Perm l ∧
      (S.sort lessByLen l).Pairwise (fun a b => a.length ≤ b.length)) ∧
    ((insertionSort lessByLen l).Perm l ∧
      (insertionSort lessByLen l).Pairwise (fun a b => a.length ≤ b.length) ∧
      keepsDiscoveryOrder (insertionSort lessByLen l) l) ∧
    ((shellInsertionSort lessByLen l).Perm l ∧
      (shellInsertionSort lessByLen l).Pairwise (fun a b => a.length ≤ b.length)) :=
  ⟨⟨S.perm lessByLen l, sort_lessByLen_sorted S l⟩,
    ⟨insertionSort_perm lessByLen l, insertionSort_sorted List.length l,
      fun k => insertionSort_stable List.length k l⟩,
    ⟨shellInsertionSort_perm lessByLen l, shellInsertionSort_sorted List.length l⟩⟩

theorem sevenLayouts_valid : Node.valid sevenLayoutsFS = true := by decide

/-- Witness of C19 on the tree with seven layouts: the two sorts order the recorded
layouts differently, and the plans are the same. -/
theorem findTemplates_plans_without_length_ties_witness :
    Node.valid sevenLayoutsFS = true ∧ (entryPaths sevenLayoutsFS "root".toList).Nodup ∧
    shellInsertionSorter.sort lessByLen sevenLayouts
      ≠ insertionSorter.sort lessByLen sevenLayouts ∧
    findTemplates insertionSorter sevenLayoutsFS "root".toList "includes".toList
      "layout.html".toList =
      ([{ id := "aa/x".toList, includes := [],
          files := ["root/layout.html".toList, "root/aa/layout.html".toList,
            "root/aa/x.html".toList] }], none) ∧
    ((∀ plan ∈ (findTemplates insertionSorter sevenLayoutsFS "root".toList
          "includes".toList "layout.html".toList).1,
        plan.files.dropLast.Pairwise (fun a b => a.length < b.length) ∧
        plan.includes.Pairwise (fun a b => a.length < b.length)) ∧
      ∀ S2 : Sorter, findTemplates S2 sevenLayoutsFS "root".toList "includes".toList
          "layout.html".toList
        = findTemplates insertionSorter sevenLayoutsFS "root".toList "includes".toList
          "layout.html".toList) :=
  ⟨sevenLayouts_valid, by decide, by decide, by decide,
    findTemplates_plans_without_length_ties insertionSorter sevenLayoutsFS "root".toList
      "includes".toList "layout.html".toList sevenLayouts_valid (by decide)⟩

/-- Witness of C13 on the tree `root/profile/view.html` next to `root/layout.html`,
with the four entries visited in reverse order. -/
theorem plans_independent_of_traversal_order_witness :
    Node.valid templatesDirFS = true ∧
    Node.visits "templates".toList
        (.dir (.file "layout.html".toList
          (.dir "profile".toList (.file "view.html".toList .nil) none .nil)) none)
      = [("templates".toList, true), ("templates/layout.html".toList, false),
         ("templates/profile".toList, true), ("templates/profile/view.html".toList, false)] ∧
    plansOfVisits shellInsertionSorter "templates".toList "includes".toList
        "layout.html".toList
        [("templates/profile/view.html".toList, false), ("templates/profile".toList, true),
         ("templates/layout.html".toList, false), ("templates".toList, true)]
      = [{ id := "profile/view".toList, includes := [],
           files := ["templates/layout.html".toList,
             "templates/profile/view.html".toList] }] ∧
    (plansOfVisits shellInsertionSorter "templates".toList "includes".toList
        "layout.html".toList
        [("templates/profile/view.html".toList, false), ("templates/profile".toList, true),
         ("templates/layout.html".toList, false), ("templates".toList, true)]).Perm
      (plansOfVisits insertionSorter "templates".toList "includes".toList
        "layout.html".toList
        (Node.visits (Clean "templates".toList)
          (.dir (.file "layout.html".toList
            (.dir "profile".toList (.file "view.html".toList .nil) none .nil)) none))) :=
  ⟨by decide, by decide, by decide,
    (plans_independent_of_traversal_order insertionSorter shellInsertionSorter templatesDirFS
      "templates".toList "includes".toList "layout.html".toList
      (.dir (.file "layout.html".toList
        (.dir "profile".toList (.file "view.html".toList .nil) none .nil)) none)
      (by decide) (by rfl) (by decide) (by decide)
      [("templates/profile/view.html".toList, false), ("templates/profile".toList, true),
       ("templates/layout.html".toList, false), ("templates".toList, true)]
      (by decide)).2.2.2.2.2.1⟩

theorem foldl_includeStep_error {U F D : Type} (E : Engine U F D) (files : FS)
    (e : ParseError) (includes : List Path) :
    includes.foldl (includeStep E files) (.error e) = .error e := by
  induction includes with
  | nil => rfl
  | cons f rest ih => simpa [includeStep] using ih

theorem parseIncludes_eq_foldl {U F D : Type} (E : Engine U F D) (files : FS)
    (includes : List Path) :
    ∀ t : U, parseIncludes E files t includes
      = includes.foldl (includeStep E files) (.ok t) := by
  induction includes with
  | nil => intro t; rfl
  | cons f rest ih =>
    intro t
    simp only [parseIncludes, List.foldl_cons, includeStep]
    cases E.Glob files (f ++ [Separator] ++ ['*']) with
    | error err => simp only; rw [foldl_includeStep_error]
    | ok children =>
      simp only
      cases E.ParseFS t files children with
      | error err => simp only; rw [foldl_includeStep_error]
      | ok t1 => exact ih t1

theorem parsePlans_eq_registerAll {U F D : Type} (E : Engine U F D) (files : FS)
    (layout : Path) (funcMap : List (Path × F)) (plans : List templateInfo) :
    ∀ registry : Registry U, parsePlans E files layout funcMap registry plans =
      match registerAll (compilePlan E files layout funcMap) registry plans with
      | .ok built => (some built, none)
      | .error e => (none, some e) := by
  induction plans with
  | nil => intro registry; rfl
  | cons plan rest ih =>
    intro registry
    simp only [parsePlans, registerAll, compilePlan, parseIncludes_eq_foldl]
    cases plan.includes.foldl (includeStep E files) (.ok (E.New layout funcMap)) with
    | error e => rfl
    | ok t =>
      simp only
      cases E.ParseFS t files plan.files with
      | error err => rfl
      | ok unit => exact ih _

/-- **C15** `parseFS` builds the registry plan by plan, in the order of the plans:
for each plan the engine gets a fresh unit, then one compile step per include
directory in the order of the plan's `includes`, each fed with what the glob `dir/*`
returns, then one final step fed with the plan's `files` (layouts, then the leaf), and
the resulting unit is stored under the plan's identifier. The first failing step
aborts the build with its error. -/
theorem parseFS_compiles_plans_in_order {U F D : Type} (S : Sorter) (E : Engine U F D)
    (files : FS) (dir includeDir layout : Path) (funcMap : List (Path × F)) :
    parseFS S E files dir includeDir layout funcMap =
      match findTemplates S files dir includeDir layout with
      | (_, some err) => (none, some err)
      | (plans, none) =>
        match registerAll (compilePlan E files layout funcMap) [] plans with
        | .ok built => (some built, none)
        | .error e => (none, some e) := by
  unfold parseFS
  cases findTemplates S files dir includeDir layout with
  | mk plans oe =>
    cases oe with
    | some err => rfl
    | none => exact parsePlans_eq_registerAll E files layout funcMap plans []

/-- Example of C15 on the tree of the tests, with the engine that logs its steps: the
unit stored under `profile/payments/methods` got the children of the root include
directory, then those of `profile/payments/includes`, then the three layouts followed
by the leaf. -/
theorem parseFS_compiles_plans_in_order_witness :
    (parseFS insertionSorter stepLogEngine testDirFS "test/templates".toList
        "includes".toList "layout.html".toList []).2 = none ∧
    ((parseFS insertionSorter stepLogEngine testDirFS "test/templates".toList
        "includes".toList "layout.html".toList []).1.bind
        (fun built => Registry.get built "profile/payments/methods".toList))
      = some [["test/templates/includes/footer.html".toList,
               "test/templates/includes/header.html".toList],
              ["test/templates/profile/payments/includes/method.html".toList],
              ["test/templates/layout.html".toList,
               "test/templates/profile/layout.html".toList,
               "test/templates/profile/payments/layout.html".toList,
               "test/templates/profile/payments/methods.html".toList]] ∧
    parseFS insertionSorter stepLogEngine testDirFS "test/templates".toList
        "includes".toList "layout.html".toList [] =
      match findTemplates insertionSorter testDirFS "test/templates".toList
        "includes".toList "layout.html".toList with
      | (_, some err) => (none, some err)
      | (plans, none) =>
        match registerAll (compilePlan stepLogEngine testDirFS "layout.html".toList []) []
          plans with
        | .ok built => (some built, none)
        | .error e => (none, some e) :=
  ⟨by decide, by decide,
    parseFS_compiles_plans_in_order insertionSorter stepLogEngine testDirFS
      "test/templates".toList "includes".toList "layout.html".toList []⟩

theorem Registry.get_set {U : Type} (m : Registry U) (k : Path) (v : U) (k2 : Path) :
    Registry.get (Registry.set m k v) k2 = if k = k2 then some v else Registry.get m k2 := by
  induction m with
  | nil => simp [Registry.set, Registry.get]
  | cons kv rest ih =>
    obtain ⟨k1, v1⟩ := kv
    simp only [Registry.set]
    by_cases h1 : k1 = k
    · subst h1
      simp only [if_true, Registry.get]
      by_cases h2 : k1 = k2 <;> simp [h2]
    · simp only [h1, if_false, Registry.get, ih]
      by_cases h2 : k1 = k2
      · subst h2
        have : ¬ k = k1 := fun h => h1 h.symm
        simp [this]
      · simp [h2]

theorem Registry.keys_set {U : Type} (m : Registry U) (k : Path) (v : U) :
    (∀ k2, k2 ∈ (Registry.set m k v).map Prod.fst ↔ k2 = k ∨ k2 ∈ m.map Prod.fst) ∧
    ((m.map Prod.fst).Nodup → ((Registry.set m k v).map Prod.fst).Nodup) := by
  induction m with
  | nil => simp [Registry.set]
  | cons kv rest ih =>
    obtain ⟨k1, v1⟩ := kv
    simp only [Registry.set]
    by_cases h1 : k1 = k
    · subst h1
      simp only [if_true, List.map_cons, List.mem_cons]
      exact ⟨fun k2 => by tauto, fun h => h⟩
    · simp only [h1, if_false, List.map_cons, List.mem_cons, List.nodup_cons]
      refine ⟨fun k2 => ?_, fun hnd0 => ⟨?_, ih.2 hnd0.2⟩⟩
      · rw [ih.1 k2]; tauto
      · intro hmem
        rcases (ih.1 k1).mp hmem with h | h
        · exact h1 h
        · exact hnd0.1 h

theorem getLast?_cons_of_some {α : Type} (a : α) (l : List α) (q : α)
    (h : l.getLast? = some q) : (a :: l).getLast? = some q := by
  obtain ⟨ys, hys⟩ := List.getLast?_eq_some_iff.mp h
  exact List.getLast?_eq_some_iff.mpr ⟨a :: ys, by rw [hys]; rfl⟩

theorem exists_ok_of_isSome {ε α : Type} (x : Except ε α)
    (h : x.toOption.isSome = true) : ∃ unit, x = .ok unit := by
  cases x with
  | error e => simp [Except.toOption] at h
  | ok u => exact ⟨u, rfl⟩

/-- What the registry of the specification holds when every plan compiles. -/
theorem registerAll_ok {U : Type} (compile : templateInfo → Except ParseError U)
    (plans : List templateInfo) :
    ∀ registry : Registry U, (∀ plan ∈ plans, ∃ unit, compile plan = .ok unit) →
      ∃ built, registerAll compile registry plans = .ok built ∧
        (∀ k, k ∈ built.map Prod.fst ↔
          k ∈ plans.map templateInfo.id ∨ k ∈ registry.map Prod.fst) ∧
        ((registry.map Prod.fst).Nodup → (built.map Prod.fst).Nodup) ∧
        ∀ k, Registry.get built k =
          match (plans.filter (fun plan => plan.id = k)).getLast? with
          | some plan => (compile plan).toOption
          | none => Registry.get registry k := by
  induction plans with
  | nil =>
    intro registry _
    refine ⟨registry, rfl, fun k => ?_, fun h => h, fun k => rfl⟩
    simp only [List.map_nil, List.not_mem_nil, false_or]
  | cons plan rest ih =>
    intro registry hall
    obtain ⟨unit, hunit⟩ := hall plan (by simp)
    obtain ⟨built, hb, hkeys, hnd, hget⟩ :=
      ih (Registry.set registry plan.id unit) (fun p hp => hall p (by simp [hp]))
    have hset := Registry.keys_set registry plan.id unit
    refine ⟨built, by simp only [registerAll, hunit]; exact hb, ?_, ?_, ?_⟩
    · intro k
      rw [hkeys k, hset.1 k]
      simp only [List.map_cons, List.mem_cons]
      tauto
    · intro h; exact hnd (hset.2 h)
    · intro k
      rw [hget k]
      by_cases hk : plan.id = k
      · have hf : (plan :: rest).filter (fun plan => plan.id = k)
            = plan :: rest.filter (fun plan => plan.id = k) := by
          simp [List.filter_cons, hk]
        rw [hf]
        cases hr : (rest.filter (fun plan => plan.id = k)).getLast? with
        | some q => rw [getLast?_cons_of_some plan _ q hr]
        | none =>
          have hnil : rest.filter (fun plan => plan.id = k) = [] :=
            List.getLast?_eq_none_iff.mp hr
          rw [hnil]
          simp only [List.getLast?_singleton, Registry.get_set, hk, if_true, hunit]
          rfl
      · have hf : (plan :: rest).filter (fun plan => plan.id = k)
            = rest.filter (fun plan => plan.id = k) := by
          simp [List.filter_cons, hk]
        rw [hf]
        cases hr : (rest.filter (fun plan => plan.id = k)).getLast? with
        | some q => rfl
        | none => simp only [Registry.get_set, hk, if_false]

/-- **C17** When the traversal succeeds and every plan compiles, also when several
leaves derive the same identifier: `parseFS` returns a registry and no error; the
registry has exactly one entry for each identifier of a plan; and under an identifier
it holds the unit compiled from the last plan with that identifier, that is, from the
leaf visited later (last write wins). -/
theorem parseFS_last_write_wins {U F D : Type} (S : Sorter) (E : Engine U F D)
    (files : FS) (dir includeDir layout : Path) (funcMap : List (Path × F))
    (hwalk : (findTemplates S files dir includeDir layout).2 = none)
    (hcompile : ∀ plan ∈ (findTemplates S files dir includeDir layout).1,
      ∃ unit, compilePlan E files layout funcMap plan = .ok unit) :
    ∃ built, parseFS S E files dir includeDir layout funcMap = (some built, none) ∧
      (built.map Prod.fst).Nodup ∧
      (∀ k, k ∈ built.map Prod.fst ↔
        k ∈ (findTemplates S files dir includeDir layout).1.map templateInfo.id) ∧
      ∀ k, Registry.get built k =
        match ((findTemplates S files dir includeDir layout).1.filter
          (fun plan => plan.id = k)).getLast? with
        | some plan => (compilePlan E files layout funcMap plan).toOption
        | none => none := by
  obtain ⟨built, hb, hkeys, hnd, hget⟩ :=
    registerAll_ok (compilePlan E files layout funcMap)
      (findTemplates S files dir includeDir layout).1 [] hcompile
  refine ⟨built, ?_, hnd (by simp), ?_, ?_⟩
  · unfold parseFS
    cases hf : findTemplates S files dir includeDir layout with
    | mk plans oe =>
      rw [hf] at hwalk hb
      simp only at hwalk
      subst hwalk
      simp only [parsePlans_eq_registerAll]
      simp only at hb
      rw [hb]
  · intro k; rw [hkeys k]; simp
  · intro k; rw [hget k]; rfl

/-- Example of C17: `root/profile/view.html` and `root/profile/view.txt` both derive
`profile/view`; the registry has one entry, compiled from `view.txt`, the leaf visited
later. -/
theorem parseFS_last_write_wins_witness :
    (findTemplates insertionSorter collidingFS "root".toList "includes".toList
        "layout.html".toList).1.map (fun plan => (plan.id, plan.files)) =
      [("profile/view".toList, ["root/profile/view.html".toList]),
       ("profile/view".toList, ["root/profile/view.txt".toList])] ∧
    parseFS insertionSorter stepLogEngine collidingFS "root".toList "includes".toList
        "layout.html".toList [] =
      (some [("profile/view".toList, [["root/profile/view.txt".toList]])], none) ∧
    ∃ built, parseFS insertionSorter stepLogEngine collidingFS "root".toList
        "includes".toList "layout.html".toList [] = (some built, none) ∧
      (built.map Prod.fst).Nodup ∧
      (∀ k, k ∈ built.map Prod.fst ↔
        k ∈ (findTemplates insertionSorter collidingFS "root".toList "includes".toList
          "layout.html".toList).1.map templateInfo.id) ∧
      ∀ k, Registry.get built k =
        match ((findTemplates insertionSorter collidingFS "root".toList "includes".toList
          "layout.html".toList).1.filter (fun plan => plan.id = k)).getLast? with
        | some plan => (compilePlan stepLogEngine collidingFS "layout.html".toList []
            plan).toOption
        | none => none :=
  ⟨by decide, by decide,
    parseFS_last_write_wins insertionSorter stepLogEngine collidingFS "root".toList
      "includes".toList "layout.html".toList [] (by decide)
      (fun plan hplan => exists_ok_of_isSome _
        ((by decide : ∀ plan ∈ (findTemplates insertionSorter collidingFS "root".toList
            "includes".toList "layout.html".toList).1,
          (compilePlan stepLogEngine collidingFS "layout.html".toList []
            plan).toOption.isSome = true) plan hplan))⟩

/-- **C14** (counterexample) On the tree of the tests, a build whose glob expansion
fails (a discovery failure) and a build whose engine rejects the sources (a compile
failure) return the same error value, a `ParseError` with the same path and the same
underlying error: the two failures cannot be told apart, by kind or otherwise. A
traversal failure is a `ParseError` as well. -/
theorem discovery_and_compile_failure_same_error :
    buildError (parseFS insertionSorter failingGlobEngine testDirFS "test/templates".toList
        "includes".toList "layout.html".toList [])
      = some (.parse { Path := "test/templates/includes/*".toList, Err := .other 7 }) ∧
    buildError (parseFS insertionSorter rejectingEngine testDirFS "test/templates".toList
        "includes".toList "layout.html".toList [])
      = some (.parse { Path := "test/templates/includes/*".toList, Err := .other 7 }) ∧
    buildError (parseFS insertionSorter failingGlobEngine testDirFS "test/templates".toList
        "includes".toList "layout.html".toList [])
      = buildError (parseFS insertionSorter rejectingEngine testDirFS
        "test/templates".toList "includes".toList "layout.html".toList []) ∧
    (buildError (parseFS insertionSorter rejectingEngine unreadableSubFS "root".toList
        "includes".toList "layout.html".toList [])).map TemplateError.kind
      = some .ParseError := by
  decide

theorem foldl_includeStep_error_path {U F D : Type} (E : Engine U F D) (files : FS)
    (includes : List Path) :
    ∀ (t : U) (e : ParseError), includes.foldl (includeStep E files) (.ok t) = .error e →
      ∃ f ∈ includes, e.Path = f ++ [Separator] ++ ['*'] := by
  induction includes with
  | nil => intro t e h; cases h
  | cons f rest ih =>
    intro t e h
    rw [List.foldl_cons] at h
    cases hstep : includeStep E files (.ok t) f with
    | ok t1 =>
      rw [hstep] at h
      obtain ⟨g, hg, hp⟩ := ih t1 e h
      exact ⟨g, List.mem_cons_of_mem _ hg, hp⟩
    | error e1 =>
      rw [hstep, foldl_includeStep_error] at h
      cases h
      refine ⟨f, List.mem_cons_self _ _, ?_⟩
      simp only [includeStep] at hstep
      cases hg : E.Glob files (f ++ [Separator] ++ ['*']) with
      | error err => rw [hg] at hstep; cases hstep; rfl
      | ok children =>
        rw [hg] at hstep
        simp only at hstep
        cases hp : E.ParseFS t files children with
        | error err => rw [hp] at hstep; cases hstep; rfl
        | ok t1 => rw [hp] at hstep; cases hstep

theorem compilePlan_error_path {U F D : Type} (E : Engine U F D) (files : FS) (layout : Path)
    (funcMap : List (Path × F)) (plan : templateInfo) (e : ParseError)
    (h : compilePlan E files layout funcMap plan = .error e) :
    (∃ f ∈ plan.includes, e.Path = f ++ [Separator] ++ ['*']) ∨
    e.Path = formatFiles plan.files := by
  unfold compilePlan at h
  cases hi : plan.includes.foldl (includeStep E files) (.ok (E.New layout funcMap)) with
  | error e1 =>
    rw [hi] at h
    cases h
    exact Or.inl (foldl_includeStep_error_path E files plan.includes _ _ hi)
  | ok t =>
    rw [hi] at h
    simp only at h
    cases hp : E.ParseFS t files plan.files with
    | error err => rw [hp] at h; cases h; exact Or.inr rfl
    | ok unit => rw [hp] at h; cases h

theorem registerAll_error {U : Type} (compile : templateInfo → Except ParseError U)
    (plans : List templateInfo) :
    ∀ (registry : Registry U) (e : ParseError),
      registerAll compile registry plans = .error e →
      ∃ plan ∈ plans, compile plan = .error e := by
  induction plans with
  | nil => intro registry e h; cases h
  | cons plan rest ih =>
    intro registry e h
    simp only [registerAll] at h
    cases hc : compile plan with
    | error e1 =>
      rw [hc] at h
      cases h
      exact ⟨plan, List.mem_cons_self _ _, hc⟩
    | ok unit =>
      rw [hc] at h
      obtain ⟨p, hp, hpe⟩ := ih _ e h
      exact ⟨p, List.mem_cons_of_mem _ hp, hpe⟩

/-- **C14** (amended) Every build failure is reported as a `ParseError`, whatever
failed: the error carries the cleaned scan root when the traversal failed, the glob
pattern `dir/*` when the glob expansion or the compile step of an include directory
failed, and the formatted list of files when the final compile step of a plan failed;
no registry is returned. A caller can tell a not-found error from a render error by
kind: `ExecuteTemplate` returns a `NotFoundError` only for a name that is not a key
and an `ExecuteError` only for a name that is, and never a `ParseError`. -/
theorem build_failures_are_ParseErrors {U F D : Type} (S : Sorter) (E : Engine U F D)
    (files : FS) (dir includeDir layout : Path) (funcMap : List (Path × F)) :
    (∀ e, (parseFS S E files dir includeDir layout funcMap).2 = some e →
      (buildError (parseFS S E files dir includeDir layout funcMap)).map TemplateError.kind
        = some .ParseError ∧
      (parseFS S E files dir includeDir layout funcMap).1 = none ∧
      (((findTemplates S files dir includeDir layout).2 = some e ∧ e.Path = Clean dir) ∨
       ∃ plan ∈ (findTemplates S files dir includeDir layout).1,
         (∃ f ∈ plan.includes, e.Path = f ++ [Separator] ++ ['*']) ∨
         e.Path = formatFiles plan.files)) ∧
    ∀ (t : Template U F) (w name : Path) (data : D) (err : TemplateError),
      (t.ExecuteTemplate E w name data).err = some err →
      (err.kind = .NotFoundError ↔ ¬ t.isKey name) ∧
      (err.kind = .ExecuteError ↔ t.isKey name) ∧
      err.kind ≠ .ParseError := by
  constructor
  · intro e he
    refine ⟨by simp [buildError, he, TemplateError.kind], parseFS_error S E files dir includeDir layout funcMap e he,
      ?_⟩
    unfold parseFS at he
    cases hf : findTemplates S files dir includeDir layout with
    | mk plans oe =>
      rw [hf] at he
      cases oe with
      | some err =>
        simp only [Option.some.injEq] at he
        subst he
        left
        refine ⟨rfl, ?_⟩
        unfold findTemplates at hf
        cases hscan : scan files dir includeDir layout with
        | error e1 => rw [hscan] at hf; cases hf; rfl
        | ok found => rw [hscan] at hf; cases hf
      | none =>
        right
        simp only [parsePlans_eq_registerAll] at he
        cases hr : registerAll (compilePlan E files layout funcMap) [] plans with
        | ok built => rw [hr] at he; cases he
        | error e1 =>
          rw [hr] at he
          simp only [Option.some.injEq] at he
          subst he
          obtain ⟨plan, hplan, hc⟩ := registerAll_error _ plans [] e1 hr
          exact ⟨plan, hplan, compilePlan_error_path E files layout funcMap plan e1 hc⟩
  · intro t w name data err herr
    cases hl : t.templates.bind (fun m => Registry.get m name) with
    | none =>
      have hk : ¬ t.isKey name := (Template.lookup_eq_none_iff t name).mp hl
      simp only [Template.ExecuteTemplate, hl, Option.some.injEq] at herr
      subst herr
      simp [TemplateError.kind, hk]
    | some tmpl =>
      have hk : t.isKey name := by
        by_contra hk
        rw [(Template.lookup_eq_none_iff t name).mpr hk] at hl
        cases hl
      simp only [Template.ExecuteTemplate, hl] at herr
      cases hx : E.Execute tmpl w data with
      | mk w1 oe =>
        rw [hx] at herr
        cases oe with
        | none => simp at herr
        | some e1 =>
          simp only [Option.some.injEq] at herr
          subst herr
          simp [TemplateError.kind, hk]

/-- Example of C14 (amended): the glob failure on the tree of the tests, and the
errors of `ExecuteTemplate`. -/
theorem build_failures_are_ParseErrors_witness :
    (parseFS insertionSorter failingGlobEngine testDirFS "test/templates".toList
        "includes".toList "layout.html".toList []).2
      = some { Path := "test/templates/includes/*".toList, Err := .other 7 } ∧
    ((parsedBefore.ExecuteTemplate listEngine [] "missing".toList ()).err.map
        TemplateError.kind) = some .NotFoundError ∧
    ((parsedBefore.ExecuteTemplate listEngine [] "empty".toList ()).err.map
        TemplateError.kind) = some .ExecuteError ∧
    ((buildError (parseFS insertionSorter failingGlobEngine testDirFS
        "test/templates".toList "includes".toList "layout.html".toList [])).map
        TemplateError.kind = some .ParseError ∧
      (parseFS insertionSorter failingGlobEngine testDirFS "test/templates".toList
        "includes".toList "layout.html".toList []).1 = none) :=
  ⟨by decide, by decide, by decide,
    ⟨((build_failures_are_ParseErrors insertionSorter failingGlobEngine testDirFS
        "test/templates".toList "includes".toList "layout.html".toList []).1
        { Path := "test/templates/includes/*".toList, Err := .other 7 } (by decide)).1,
     ((build_failures_are_ParseErrors insertionSorter failingGlobEngine testDirFS
        "test/templates".toList "includes".toList "layout.html".toList []).1
        { Path := "test/templates/includes/*".toList, Err := .other 7 } (by decide)).2.1⟩⟩

end Templatex
